import Mathlib

/-!
# CPU scheduling visualiser: FCFS, SJF, preemptive Priority, Round Robin

A shallow embedding of the scheduling logic of `src/components/FCFS.jsx`,
`SJF.jsx`, `PriorityScheduling.jsx` and `RR.jsx`.

Each component keeps its scheduler state in React state variables.  An effect
arms a timer for an asynchronous `simulationStep` closure; the effect re-runs,
clearing that timer and arming a new one, whenever one of its dependencies is
written.

* Every *read* of a state variable inside the closure sees the value the
  variable had in the render that made the closure.
* Every `setX(prev => f prev)` is applied, in program order, to the value built
  by the earlier writes, and `setX(v)` overwrites it.
* The variables that only drive the display (`comparingProcess`,
  `enteringProcess`, `exitingProcess`, `fadeOutProcess`, `preemption`,
  `quantumProgress`, `highlightNewArrivals`, and `timeJumpTarget` /
  `animatingTimeJump` outside SJF) are dropped.  In SJF the effects are gated
  on `animatingTimeJump`, which is kept.

**FCFS and SJF.**  One invocation of `simulationStep` is one transition on the
record of state variables, and the next begins when it has ended: FCFS writes
the dependencies of its effect only in the last lines of a step, and SJF gates
its effects on `animatingTimeJump`.  The timer delays are dropped.

**Round Robin and Priority** are read in two ways.

* `RR.simulationStep` and `Priority.simulationStep` are one invocation run
  from its first line to its last with no other invocation writing in between,
  and `RR.steps`, `Priority.steps` take such invocations one after another.
  The component behaves so as long as invocations do not overlap: on one
  process, and on the inputs of `steps_agree_with_timers`.
* `RR.Async` and `Priority.Async` keep the timers.  In these two components an
  invocation writes dependencies of the effect and then waits (`await`), so the
  effect arms further invocations that run beside it: in Round Robin at every
  tick of the clock inside a slice, in Priority when step 1 admits an arrival
  beside active processes.  The callbacks wait in a queue ordered by due time;
  one callback runs at a time, up to its next `await`; its writes take effect
  together in the one render that follows it, and the effect runs after that
  render.  Statements about inputs with several processes are made of this
  reading.  The delays are those of `animationSpeed = 1`, and a callback takes
  no time, so two callbacks can be due at the same instant.  A wait joins the
  queue behind the callbacks already waiting for its instant; for the timer of
  the effect both places are considered, before them and behind them
  (`timerFirst`).

`parseInt` of a field is the field itself: arrival and burst times are natural
numbers, priorities are integers.
-/

namespace Sched

/-- A process descriptor as the components receive it in `processes`. -/
structure Process where
  name : String
  arrivalTime : Nat
  burstTime : Nat
  priority : Int := 0
deriving DecidableEq, Repr

/-- A Gantt row of FCFS and SJF: `{...nextProcess, startTime, endTime}`. -/
structure TimedProcess where
  name : String
  arrivalTime : Nat
  burstTime : Nat
  priority : Int
  startTime : Nat
  endTime : Nat
deriving DecidableEq, Repr

/-- The object `{...p, startTime, endTime}`. -/
def withTiming (p : Process) (startTime endTime : Nat) : TimedProcess :=
  { name := p.name, arrivalTime := p.arrivalTime, burstTime := p.burstTime,
    priority := p.priority, startTime := startTime, endTime := endTime }

/-- The value of `Math.min(...xs)` over a list of naturals, given its first element. -/
def minList (x : Nat) (xs : List Nat) : Nat := xs.foldl min x

/-! ## FCFS (`FCFS.jsx`) -/

namespace FCFS

/-- The scheduler variables of the FCFS component. -/
structure State where
  pendingProcesses : List Process
  completedProcesses : List Process
  ganttChart : List TimedProcess
  currentTime : Nat
deriving DecidableEq, Repr

/-- The function `startSimulation` of lines 23-33: the processes are taken as they
are, unsorted. -/
def startSimulation (processes : List Process) : State :=
  { pendingProcesses := processes, completedProcesses := [], ganttChart := [],
    currentTime := 0 }

/-- The scan of lines 44-68: start from the first pending process and replace
the candidate whenever a later one has a strictly smaller arrival time. -/
def findMin (first : Process) (rest : List Process) : Process :=
  rest.foldl (fun minProcess processToCompare =>
    if processToCompare.arrivalTime < minProcess.arrivalTime then processToCompare
    else minProcess) first

/-- One `simulationStep`; the effect does not run it when nothing is pending. -/
def simulationStep (s : State) : State :=
  match s.pendingProcesses with
  | [] => s
  | first :: rest =>
    let nextProcess := findMin first rest
    let startTime := max s.currentTime nextProcess.arrivalTime
    let endTime := startTime + nextProcess.burstTime
    { pendingProcesses := s.pendingProcesses.filter (fun p => p.name != nextProcess.name),
      completedProcesses := s.completedProcesses ++ [nextProcess],
      ganttChart := s.ganttChart ++ [withTiming nextProcess startTime endTime],
      currentTime := endTime }

/-- The simulation stops (`isSimulating` becomes false) when nothing is pending. -/
def finished (s : State) : Bool := s.pendingProcesses.isEmpty

/-- The state after `n` steps from `s`. -/
def steps : Nat → State → State
  | 0, s => s
  | n + 1, s => steps n (simulationStep s)

/-- The Gantt chart after `n` steps on the input `processes`. -/
def chart (n : Nat) (processes : List Process) : List TimedProcess :=
  (steps n (startSimulation processes)).ganttChart

end FCFS

/-! ## SJF, non-preemptive (`SJF.jsx`) -/

namespace SJF

/-- The scheduler variables of the SJF component.  `animatingTimeJump` is kept
because both the arrival effect and the step effect are disabled while it is
set. -/
structure State where
  pendingProcesses : List Process
  arrivedQueue : List Process
  completedProcesses : List Process
  currentProcess : Option Process
  ganttChart : List TimedProcess
  currentTime : Nat
  animatingTimeJump : Bool
deriving DecidableEq, Repr

/-- The comparator of `startSimulation`: `a.arrivalTime - b.arrivalTime ≤ 0`. -/
def arrivesNoLater (a b : Process) : Prop := a.arrivalTime ≤ b.arrivalTime

instance : DecidableRel arrivesNoLater := fun a b => Nat.decLe a.arrivalTime b.arrivalTime

/-- The copy `[...processes].sort((a, b) => a.arrivalTime - b.arrivalTime)`: the sort of
an array is stable, which insertion from the right is too. -/
def sortedByArrival (processes : List Process) : List Process :=
  processes.insertionSort arrivesNoLater

/-- The function `startSimulation` of lines 28-46. -/
def startSimulation (processes : List Process) : State :=
  { pendingProcesses := sortedByArrival processes, arrivedQueue := [],
    completedProcesses := [], currentProcess := none, ganttChart := [],
    currentTime := 0, animatingTimeJump := false }

/-- The time animation of lines 49-80, run to its last frame: it does nothing
when `timeJumpTarget` is falsy (the target `0`), and then `animatingTimeJump`
stays set; otherwise the clock ends at the target and the flag is cleared. -/
def timeJump (target : Nat) (s : State) : State :=
  if target = 0 then { s with animatingTimeJump := true }
  else { s with currentTime := target, animatingTimeJump := false }

/-- The arrival effect of lines 84-107. -/
def arrivalEffect (s : State) : State :=
  if s.animatingTimeJump then s
  else
    let newlyArrived := s.pendingProcesses.filter (fun p => p.arrivalTime ≤ s.currentTime)
    if newlyArrived.length > 0 then
      { s with
        pendingProcesses := s.pendingProcesses.filter (fun p => p.arrivalTime > s.currentTime),
        arrivedQueue := s.arrivedQueue ++ newlyArrived }
    else s

/-- The helper `findShortestJob` of lines 164-196: the first element of the arrived queue
with the strictly smallest burst time. -/
def findShortestJob (first : Process) (rest : List Process) : Process :=
  rest.foldl (fun shortestProcess processToCompare =>
    if processToCompare.burstTime < shortestProcess.burstTime then processToCompare
    else shortestProcess) first

/-- One `simulationStep` of lines 118-161, with the time jump it starts run to
its end. -/
def simulationStep (s : State) : State :=
  if s.animatingTimeJump then s
  else if s.currentProcess.isNone && s.arrivedQueue.length > 0 then
    match s.arrivedQueue with
    | [] => s
    | first :: rest =>
      let nextProcess := findShortestJob first rest
      let startTime := s.currentTime
      let endTime := startTime + nextProcess.burstTime
      timeJump endTime
        { s with
          ganttChart := s.ganttChart ++ [withTiming nextProcess startTime endTime],
          completedProcesses := s.completedProcesses ++ [nextProcess],
          arrivedQueue := s.arrivedQueue.filter (fun p => p.name != nextProcess.name),
          currentProcess := none }
  else if s.pendingProcesses.length > 0 && s.arrivedQueue.length == 0 then
    match s.pendingProcesses with
    | [] => s
    | p :: ps => timeJump (minList p.arrivalTime (ps.map (fun x => x.arrivalTime))) s
  else s

/-- The arrival effect runs after every render and resets the step timer when
it changes the queues, so every step sees the arrivals already admitted. -/
def tick (s : State) : State := simulationStep (arrivalEffect s)

/-- The condition of lines 111-113 under which `isSimulating` is cleared. -/
def finished (s : State) : Bool :=
  s.pendingProcesses.isEmpty && s.arrivedQueue.isEmpty && s.currentProcess.isNone

/-- The state after `n` ticks from `s`. -/
def steps : Nat → State → State
  | 0, s => s
  | n + 1, s => steps n (tick s)

/-- The Gantt chart after `n` ticks on the input `processes`. -/
def chart (n : Nat) (processes : List Process) : List TimedProcess :=
  (steps n (startSimulation processes)).ganttChart

end SJF

/-! ## Round Robin (`RR.jsx`) -/

namespace RR

/-- A queued process: `{...process, remainingTime}`. -/
structure QProcess where
  name : String
  arrivalTime : Nat
  burstTime : Nat
  priority : Int
  remainingTime : Nat
deriving DecidableEq, Repr

/-- A row of the Round Robin Gantt chart: either
`{...nextProcess, startTime, endTime, quantum}` (then `source` holds the spread
process) or `{name: "Idle", startTime, endTime, isIdle: true}`. -/
structure Entry where
  name : String
  startTime : Nat
  endTime : Nat
  isIdle : Bool
  quantum : Nat
  source : Option QProcess
deriving DecidableEq, Repr

/-- The scheduler variables of the Round Robin component; `remainingTime` is the
object keyed by process name. -/
structure State where
  pendingProcesses : List QProcess
  readyQueue : List QProcess
  completedProcesses : List (QProcess × Nat)
  currentProcess : Option QProcess
  ganttChart : List Entry
  currentTime : Nat
  remainingTime : String → Nat

/-- The assignment `obj[name] = v`. -/
def setKey (m : String → Nat) (name : String) (v : Nat) : String → Nat :=
  fun k => if k = name then v else m k

/-- The object `{...process, remainingTime: burstTime}`. -/
def withRemaining (p : Process) : QProcess :=
  { name := p.name, arrivalTime := p.arrivalTime, burstTime := p.burstTime,
    priority := p.priority, remainingTime := p.burstTime }

/-- The function `startSimulation` of lines 29-55.  Every key later read from
`remainingTime` is the name of a process of the input, which is written here;
the value of the map at other keys is never read. -/
def startSimulation (processes : List Process) : State :=
  let processesWithRemaining := processes.map withRemaining
  { pendingProcesses := processesWithRemaining,
    readyQueue := [],
    completedProcesses := [],
    currentProcess := none,
    ganttChart := [],
    currentTime := 0,
    remainingTime := processesWithRemaining.foldl
      (fun m p => setKey m p.name p.burstTime) (fun _ => 0) }

/-- The Idle row of lines 181-186. -/
def idleEntry (startTime endTime : Nat) : Entry :=
  { name := "Idle", startTime := startTime, endTime := endTime, isIdle := true,
    quantum := 0, source := none }

/-- The row of lines 104-109. -/
def ganttEntry (p : QProcess) (startTime executeTime : Nat) : Entry :=
  { name := p.name, startTime := startTime, endTime := startTime + executeTime,
    isIdle := false, quantum := executeTime, source := some p }

/-- One `simulationStep` of lines 66-190 with time quantum `timeQuantum`, run
from its first line to its last with no other invocation writing in between
(for the component with its timers, where invocations overlap, see `RR.Async`).
`s` holds the values the closure captured; `admitted` is `s` after the writes of
lines 81-84, on which the later functional updates act.  `executeTime` is at
most the remaining time, so the subtractions are exact. -/
def simulationStep (timeQuantum : Nat) (s : State) : State :=
  let newArrivals := s.pendingProcesses.filter (fun p => p.arrivalTime ≤ s.currentTime)
  let admitted : State :=
    if newArrivals.length > 0 then
      { s with
        pendingProcesses := s.pendingProcesses.filter (fun p => p.arrivalTime > s.currentTime),
        readyQueue := s.readyQueue ++ newArrivals }
    else s
  if s.currentProcess.isNone && s.readyQueue.length > 0 then
    match s.readyQueue with
    | [] => admitted
    | nextProcess :: _ =>
      let executeTime := min timeQuantum (s.remainingTime nextProcess.name)
      let afterRun : State :=
        { admitted with
          readyQueue := admitted.readyQueue.drop 1,
          currentTime := s.currentTime + executeTime,
          ganttChart := admitted.ganttChart ++ [ganttEntry nextProcess s.currentTime executeTime],
          remainingTime := setKey admitted.remainingTime nextProcess.name
            (admitted.remainingTime nextProcess.name - executeTime) }
      if s.remainingTime nextProcess.name - executeTime ≤ 0 then
        { afterRun with
          completedProcesses :=
            afterRun.completedProcesses ++ [(nextProcess, s.currentTime + executeTime)],
          currentProcess := none }
      else
        { afterRun with
          readyQueue := afterRun.readyQueue ++
            [{ nextProcess with
               remainingTime := s.remainingTime nextProcess.name - executeTime }],
          currentProcess := none }
  else if s.readyQueue.length == 0 && s.pendingProcesses.length > 0 then
    match s.pendingProcesses with
    | [] => admitted
    | p :: ps =>
      let nextArrivalTime := minList p.arrivalTime (ps.map (fun x => x.arrivalTime))
      if nextArrivalTime > s.currentTime then
        { admitted with
          currentTime := nextArrivalTime,
          ganttChart := admitted.ganttChart ++ [idleEntry s.currentTime nextArrivalTime] }
      else admitted
  else admitted

/-- The condition of line 198 under which `isSimulating` is cleared. -/
def finished (s : State) : Bool :=
  s.pendingProcesses.isEmpty && s.readyQueue.isEmpty && s.currentProcess.isNone

/-- The state after `n` steps from `s`, taken one after another: each begins
when the one before it has ended. -/
def steps (timeQuantum : Nat) : Nat → State → State
  | 0, s => s
  | n + 1, s => steps timeQuantum n (simulationStep timeQuantum s)

/-- The Gantt chart after `n` steps, taken one after another, on the input
`processes`. -/
def chart (timeQuantum n : Nat) (processes : List Process) : List Entry :=
  (steps timeQuantum n (startSimulation processes)).ganttChart

end RR

/-! ## Preemptive Priority (`PriorityScheduling.jsx`) -/

namespace Priority

/-- An entry of `pendingProcesses` / `activeProcesses`:
`{...p, remainingTime, originalBurstTime, priority, id}`.  The template string
`name-index` is kept as the pair it is built from (an index has no hyphen, so
the string determines the pair). -/
structure AProcess where
  name : String
  arrivalTime : Nat
  burstTime : Nat
  priority : Int
  remainingTime : Int
  originalBurstTime : Nat
  id : String × Nat
deriving DecidableEq, Repr

/-- A row of the Priority Gantt chart (lines 174-183); `endTime` is `null`
until the row is closed, `remainingAfter` is absent until then. -/
structure Entry where
  name : String
  startTime : Nat
  endTime : Option Nat
  completed : Bool
  arrivalTime : Nat
  burstTime : Nat
  priority : Int
  remainingBefore : Int
  remainingAfter : Option Int
deriving DecidableEq, Repr

/-- The scheduler variables of the Priority component.  `currentProcess` is
written by the step but never read by it, and is left out. -/
structure State where
  pendingProcesses : List AProcess
  activeProcesses : List AProcess
  completedProcesses : List AProcess
  ganttChart : List Entry
  currentTime : Nat
deriving DecidableEq, Repr

/-- The body of the `map` of lines 30-40. -/
def withRemaining (p : Process) (index : Nat) : AProcess :=
  { name := p.name, arrivalTime := p.arrivalTime, burstTime := p.burstTime,
    priority := p.priority, remainingTime := p.burstTime,
    originalBurstTime := p.burstTime, id := (p.name, index) }

/-- The list `processes.map((p, index) => ...)`, the first index being `i`. -/
def indexed : Nat → List Process → List AProcess
  | _, [] => []
  | i, p :: ps => withRemaining p i :: indexed (i + 1) ps

/-- The function `startSimulation` of lines 26-58. -/
def startSimulation (processes : List Process) : State :=
  { pendingProcesses := indexed 0 processes, activeProcesses := [],
    completedProcesses := [], ganttChart := [], currentTime := 0 }

/-- The selection loop of lines 126-142: `none` stands for the initial
`highestPriority = Infinity`, below which every integer priority lies. -/
def selectHighest (active : List AProcess) : Option AProcess :=
  active.foldl (fun highest process =>
    match highest with
    | none => some process
    | some h => if process.priority < h.priority then some process else some h) none

/-- The update `updated[updated.length - 1] = f(updated[updated.length - 1])`. -/
def modifyLast {α : Type} (f : α → α) : List α → List α
  | [] => []
  | [x] => [f x]
  | x :: y :: rest => x :: modifyLast f (y :: rest)

/-- Closing the last row at `t` (lines 160-164, 220-225, 261-266, 285-290). -/
def closeLast (t : Nat) (completed : Bool) (remainingAfter : Option Int)
    (g : List Entry) : List Entry :=
  modifyLast (fun e => { e with endTime := some t, completed := completed,
                                remainingAfter :=
                                  match remainingAfter with
                                  | some r => some r
                                  | none => e.remainingAfter }) g

/-- The row of lines 174-183. -/
def newGanttItem (h : AProcess) (currentTime : Nat) : Entry :=
  { name := h.name, startTime := currentTime, endTime := none, completed := false,
    arrivalTime := h.arrivalTime, burstTime := h.originalBurstTime,
    priority := h.priority, remainingBefore := h.remainingTime, remainingAfter := none }

/-- The `reduce` of lines 251-254 over the new arrivals. -/
def highestPriorityNewArrival (first : AProcess) (newArrivals : List AProcess) : AProcess :=
  newArrivals.foldl (fun highest current =>
    if current.priority < highest.priority then current else highest) first

/-- Steps 4 and 5 of `simulationStep` (lines 146-186) on the Gantt chart for the
selected process `h`: `captured` is the chart the closure reads, `prev` the
chart the functional updates act on. -/
def openRow (captured prev : List Entry) (currentTime : Nat) (h : AProcess) : List Entry :=
  let lastGanttItem := captured.getLast?
  let isPreemption :=
    match lastGanttItem with
    | none => false
    | some l => l.name != h.name && !l.completed
  let g4 :=
    if isPreemption then closeLast currentTime false none prev
    else prev
  let alreadyLast :=
    match lastGanttItem with
    | none => false
    | some l => l.name == h.name
  if alreadyLast then g4 else g4 ++ [newGanttItem h currentTime]

/-- Steps 4 to 6 of `simulationStep` (lines 146-300) for the selected process
`h`.  `s` holds the captured values, `admitted` is `s` after the writes of
step 1.  The `while` loop runs its body once: `shouldContinue` is cleared at
the top of the body and never set again. -/
def execute (s admitted : State) (h : AProcess) : State :=
  let g5 := openRow s.ganttChart admitted.ganttChart s.currentTime h
  let nextTime := s.currentTime + 1
  let updatedActiveProcesses := s.activeProcesses.map (fun p =>
    if p.id = h.id then { p with remainingTime := p.remainingTime - 1 } else p)
  match updatedActiveProcesses.find? (fun p => p.id == h.id) with
  | none => { admitted with ganttChart := g5, currentTime := nextTime }
  | some updatedProcess =>
    if updatedProcess.remainingTime = 0 then
      { admitted with
        currentTime := nextTime,
        completedProcesses :=
          admitted.completedProcesses ++ [{ updatedProcess with remainingTime := 0 }],
        activeProcesses := updatedActiveProcesses.filter (fun p => p.id != updatedProcess.id),
        ganttChart := closeLast nextTime true (some 0) g5 }
    else
      let newArrivals := s.pendingProcesses.filter (fun p => p.arrivalTime == nextTime)
      let existingIds := s.activeProcesses.map (fun p => p.id)
      let uniqueNewProcesses := newArrivals.filter (fun p => !existingIds.contains p.id)
      let pending6 :=
        if newArrivals.length > 0 then
          admitted.pendingProcesses.filter (fun p => p.arrivalTime > nextTime)
        else admitted.pendingProcesses
      let active6 :=
        if newArrivals.length > 0 && uniqueNewProcesses.length > 0 then
          updatedActiveProcesses ++ uniqueNewProcesses
        else updatedActiveProcesses
      let arrivalPreempts :=
        match newArrivals with
        | [] => false
        | first :: _ =>
          decide ((highestPriorityNewArrival first newArrivals).priority
            < updatedProcess.priority)
      let higherPriorityProcess := updatedActiveProcesses.find? (fun p =>
        p.id != h.id && decide (p.priority < updatedProcess.priority))
      let g6 :=
        if arrivalPreempts || higherPriorityProcess.isSome then
          closeLast nextTime false (some updatedProcess.remainingTime) g5
        else g5
      { admitted with
        currentTime := nextTime,
        pendingProcesses := pending6,
        activeProcesses := active6,
        ganttChart := g6 }

/-- One run of the effect of lines 72-305: the termination test, then
`simulationStep` run from its first line to its last with no other invocation
writing in between (for the component with its timers, where invocations can
overlap, see `Priority.Async`). -/
def simulationStep (s : State) : State :=
  if s.pendingProcesses.length == 0 && s.activeProcesses.length == 0 then s
  else
    let newlyArrived := s.pendingProcesses.filter (fun p => p.arrivalTime ≤ s.currentTime)
    let existingIds := s.activeProcesses.map (fun p => p.id)
    let uniqueNewProcesses := newlyArrived.filter (fun p => !existingIds.contains p.id)
    let admitted : State :=
      if newlyArrived.length > 0 then
        { s with
          pendingProcesses := s.pendingProcesses.filter (fun p => p.arrivalTime > s.currentTime),
          activeProcesses :=
            if uniqueNewProcesses.length > 0 then s.activeProcesses ++ uniqueNewProcesses
            else s.activeProcesses }
      else s
    if s.activeProcesses.length == 0 && s.pendingProcesses.length > 0 then
      match s.pendingProcesses with
      | [] => admitted
      | p :: ps =>
        let nextArrivalTime := minList p.arrivalTime (ps.map (fun x => x.arrivalTime))
        if nextArrivalTime > s.currentTime then { admitted with currentTime := nextArrivalTime }
        else admitted
    else
      match selectHighest s.activeProcesses with
      | none => admitted
      | some h => execute s admitted h

/-- The termination condition of line 80. -/
def finished (s : State) : Bool :=
  s.pendingProcesses.isEmpty && s.activeProcesses.isEmpty

/-- The state after `n` steps from `s`, taken one after another: each begins
when the one before it has ended. -/
def steps : Nat → State → State
  | 0, s => s
  | n + 1, s => steps n (simulationStep s)

/-- The Gantt chart after `n` steps, taken one after another, on the input
`processes`. -/
def chart (n : Nat) (processes : List Process) : List Entry :=
  (steps n (startSimulation processes)).ganttChart

/-- A Gantt row reduced to name, start and end. -/
def Entry.span (e : Entry) : String × Nat × Option Nat := (e.name, e.startTime, e.endTime)

end Priority

/-! ## Worked examples -/

/-- The input of the FCFS example. -/
def fcfsExample : List Process :=
  [{ name := "P1", arrivalTime := 0, burstTime := 5 },
   { name := "P2", arrivalTime := 1, burstTime := 3 },
   { name := "P3", arrivalTime := 2, burstTime := 8 }]

/-- The input of the SJF example. -/
def sjfExample : List Process :=
  [{ name := "P1", arrivalTime := 0, burstTime := 7 },
   { name := "P2", arrivalTime := 2, burstTime := 4 }]

/-- The input of the Priority example. -/
def priorityExample : List Process :=
  [{ name := "P1", arrivalTime := 0, burstTime := 5, priority := 2 },
   { name := "P2", arrivalTime := 1, burstTime := 3, priority := 1 }]

/-- The input of the Round Robin example (time quantum 2). -/
def rrExample : List Process :=
  [{ name := "P1", arrivalTime := 0, burstTime := 5 },
   { name := "P2", arrivalTime := 1, burstTime := 3 }]

/-- A row of FCFS or SJF reduced to name, start and end. -/
def TimedProcess.span (e : TimedProcess) : String × Nat × Nat :=
  (e.name, e.startTime, e.endTime)

/-- A row of Round Robin reduced to name, start and end. -/
def RR.Entry.span (e : RR.Entry) : String × Nat × Nat :=
  (e.name, e.startTime, e.endTime)

/-- Three processes: `A` completes at time 1, the instant at which `B` arrives,
while `C` is still active. -/
def arrivalAtCompletion : List Process :=
  [{ name := "A", arrivalTime := 0, burstTime := 1, priority := 1 },
   { name := "C", arrivalTime := 0, burstTime := 1, priority := 3 },
   { name := "B", arrivalTime := 1, burstTime := 1, priority := 2 }]

/-- Three processes: `A` completes at time 1, the instant at which `B` arrives
with the lowest priority of all, while `C` is still active. -/
def lostArrival : List Process :=
  [{ name := "A", arrivalTime := 0, burstTime := 1, priority := 1 },
   { name := "C", arrivalTime := 0, burstTime := 1, priority := 2 },
   { name := "B", arrivalTime := 1, burstTime := 1, priority := 3 }]

/-- Total length of the rows of a Priority chart named `name`; an open row
counts for nothing. -/
def Priority.work (name : String) (g : List Priority.Entry) : Nat :=
  ((g.filter (fun e => e.name == name)).map (fun e =>
    match e.endTime with
    | some t => t - e.startTime
    | none => 0)).sum

/-- Total length of the non-Idle rows of a Round Robin chart named `name`. -/
def RR.work (name : String) (g : List RR.Entry) : Nat :=
  ((g.filter (fun e => !e.isIdle && e.name == name)).map (fun e =>
    e.endTime - e.startTime)).sum

/-! ## Properties of charts -/

/-- The time range of a row of FCFS or SJF. -/
def TimedProcess.interval (e : TimedProcess) : Nat × Nat := (e.startTime, e.endTime)

/-- Rows in emission order that never overlap: a row starts no earlier than any
row emitted before it starts, and no earlier than it ends. -/
def Ordered (g : List (Nat × Nat)) : Prop :=
  g.Pairwise (fun a b => a.1 ≤ b.1 ∧ a.2 ≤ b.1)

/-- The ranges, read in order, begin at `t0`, each begins where the one before it
ends, none runs backwards, and the last ends at `t1`: they cover `[t0, t1)` with
no gap and no overlap. -/
def Covers : Nat → List (Nat × Nat) → Nat → Prop
  | t0, [], t1 => t0 = t1
  | t0, (a, b) :: rest, t1 => a = t0 ∧ a ≤ b ∧ Covers b rest t1

/-- Invariant of a chart of ranges at clock `t` behind `Ordered`. -/
def OrderedUpTo (g : List (Nat × Nat)) (t : Nat) : Prop :=
  Ordered g ∧ ∀ x ∈ g, x.1 ≤ t ∧ x.2 ≤ t

/-- How one step may change chart and clock: nothing is appended and the clock
does not go back, or one range is appended that starts no earlier than the old
clock and ends no later than the new one. -/
def Extends (g : List (Nat × Nat)) (t : Nat) (g' : List (Nat × Nat)) (t' : Nat) : Prop :=
  (g' = g ∧ t ≤ t') ∨ ∃ a b, g' = g ++ [(a, b)] ∧ t ≤ a ∧ a ≤ b ∧ b ≤ t'

/-- The state after the writes of lines 81-84 of `RR.jsx`, in the one form they
take whether or not anything arrived. -/
def RR.afterAdmission (s : RR.State) : RR.State :=
  { s with
    pendingProcesses := s.pendingProcesses.filter (fun p => p.arrivalTime > s.currentTime),
    readyQueue := s.readyQueue ++
      s.pendingProcesses.filter (fun p => p.arrivalTime ≤ s.currentTime) }

/-- The Round Robin processes that have not completed: pending, then ready. -/
def RR.live (s : RR.State) : List RR.QProcess := s.pendingProcesses ++ s.readyQueue

/-- Invariant of the states that `RR.steps` reaches from the input `processes`. -/
structure RR.Inv (processes : List Process) (s : RR.State) : Prop where
  current : s.currentProcess = none
  nodup : ((RR.live s).map (fun p => p.name)).Nodup
  positive : ∀ p ∈ RR.live s,
    0 < s.remainingTime p.name ∧ p.remainingTime = s.remainingTime p.name
  conserved : ∀ p ∈ processes,
    RR.work p.name s.ganttChart + s.remainingTime p.name = p.burstTime
  completed : ∀ p ∈ processes,
    p.name ∈ (RR.live s).map (fun p => p.name) ∨ s.remainingTime p.name = 0

/-- A quantity that every Round Robin step of an unfinished state decreases. -/
def RR.measure (s : RR.State) : Nat :=
  2 * ((RR.live s).map (fun p => p.remainingTime)).sum + 2 * s.pendingProcesses.length
    + (if (s.pendingProcesses.filter (fun p => p.arrivalTime ≤ s.currentTime)).isEmpty
       then 1 else 0)

/-- A process that arrives at 3 and runs for 2 units. -/
def lateArrival : List Process :=
  [{ name := "P1", arrivalTime := 3, burstTime := 2 }]

/-! ## Invariants of the runs -/

/-- The scan that `FCFS.findMin` and `SJF.findShortestJob` perform, for any key:
the first element whose key is strictly smallest. -/
def firstMinBy {α : Type} (key : α → Nat) (first : α) (rest : List α) : α :=
  rest.foldl (fun best x => if key x < key best then x else best) first

/-- The process a Gantt row of FCFS or SJF was built from: the row without its
timing. -/
def TimedProcess.toProcess (e : TimedProcess) : Process :=
  { name := e.name, arrivalTime := e.arrivalTime, burstTime := e.burstTime,
    priority := e.priority }

/-- Whether no process named `name` is in the list `finishedNames`. -/
def notAmong (finishedNames : List String) (name : String) : Bool :=
  !finishedNames.contains name

/-- Invariant of the FCFS states reached from the input `processes`. -/
structure FCFS.Inv (processes : List Process) (s : FCFS.State) : Prop where
  pending : s.pendingProcesses
    = processes.filter (fun p => notAmong (s.completedProcesses.map (fun c => c.name)) p.name)
  members : ∀ c ∈ s.completedProcesses, c ∈ processes
  nodup : (s.completedProcesses.map (fun c => c.name)).Nodup
  chart : s.ganttChart.map TimedProcess.toProcess = s.completedProcesses
  rows : ∀ e ∈ s.ganttChart,
    e.endTime = e.startTime + e.burstTime ∧ e.arrivalTime ≤ e.startTime
  sorted : s.completedProcesses.Pairwise (fun a b => a.arrivalTime ≤ b.arrivalTime)
  low : ∀ c ∈ s.completedProcesses, ∀ p ∈ s.pendingProcesses, c.arrivalTime ≤ p.arrivalTime
  stable : ∀ a b : Process, a.arrivalTime = b.arrivalTime → [a, b].Sublist processes →
    b ∈ s.completedProcesses → [a, b].Sublist s.completedProcesses

/-- The state after the arrival effect of `SJF.jsx` when no time jump is being
animated, in the one form it takes whether or not anything arrived. -/
def SJF.afterArrival (s : SJF.State) : SJF.State :=
  { s with
    pendingProcesses := s.pendingProcesses.filter (fun p => p.arrivalTime > s.currentTime),
    arrivedQueue := s.arrivedQueue ++
      s.pendingProcesses.filter (fun p => p.arrivalTime ≤ s.currentTime) }

/-- Invariant of the SJF states reached from the input `processes`. -/
structure SJF.Inv (processes : List Process) (s : SJF.State) : Prop where
  animating : s.animatingTimeJump = false
  current : s.currentProcess = none
  queue : s.arrivedQueue ++ s.pendingProcesses
    = (SJF.sortedByArrival processes).filter
        (fun p => notAmong (s.completedProcesses.map (fun c => c.name)) p.name)
  arrived : ∀ x ∈ s.arrivedQueue, x.arrivalTime ≤ s.currentTime
  members : ∀ c ∈ s.completedProcesses, c ∈ processes
  nodup : (s.completedProcesses.map (fun c => c.name)).Nodup
  chart : s.ganttChart.map TimedProcess.toProcess = s.completedProcesses
  rows : ∀ e ∈ s.ganttChart,
    e.endTime = e.startTime + e.burstTime ∧ e.arrivalTime ≤ e.startTime

/-- A quantity that every SJF tick of an unfinished state decreases. -/
def SJF.measure (s : SJF.State) : Nat :=
  2 * (s.arrivedQueue.length + s.pendingProcesses.length)
    + (if s.arrivedQueue.isEmpty &&
          (s.pendingProcesses.filter (fun p => p.arrivalTime ≤ s.currentTime)).isEmpty
       then 1 else 0)

instance : IsTotal Process SJF.arrivesNoLater :=
  ⟨fun a b => Nat.le_total a.arrivalTime b.arrivalTime⟩

instance : IsTrans Process SJF.arrivesNoLater :=
  ⟨fun _ _ _ hab hbc => Nat.le_trans hab hbc⟩

/-- Every non-Idle row of a Round Robin chart is as long as the smaller of the
time quantum and what its process had left when the row began: the burst time
less the work of the rows before it. -/
def RR.SlicesExact (timeQuantum : Nat) (processes : List Process) (g : List RR.Entry) : Prop :=
  ∀ pre e post, g = pre ++ e :: post → e.isIdle = false →
    ∃ p ∈ processes, p.name = e.name ∧
      e.endTime - e.startTime = min timeQuantum (p.burstTime - RR.work p.name pre)

/-- Further invariant of the states that `RR.steps` reaches from `processes`
with a positive time quantum: where the queued processes come from, and what the rows
of the chart record. -/
structure RR.Inv2 (timeQuantum : Nat) (processes : List Process) (s : RR.State) : Prop where
  known : ∀ x ∈ RR.live s, ∃ p ∈ processes,
    p.name = x.name ∧ p.arrivalTime = x.arrivalTime ∧ p.burstTime = x.burstTime
  fresh : ∀ x ∈ s.pendingProcesses, x.remainingTime = x.burstTime
  ready : ∀ x ∈ s.readyQueue, x.arrivalTime ≤ s.currentTime
  elapsed : ∀ x ∈ s.readyQueue,
    x.arrivalTime + x.burstTime ≤ s.currentTime + s.remainingTime x.name
  rows : ∀ e ∈ s.ganttChart, e.isIdle = false →
    ∃ p ∈ processes, p.name = e.name ∧ p.arrivalTime ≤ e.startTime
  nonempty : ∀ e ∈ s.ganttChart, e.startTime < e.endTime
  ends : ∀ e ∈ s.ganttChart, e.endTime ≤ s.currentTime
  slices : RR.SlicesExact timeQuantum processes s.ganttChart
  finishedRow : ∀ p ∈ processes, p.name ∈ (RR.live s).map (fun x => x.name) ∨
    ∃ e ∈ s.ganttChart, e.isIdle = false ∧ e.name = p.name ∧
      p.arrivalTime + p.burstTime ≤ e.endTime

/-! ## Metrics -/

/-- Turnaround time of a row of the FCFS and SJF metrics tables
(`FCFS.jsx` line 301, `SJF.jsx` line 463): `p.endTime - p.arrivalTime`. -/
def TimedProcess.turnaroundTime (e : TimedProcess) : Int :=
  (e.endTime : Int) - e.arrivalTime

/-- Waiting time of a row of the FCFS and SJF metrics tables
(`FCFS.jsx` line 302, `SJF.jsx` line 464): `p.startTime - p.arrivalTime`. -/
def TimedProcess.waitingTime (e : TimedProcess) : Int :=
  (e.startTime : Int) - e.arrivalTime

/-- Numerator of the average waiting time of the FCFS and SJF tables
(`FCFS.jsx` line 325, `SJF.jsx` line 491); the table divides it by the number
of rows. -/
def tableWaitingSum (ganttChart : List TimedProcess) : Int :=
  ganttChart.foldl (fun sum p => sum + p.waitingTime) 0

/-- The array `[...new Set(xs)]`: the elements of `xs` at their first
occurrences. -/
def uniqueNames : List String → List String
  | [] => []
  | x :: xs => x :: (uniqueNames xs).filter (fun y => y != x)

/-- The largest of the numbers `xs`, none being negative: `Math.max(...xs)` of a
non-empty list, and the running maximum from 0 of `calculateProcessStats`. -/
def maxOf (xs : List Nat) : Nat := xs.foldl max 0

/-- An entry of the object `calculateProcessStats` of `RR.jsx` builds;
`responseTime` is `null` until it is set. -/
structure RR.Stats where
  arrivalTime : Nat
  burstTime : Nat
  completionTime : Nat
  turnaroundTime : Int
  waitingTime : Int
  responseTime : Option Int
deriving DecidableEq, Repr

/-- The first loop of `calculateProcessStats` (lines 209-218); `none` when
`processes.find` finds no process of some name, where the source throws. -/
def RR.initialStats (processes : List Process) : List String → Option (List (String × RR.Stats))
  | [] => some []
  | name :: names =>
    match processes.find? (fun p => p.name == name) with
    | none => none
    | some p =>
      match RR.initialStats processes names with
      | none => none
      | some rest =>
        some ((name, { arrivalTime := p.arrivalTime, burstTime := p.burstTime,
                       completionTime := 0, turnaroundTime := 0, waitingTime := 0,
                       responseTime := none }) :: rest)

/-- The body of the second loop of `calculateProcessStats` (lines 221-230) on the
entry of the object it touches. -/
def RR.recordRow (entry : RR.Entry) (st : RR.Stats) : RR.Stats :=
  let st1 :=
    if !entry.isIdle && decide (entry.endTime > st.completionTime) then
      { st with completionTime := entry.endTime }
    else st
  if !entry.isIdle && st1.responseTime.isNone then
    { st1 with responseTime := some ((entry.startTime : Int) - st1.arrivalTime) }
  else st1

/-- The second loop of `calculateProcessStats` for one Gantt row: the entry keyed
by the row's name is updated. -/
def RR.recordEntry (stats : List (String × RR.Stats)) (entry : RR.Entry) :
    List (String × RR.Stats) :=
  stats.map (fun kv => if kv.1 = entry.name then (kv.1, RR.recordRow entry kv.2) else kv)

/-- The body of the third loop of `calculateProcessStats` (lines 233-236). -/
def RR.finishStats (st : RR.Stats) : RR.Stats :=
  { st with
    turnaroundTime := (st.completionTime : Int) - st.arrivalTime,
    waitingTime := ((st.completionTime : Int) - st.arrivalTime) - st.burstTime }

/-- The function `calculateProcessStats` of `RR.jsx` (lines 204-239): the object
it returns as the list of its entries in insertion order, `none` when it
throws. -/
def RR.calculateProcessStats (processes : List Process) (ganttChart : List RR.Entry) :
    Option (List (String × RR.Stats)) :=
  let processNames :=
    uniqueNames ((ganttChart.filter (fun entry => !entry.isIdle)).map (fun entry => entry.name))
  match RR.initialStats processes processNames with
  | none => none
  | some processStats =>
    some ((ganttChart.foldl RR.recordEntry processStats).map
      (fun kv => (kv.1, RR.finishStats kv.2)))

/-- Numerator of the average waiting time of the Round Robin table (`RR.jsx`
line 571); the table divides it by the number of entries. -/
def RR.waitingSum (stats : List (String × RR.Stats)) : Int :=
  stats.foldl (fun sum stat => sum + stat.2.waitingTime) 0

/-- An entry of the object `calculateMetrics` of `PriorityScheduling.jsx` builds. -/
structure Priority.Metrics where
  arrivalTime : Nat
  burstTime : Nat
  priority : Int
  completionTime : Nat
  turnaroundTime : Int
  waitingTime : Int
  responseTime : Int
deriving DecidableEq, Repr

/-- The assignment `metrics[name] = v` on the list of entries: an existing key
keeps its place, a new one is appended. -/
def Priority.setMetric (metrics : List (String × Priority.Metrics)) (name : String)
    (v : Priority.Metrics) : List (String × Priority.Metrics) :=
  if metrics.any (fun kv => kv.1 == name) then
    metrics.map (fun kv => if kv.1 = name then (kv.1, v) else kv)
  else metrics ++ [(name, v)]

/-- The body of the `forEach` of `calculateMetrics` (lines 311-342) for the
process `proc`.  In `Math.max` an unset end time (`null`) counts as 0. -/
def Priority.recordProcess (ganttChart : List Priority.Entry)
    (metrics : List (String × Priority.Metrics)) (proc : Process) :
    List (String × Priority.Metrics) :=
  let segments := ganttChart.filter (fun item => item.name == proc.name)
  match segments with
  | [] => metrics
  | first :: _ =>
    let completionTime := maxOf (segments.map (fun s => s.endTime.getD 0))
    let turnaroundTime := (completionTime : Int) - proc.arrivalTime
    let waitingTime := turnaroundTime - proc.burstTime
    let responseTime := (first.startTime : Int) - proc.arrivalTime
    Priority.setMetric metrics proc.name
      { arrivalTime := proc.arrivalTime, burstTime := proc.burstTime,
        priority := proc.priority, completionTime := completionTime,
        turnaroundTime := turnaroundTime, waitingTime := waitingTime,
        responseTime := responseTime }

/-- The function `calculateMetrics` of `PriorityScheduling.jsx` (lines 308-345):
the object it returns as the list of its entries in insertion order. -/
def Priority.calculateMetrics (processes : List Process) (ganttChart : List Priority.Entry) :
    List (String × Priority.Metrics) :=
  processes.foldl (Priority.recordProcess ganttChart) []

/-- Numerator of the average waiting time of the Priority table
(`PriorityScheduling.jsx` line 624); the table divides it by the number of
entries. -/
def Priority.waitingSum (metrics : List (String × Priority.Metrics)) : Int :=
  metrics.foldl (fun sum data => sum + data.2.waitingTime) 0

/-- A process list in which two descriptors share the name `P`. -/
def sameNameTwice : List Process :=
  [{ name := "P", arrivalTime := 0, burstTime := 1 },
   { name := "P", arrivalTime := 5, burstTime := 2 }]

/-- A closed Priority row with the given name, start and end. -/
def Priority.closedRow (name : String) (startTime endTime : Nat) : Priority.Entry :=
  { name := name, startTime := startTime, endTime := some endTime, completed := true,
    arrivalTime := 0, burstTime := endTime - startTime, priority := 0,
    remainingBefore := 0, remainingAfter := some 0 }

/-- A Round Robin chart with a row for `X`, which is no process of `[P1]`. -/
def unknownRowChart : List RR.Entry :=
  [RR.ganttEntry { name := "X", arrivalTime := 0, burstTime := 1, priority := 0,
                   remainingTime := 1 } 0 1,
   RR.ganttEntry { name := "P1", arrivalTime := 0, burstTime := 2, priority := 0,
                   remainingTime := 2 } 1 2]

/-- Four processes: `A` completes at time 1, the instant at which `B` arrives,
while `C` is still active; `D` arrives at 2 with the priority of `B`. -/
def tieWithEarlierArrival : List Process :=
  [{ name := "A", arrivalTime := 0, burstTime := 1, priority := 1 },
   { name := "C", arrivalTime := 0, burstTime := 3, priority := 5 },
   { name := "B", arrivalTime := 1, burstTime := 1, priority := 2 },
   { name := "D", arrivalTime := 2, burstTime := 1, priority := 2 }]
/-- One process of burst time 4, which Round Robin with quantum 2 runs in two
back-to-back slices. -/
def twoQuanta : List Process :=
  [{ name := "P1", arrivalTime := 0, burstTime := 4 }]

/-- No two rows that follow one another carry the same name. -/
def NoRepeat (names : List String) : Prop := names.Chain' (fun a b => a ≠ b)

/-- Numerator of the average turnaround time of the FCFS and SJF tables
(`FCFS.jsx` line 322, `SJF.jsx` line 488); the table divides it by the number
of rows. -/
def tableTurnaroundSum (ganttChart : List TimedProcess) : Int :=
  ganttChart.foldl (fun sum p => sum + p.turnaroundTime) 0

/-- Follows the claim's words: the rows obtained from a list of processes by
assigning, left to right, `startTime = max (previous endTime) arrivalTime` and
`endTime = startTime + burstTime`, the previous end time being `previousEnd`
for the first process. -/
def assignTimes : Nat → List Process → List TimedProcess
  | _, [] => []
  | previousEnd, p :: ps =>
    withTiming p (max previousEnd p.arrivalTime) (max previousEnd p.arrivalTime + p.burstTime)
      :: assignTimes (max previousEnd p.arrivalTime + p.burstTime) ps

/-- The end time of the last row of `assignTimes previousEnd processes`, or
`previousEnd` when there is none. -/
def lastEnd : Nat → List Process → Nat
  | previousEnd, [] => previousEnd
  | previousEnd, p :: ps => lastEnd (max previousEnd p.arrivalTime + p.burstTime) ps

/-- Follows the claim's words: the chart obtained by stably sorting the input by
arrival time, then assigning the times left to right from 0. -/
def sortThenFold (processes : List Process) : List TimedProcess :=
  assignTimes 0 (processes.insertionSort (fun a b => a.arrivalTime ≤ b.arrivalTime))

/-- Invariant of the SJF states reached from an input whose processes all arrive
at 0: the completed list is in non-decreasing burst time, no queued process is
shorter than a completed one, equal burst times keep the input order, and the
rows follow one another from 0. -/
structure SJF.ByBurst (processes : List Process) (s : SJF.State) : Prop where
  sorted : s.completedProcesses.Pairwise (fun a b => a.burstTime ≤ b.burstTime)
  low : ∀ c ∈ s.completedProcesses, ∀ x ∈ s.arrivedQueue ++ s.pendingProcesses,
    c.burstTime ≤ x.burstTime
  stable : ∀ a b : Process, a.burstTime = b.burstTime → [a, b].Sublist processes →
    b ∈ s.completedProcesses → [a, b].Sublist s.completedProcesses
  times : s.ganttChart = assignTimes 0 s.completedProcesses ∧
    s.currentTime = lastEnd 0 s.completedProcesses

/-- Three processes that all arrive at 0, two of them with the same burst time. -/
def simultaneousArrival : List Process :=
  [{ name := "P1", arrivalTime := 0, burstTime := 3 },
   { name := "P2", arrivalTime := 0, burstTime := 1 },
   { name := "P3", arrivalTime := 0, burstTime := 3 }]

/-- The state after the writes of step 1 of `Priority.simulationStep` (lines
88-105), in the one form they take whether or not anything arrived. -/
def Priority.afterAdmission (s : Priority.State) : Priority.State :=
  { s with
    pendingProcesses := s.pendingProcesses.filter (fun p => p.arrivalTime > s.currentTime),
    activeProcesses := s.activeProcesses ++
      (s.pendingProcesses.filter (fun p => p.arrivalTime ≤ s.currentTime)).filter
        (fun p => !(s.activeProcesses.map (fun p => p.id)).contains p.id) }

/-- The list `updatedActiveProcesses` of line 202: the selected process `h` with
one unit less to run. -/
def Priority.updatedActive (s : Priority.State) (h : Priority.AProcess) :
    List Priority.AProcess :=
  s.activeProcesses.map (fun p =>
    if p.id = h.id then { p with remainingTime := p.remainingTime - 1 } else p)

/-- The arrivals of lines 238-248: the pending processes that arrive at `t`
and are not active yet. -/
def Priority.arrivingAt (s : Priority.State) (t : Nat) : List Priority.AProcess :=
  (s.pendingProcesses.filter (fun p => p.arrivalTime == t)).filter
    (fun p => !(s.activeProcesses.map (fun p => p.id)).contains p.id)

/-- What holds of a row of the Priority chart at clock `t`: it starts before
`t`, it ends, when it has ended, after its start and no later than `t`, and it
carries the name of an input process that had arrived when it started. -/
def Priority.RowOK (processes : List Process) (t : Nat) (e : Priority.Entry) : Prop :=
  e.startTime < t ∧
  (∀ x, e.endTime = some x → e.startTime < x ∧ x ≤ t) ∧
  ∃ p ∈ processes, p.name = e.name ∧ p.arrivalTime ≤ e.startTime

/-- Invariant of the states that `Priority.steps` reaches from the input
`processes`. -/
structure Priority.Inv (processes : List Process) (s : Priority.State) : Prop where
  ids : ∀ a ∈ s.pendingProcesses ++ s.activeProcesses, a.id.1 = a.name
  pendNames : (s.pendingProcesses.map (fun a => a.name)).Nodup
  actNames : (s.activeProcesses.map (fun a => a.name)).Nodup
  pendAct : ∀ x ∈ s.pendingProcesses, ∀ a ∈ s.activeProcesses, x.name ≠ a.name
  liveDone : ∀ a ∈ s.pendingProcesses ++ s.activeProcesses, ∀ c ∈ s.completedProcesses,
    a.name ≠ c.name
  known : ∀ a ∈ s.pendingProcesses ++ s.activeProcesses ++ s.completedProcesses,
    ∃ p ∈ processes, p.name = a.name ∧ p.arrivalTime = a.arrivalTime ∧
      p.burstTime = a.originalBurstTime
  fresh : ∀ a ∈ s.pendingProcesses, a.remainingTime = a.originalBurstTime
  positive : ∀ a ∈ s.pendingProcesses ++ s.activeProcesses, 0 < a.remainingTime
  arrived : ∀ a ∈ s.activeProcesses, a.arrivalTime ≤ s.currentTime
  elapsed : ∀ a ∈ s.activeProcesses,
    (a.arrivalTime : Int) + a.originalBurstTime ≤ s.currentTime + a.remainingTime
  rows : ∀ e ∈ s.ganttChart, Priority.RowOK processes s.currentTime e
  lastClosed : s.activeProcesses = [] →
    ∀ e, s.ganttChart.getLast? = some e → ∃ x, e.endTime = some x
  done : ∀ c ∈ s.completedProcesses, ∃ e ∈ s.ganttChart, e.name = c.name ∧
    e.completed = true ∧ ∃ x, e.endTime = some x ∧ c.arrivalTime + c.originalBurstTime ≤ x

/-- The units the processes of `l` still have to run. -/
def Priority.load (l : List Priority.AProcess) : Nat :=
  (l.map (fun a => a.remainingTime.toNat)).sum

/-- A quantity that every Priority step of an unfinished state decreases. -/
def Priority.measure (s : Priority.State) : Nat :=
  2 * (Priority.load s.pendingProcesses + Priority.load s.activeProcesses)
    + 2 * s.pendingProcesses.length
    + (if (s.pendingProcesses.filter (fun p => p.arrivalTime ≤ s.currentTime)).isEmpty
       then 1 else 0)

/-- Invariant of the states that `RR.steps` reaches on the one process `p`: the
clock has not passed a pending arrival, a queued process has been running since
it arrived, and once nothing is queued the clock is at most
`arrivalTime + burstTime`. -/
structure RR.Punctual (p : Process) (s : RR.State) : Prop where
  pending : ∀ x ∈ s.pendingProcesses, s.currentTime ≤ x.arrivalTime
  ready : ∀ x ∈ s.readyQueue,
    s.currentTime + s.remainingTime x.name ≤ x.arrivalTime + x.burstTime
  idle : RR.live s = [] → s.currentTime ≤ p.arrivalTime + p.burstTime

/-- Invariant of the states that `Priority.steps` reaches on one process: the
clock has not passed a pending arrival, an active process has been running
since it arrived, a completed one completed at the clock or later, and the
process is in one of the three lists. -/
structure Priority.Punctual (s : Priority.State) : Prop where
  pending : ∀ x ∈ s.pendingProcesses, s.currentTime ≤ x.arrivalTime
  active : ∀ x ∈ s.activeProcesses,
    (s.currentTime : Int) + x.remainingTime ≤ x.arrivalTime + x.originalBurstTime
  done : ∀ c ∈ s.completedProcesses, s.currentTime ≤ c.arrivalTime + c.originalBurstTime
  present : s.pendingProcesses ≠ [] ∨ s.activeProcesses ≠ [] ∨ s.completedProcesses ≠ []

/-! ## Round Robin with its timers (`RR.jsx`)

The step effect of lines 63-194 re-runs whenever one of its dependencies
`currentTime`, `pendingProcesses`, `readyQueue`, `currentProcess`,
`remainingTime` is written: it clears the timer it had armed and arms a new one,
500 ms ahead, for a `simulationStep` closed over the values of that render.  A
`simulationStep` that is waiting in one of its `await`s (600 ms, or 50 ms in the
clock jump) is not stopped by this, so several invocations can be under way at
once.  The definitions below keep the callbacks of the component in a queue
ordered by due time and run them one at a time, the component rendering after
each.  Delays are those of `animationSpeed = 1`; a callback takes no time. -/

namespace RR

namespace Async

/-- A process object of `pendingProcesses` or `readyQueue` with its identity
`ref`.  React compares the old and the new value of a state variable with
`Object.is`: writing to `currentProcess` the object it already holds changes
nothing, writing an equal copy does. -/
structure Obj where
  ref : Nat
  process : QProcess
deriving DecidableEq, Repr

/-- A row of the Gantt chart, as `RR.Entry`; `executeTime` is the minimum of the
quantum and an entry of `remainingTime`, which overlapping invocations can
drive below zero, so `endTime` and `quantum` are integers. -/
structure Entry where
  name : String
  startTime : Nat
  endTime : Int
  isIdle : Bool
  quantum : Int
  source : Option QProcess
deriving DecidableEq, Repr

/-- The values a `simulationStep` closure reads: those of the render in which
the effect armed its timer. -/
structure Captured where
  pendingProcesses : List Obj
  readyQueue : List Obj
  currentProcess : Option Obj
  currentTime : Nat
  remainingTime : String → Int

/-- Where an invocation of `simulationStep` is to go on: at its first line
(the timer of line 192 calls it) or after one of its `await`s. -/
inductive Point where
  /-- The call by the timer of line 192. -/
  | start
  /-- After the `await` of line 76 for the arrival number `k` (from 1). -/
  | entering (k : Nat)
  /-- After the `await` of line 95. -/
  | selected
  /-- After the `await` of line 119 in the iteration `t` of the loop of line 116. -/
  | running (t : Nat)
  /-- After the `await` of line 138 or of line 146. -/
  | exiting
  /-- After the `await` of line 172 in the iteration `t` of the loop of line 170. -/
  | jumping (t : Nat)
deriving DecidableEq, Repr

/-- A callback waiting in the timer queue of the browser: its due time in
milliseconds, the closure, and the point at which the closure goes on. -/
structure Event where
  due : Nat
  captured : Captured
  point : Point

/-- The component between two callbacks: its state variables, whether a
dependency of the step effect was written since the last render, the number of
process objects made so far, the time in milliseconds and the waiting
callbacks, ordered by due time. -/
structure World where
  pendingProcesses : List Obj
  readyQueue : List Obj
  completedProcesses : List (QProcess × Int)
  currentProcess : Option Obj
  ganttChart : List Entry
  currentTime : Nat
  remainingTime : String → Int
  isSimulating : Bool
  changed : Bool
  objects : Nat
  now : Nat
  events : List Event

/-- The assignment `{...prev, [name]: v}`. -/
def withKey (m : String → Int) (name : String) (v : Int) : String → Int :=
  fun k => if k = name then v else m k

/-- The objects `processesWithRemaining` of lines 31-34, numbered from `i`. -/
def objectsFrom : Nat → List Process → List Obj
  | _, [] => []
  | i, p :: ps => { ref := i, process := withRemaining p } :: objectsFrom (i + 1) ps

/-- The row of lines 104-109. -/
def ganttEntry (p : QProcess) (startTime : Nat) (executeTime : Int) : Entry :=
  { name := p.name, startTime := startTime, endTime := startTime + executeTime,
    isIdle := false, quantum := executeTime, source := some p }

/-- The Idle row of lines 181-186. -/
def idleEntry (startTime endTime : Nat) : Entry :=
  { name := "Idle", startTime := startTime, endTime := endTime, isIdle := true,
    quantum := 0, source := none }

/-- The call `setCurrentTime(t)`. -/
def setCurrentTime (t : Nat) (w : World) : World :=
  { w with currentTime := t, changed := w.changed || decide (t ≠ w.currentTime) }

/-- The call `setCurrentProcess(p)`. -/
def setCurrentProcess (p : Option Obj) (w : World) : World :=
  { w with currentProcess := p,
           changed := w.changed ||
             decide (p.map (fun o => o.ref) ≠ w.currentProcess.map (fun o => o.ref)) }

/-- The values a closure made in the render of `w` reads. -/
def capture (w : World) : Captured :=
  { pendingProcesses := w.pendingProcesses, readyQueue := w.readyQueue,
    currentProcess := w.currentProcess, currentTime := w.currentTime,
    remainingTime := w.remainingTime }

/-- The list `newArrivals` of lines 68-70. -/
def newArrivals (c : Captured) : List Obj :=
  c.pendingProcesses.filter (fun o => o.process.arrivalTime ≤ c.currentTime)

/-- The value `nextArrivalTime` of lines 161-163 (`Infinity`, the minimum of
nothing, does not occur: the branch is taken with a pending process). -/
def nextArrivalTime (c : Captured) : Nat :=
  match c.pendingProcesses with
  | [] => 0
  | o :: os => minList o.process.arrivalTime (os.map (fun x => x.process.arrivalTime))

/-- The value `executeTime` of line 101 for the process `p`. -/
def executeTime (timeQuantum : Nat) (c : Captured) (p : QProcess) : Int :=
  min (timeQuantum : Int) (c.remainingTime p.name)

/-- The clock jump of lines 170-188 from the iteration `t`: one more iteration,
up to its `await`, or the end of the loop and the Idle row. -/
def jump (c : Captured) (t : Nat) (w : World) : World × Option (Nat × Point) :=
  if t ≤ nextArrivalTime c then (setCurrentTime t w, some (50, Point.jumping t))
  else if nextArrivalTime c > c.currentTime then
    ({ w with ganttChart := w.ganttChart ++ [idleEntry c.currentTime (nextArrivalTime c)] }, none)
  else (w, none)

/-- The choice of lines 88-189, made on the captured values: dispatch the head
of the ready queue, or jump the clock, or nothing. -/
def branch (c : Captured) (w : World) : World × Option (Nat × Point) :=
  if c.currentProcess.isNone && c.readyQueue.length > 0 then
    match c.readyQueue with
    | [] => (w, none)
    | nextProcess :: _ => (setCurrentProcess (some nextProcess) w, some (600, Point.selected))
  else if c.readyQueue.length == 0 && c.pendingProcesses.length > 0 then
    jump c (c.currentTime + 1) w
  else (w, none)

/-- The slice of lines 116-146 for `nextProcess` from the iteration `t`: one
more iteration, up to its `await`, or the end of the loop: the row, the new
remaining time, and the `await` of line 138 or 146. -/
def slice (timeQuantum : Nat) (c : Captured) (nextProcess : QProcess) (t : Nat) (w : World) :
    World × Option (Nat × Point) :=
  if (t : Int) ≤ executeTime timeQuantum c nextProcess then
    (setCurrentTime (c.currentTime + t) w, some (600, Point.running t))
  else
    ({ w with
        ganttChart := w.ganttChart ++
          [ganttEntry nextProcess c.currentTime (executeTime timeQuantum c nextProcess)],
        remainingTime := withKey w.remainingTime nextProcess.name
          (w.remainingTime nextProcess.name - executeTime timeQuantum c nextProcess),
        changed := true },
     some (600, Point.exiting))

/-- Lines 138-157, after the last `await`: the process is completed or goes
back to the ready queue as a new object, and `currentProcess` is cleared. -/
def leave (timeQuantum : Nat) (c : Captured) (nextProcess : QProcess) (w : World) : World :=
  if c.remainingTime nextProcess.name - executeTime timeQuantum c nextProcess ≤ 0 then
    setCurrentProcess none
      { w with completedProcesses := w.completedProcesses ++
          [(nextProcess, (c.currentTime : Int) + executeTime timeQuantum c nextProcess)] }
  else
    setCurrentProcess none
      { w with
          readyQueue := w.readyQueue ++
            [{ ref := w.objects,
               process := { nextProcess with
                 remainingTime := (c.remainingTime nextProcess.name
                   - executeTime timeQuantum c nextProcess).toNat } }],
          objects := w.objects + 1,
          changed := true }

/-- One callback: the invocation with the captured values `c` goes on from
`point` up to its next `await`, of which the delay and the point after it are
returned, or up to its end.  Reads are of `c`; the calls `setX(prev => ...)` act
on the state of `w`. -/
def resume (timeQuantum : Nat) (c : Captured) (point : Point) (w : World) :
    World × Option (Nat × Point) :=
  match point with
  | Point.start =>
    if (newArrivals c).length > 0 then (w, some (600, Point.entering 1))
    else branch c w
  | Point.entering k =>
    if k < (newArrivals c).length then (w, some (600, Point.entering (k + 1)))
    else
      branch c
        { w with
            pendingProcesses :=
              w.pendingProcesses.filter (fun o => o.process.arrivalTime > c.currentTime),
            readyQueue := w.readyQueue ++ newArrivals c,
            changed := true }
  | Point.selected =>
    match c.readyQueue with
    | [] => (w, none)
    | nextProcess :: _ =>
      slice timeQuantum c nextProcess.process 1
        { w with readyQueue := w.readyQueue.drop 1, changed := true }
  | Point.running t =>
    match c.readyQueue with
    | [] => (w, none)
    | nextProcess :: _ => slice timeQuantum c nextProcess.process (t + 1) w
  | Point.exiting =>
    match c.readyQueue with
    | [] => (w, none)
    | nextProcess :: _ => (leave timeQuantum c nextProcess.process w, none)
  | Point.jumping t => jump c (t + 1) w

/-- A callback joins the queue behind the callbacks due earlier; among
callbacks due at the same instant it goes last, or first when `first` is set. -/
def schedule (first : Bool) (e : Event) : List Event → List Event
  | [] => [e]
  | x :: xs =>
    if e.due < x.due || (first && e.due == x.due) then e :: x :: xs
    else x :: schedule first e xs

/-- The render after a callback and the effects that follow it.  When a
dependency of the step effect was written, the armed timer is cleared (line
193); the effect of lines 197-201 clears `isSimulating` when nothing is
pending, queued or running; otherwise, while simulating, a timer is armed
500 ms ahead for a closure over the new values (line 192).  `timerFirst` tells
whether that timer runs before or after the callbacks already waiting for the
same instant. -/
def render (timerFirst : Bool) (w : World) : World :=
  if w.changed then
    let cleared : World :=
      { w with changed := false,
               events := w.events.filter (fun e => decide (e.point ≠ Point.start)) }
    if !cleared.isSimulating then cleared
    else if cleared.pendingProcesses.isEmpty && cleared.readyQueue.isEmpty
        && cleared.currentProcess.isNone then
      { cleared with isSimulating := false }
    else
      let timer : Event :=
        { due := cleared.now + 500, captured := capture cleared, point := Point.start }
      { cleared with events := schedule timerFirst timer cleared.events }
  else w

/-- The function `startSimulation` of lines 29-55, before the first render. -/
def startSimulation (processes : List Process) : World :=
  { pendingProcesses := objectsFrom 0 processes,
    readyQueue := [],
    completedProcesses := [],
    currentProcess := none,
    ganttChart := [],
    currentTime := 0,
    remainingTime := (processes.map withRemaining).foldl
      (fun m p => withKey m p.name p.burstTime) (fun _ => 0),
    isSimulating := true,
    changed := true,
    objects := processes.length,
    now := 0,
    events := [] }

/-- The earliest waiting callback runs, the `await` it stops at joins the
queue, and the component renders.  With no callback waiting nothing happens
any more. -/
def dispatch (timerFirst : Bool) (timeQuantum : Nat) (w : World) : World :=
  match w.events with
  | [] => w
  | e :: rest =>
    let popped : World := { w with events := rest, now := e.due }
    match resume timeQuantum e.captured e.point popped with
    | (w', none) => render timerFirst w'
    | (w', some (delay, point)) =>
      let awaiting : Event := { due := w'.now + delay, captured := e.captured, point := point }
      render timerFirst { w' with events := schedule false awaiting w'.events }

/-- The component after `n` callbacks from `w`. -/
def callbacks (timerFirst : Bool) (timeQuantum : Nat) : Nat → World → World
  | 0, w => w
  | n + 1, w => callbacks timerFirst timeQuantum n (dispatch timerFirst timeQuantum w)

/-- The component `n` callbacks after `startSimulation` on `processes`. -/
def run (timerFirst : Bool) (timeQuantum n : Nat) (processes : List Process) : World :=
  callbacks timerFirst timeQuantum n (render timerFirst (startSimulation processes))

/-- A row reduced to name, start and end. -/
def Entry.span (e : Entry) : String × Nat × Int := (e.name, e.startTime, e.endTime)

/-- The Gantt chart `n` callbacks after the start, each row as name, start, end. -/
def chart (timerFirst : Bool) (timeQuantum n : Nat) (processes : List Process) :
    List (String × Nat × Int) :=
  (run timerFirst timeQuantum n processes).ganttChart.map Entry.span

end Async

end RR

/-! ## Preemptive Priority with its timers (`PriorityScheduling.jsx`)

The effect of lines 72-305 re-runs whenever `pendingProcesses`,
`activeProcesses` or `currentTime` is written: it clears the timer it had armed
and arms a new one, 500 ms ahead, for a `simulationStep` closed over the values
of that render.  A `simulationStep` waiting in one of its `await`s is not
stopped by this; when step 1 admits an arrival and waits 300 ms (line 103) with
processes already active, the step armed by that write runs beside it.  The
callbacks are kept in a queue as for Round Robin. -/

namespace Priority

namespace Async

/-- The values a `simulationStep` closure reads: those of the render in which
the effect armed its timer. -/
structure Captured where
  pendingProcesses : List AProcess
  activeProcesses : List AProcess
  ganttChart : List Entry
  currentTime : Nat
deriving DecidableEq, Repr

/-- Where an invocation of `simulationStep` is to go on: at its first line
(the timer of line 303 calls it) or after one of its `await`s. -/
inductive Point where
  /-- The call by the timer of line 303. -/
  | start
  /-- After the `await` of line 103. -/
  | admitted
  /-- After the `await` of line 133 for the active process of index `i`, the
  highest priority process so far being `highest` (`none` for `null`). -/
  | comparing (i : Nat) (highest : Option AProcess)
  /-- After the `await` of line 140 for the active process of index `i`. -/
  | chosen (i : Nat) (highest : Option AProcess)
  /-- After the `await` of line 155, the selected process being `h`. -/
  | preempting (h : AProcess)
  /-- After the `await` of line 199, the selected process being `h`. -/
  | executing (h : AProcess)
deriving DecidableEq, Repr

/-- A callback waiting in the timer queue of the browser: its due time in
milliseconds, the closure, and the point at which the closure goes on. -/
structure Event where
  due : Nat
  captured : Captured
  point : Point
deriving DecidableEq, Repr

/-- The component between two callbacks: its state variables, whether a
dependency of the effect was written since the last render, the time in
milliseconds and the waiting callbacks, ordered by due time.
`currentProcess` is written but never read by the step, and is left out. -/
structure World where
  pendingProcesses : List AProcess
  activeProcesses : List AProcess
  completedProcesses : List AProcess
  ganttChart : List Entry
  currentTime : Nat
  isSimulating : Bool
  changed : Bool
  now : Nat
  events : List Event
deriving DecidableEq, Repr

/-- The call `setCurrentTime(t)`. -/
def setCurrentTime (t : Nat) (w : World) : World :=
  { w with currentTime := t, changed := w.changed || decide (t ≠ w.currentTime) }

/-- The values a closure made in the render of `w` reads. -/
def capture (w : World) : Captured :=
  { pendingProcesses := w.pendingProcesses, activeProcesses := w.activeProcesses,
    ganttChart := w.ganttChart, currentTime := w.currentTime }

/-- The list `newlyArrived` of line 90. -/
def newlyArrived (c : Captured) : List AProcess :=
  c.pendingProcesses.filter (fun p => p.arrivalTime ≤ c.currentTime)

/-- The list `uniqueNewProcesses` of lines 98-99 and 244-245: the arrivals
`arrivals` whose id no captured active process has. -/
def uniqueNewProcesses (c : Captured) (arrivals : List AProcess) : List AProcess :=
  arrivals.filter (fun p => !(c.activeProcesses.map (fun a => a.id)).contains p.id)

/-- Step 6 after its `await` (lines 200-300): the selected process `h` has run
for one unit up to `c.currentTime + 1`; it is completed, or stays active, and
the arrivals of that instant are admitted; its row is closed when it is
completed or preempted.  The loop body runs once (`shouldContinue` is cleared
at its top).  Without `h` among the captured active processes the source
throws on `updatedProcess.remainingTime`. -/
def finish (c : Captured) (h : AProcess) (w : World) : World :=
  let nextTime := c.currentTime + 1
  let updatedActiveProcesses := c.activeProcesses.map (fun p =>
    if p.id = h.id then { p with remainingTime := p.remainingTime - 1 } else p)
  match updatedActiveProcesses.find? (fun p => p.id == h.id) with
  | none => w
  | some updatedProcess =>
    if updatedProcess.remainingTime = 0 then
      { w with
        completedProcesses := w.completedProcesses ++ [{ updatedProcess with remainingTime := 0 }],
        activeProcesses := updatedActiveProcesses.filter (fun p => p.id != updatedProcess.id),
        ganttChart := closeLast nextTime true (some 0) w.ganttChart,
        changed := true }
    else
      let newArrivals := c.pendingProcesses.filter (fun p => p.arrivalTime == nextTime)
      let pending6 :=
        if newArrivals.length > 0 then
          w.pendingProcesses.filter (fun p => p.arrivalTime > nextTime)
        else w.pendingProcesses
      let active6 :=
        if newArrivals.length > 0 && (uniqueNewProcesses c newArrivals).length > 0 then
          updatedActiveProcesses ++ uniqueNewProcesses c newArrivals
        else updatedActiveProcesses
      let arrivalPreempts :=
        match newArrivals with
        | [] => false
        | first :: _ =>
          decide ((highestPriorityNewArrival first newArrivals).priority
            < updatedProcess.priority)
      let higherPriorityProcess := updatedActiveProcesses.find? (fun p =>
        p.id != h.id && decide (p.priority < updatedProcess.priority))
      { w with
        pendingProcesses := pending6,
        activeProcesses := active6,
        ganttChart :=
          if arrivalPreempts || higherPriorityProcess.isSome then
            closeLast nextTime false (some updatedProcess.remainingTime) w.ganttChart
          else w.ganttChart,
        changed := true }

/-- Step 5 and the start of step 6 (lines 170-199): a row is opened for `h`
unless the captured chart ends with a row of its name, the clock is set one
unit ahead, and the step waits 300 ms. -/
def openRow (c : Captured) (h : AProcess) (w : World) : World × Option (Nat × Point) :=
  let alreadyLast :=
    match c.ganttChart.getLast? with
    | none => false
    | some l => l.name == h.name
  let opened : World :=
    if alreadyLast then w
    else { w with ganttChart := w.ganttChart ++ [newGanttItem h c.currentTime] }
  (setCurrentTime (c.currentTime + 1) opened, some (300, Point.executing h))

/-- Step 3 from the active process of index `i` (lines 130-142), then step 4
(lines 147-156).  With no process selected the source throws on
`highestPriorityProcess.name`, and the invocation ends. -/
def select (c : Captured) (i : Nat) (highest : Option AProcess) (w : World) :
    World × Option (Nat × Point) :=
  if i < c.activeProcesses.length then (w, some (300, Point.comparing i highest))
  else
    match highest with
    | none => (w, none)
    | some h =>
      let isPreemption :=
        match c.ganttChart.getLast? with
        | none => false
        | some l => l.name != h.name && !l.completed
      if isPreemption then (w, some (500, Point.preempting h))
      else openRow c h w

/-- Step 2, the time jump of lines 108-122, or else the steps that follow it.
The clock writes of the loop of line 115 happen in one callback, of which the
last stands. -/
def afterAdmission (c : Captured) (w : World) : World × Option (Nat × Point) :=
  if c.activeProcesses.length == 0 && c.pendingProcesses.length > 0 then
    match c.pendingProcesses with
    | [] => (w, none)
    | p :: ps =>
      let nextArrivalTime := minList p.arrivalTime (ps.map (fun x => x.arrivalTime))
      if nextArrivalTime > c.currentTime then (setCurrentTime nextArrivalTime w, none)
      else (w, none)
  else select c 0 none w

/-- One callback: the invocation with the captured values `c` goes on from
`point` up to its next `await`, of which the delay and the point after it are
returned, or up to its end.  Reads are of `c`; the calls `setX(prev => ...)` act
on the state of `w`, the calls `setX(v)` overwrite it. -/
def resume (c : Captured) (point : Point) (w : World) : World × Option (Nat × Point) :=
  match point with
  | Point.start =>
    if (newlyArrived c).length > 0 then
      let filtered : World :=
        { w with
          pendingProcesses := w.pendingProcesses.filter (fun p => p.arrivalTime > c.currentTime),
          changed := true }
      if (uniqueNewProcesses c (newlyArrived c)).length > 0 then
        ({ filtered with
            activeProcesses := filtered.activeProcesses ++ uniqueNewProcesses c (newlyArrived c) },
         some (300, Point.admitted))
      else afterAdmission c filtered
    else afterAdmission c w
  | Point.admitted => afterAdmission c w
  | Point.comparing i highest =>
    match c.activeProcesses.get? i with
    | none => (w, none)
    | some process =>
      let better :=
        match highest with
        | none => true
        | some h => decide (process.priority < h.priority)
      if better then (w, some (200, Point.chosen i (some process)))
      else select c (i + 1) highest w
  | Point.chosen i highest => select c (i + 1) highest w
  | Point.preempting h =>
    openRow c h { w with ganttChart := closeLast c.currentTime false none w.ganttChart }
  | Point.executing h => (finish c h w, none)

/-- A callback joins the queue behind the callbacks due earlier; among
callbacks due at the same instant it goes last, or first when `first` is set. -/
def schedule (first : Bool) (e : Event) : List Event → List Event
  | [] => [e]
  | x :: xs =>
    if e.due < x.due || (first && e.due == x.due) then e :: x :: xs
    else x :: schedule first e xs

/-- The render after a callback and the effect of lines 72-305 that follows
it.  When a dependency was written, the armed timer is cleared (line 304);
while simulating, `isSimulating` is cleared when nothing is pending or active
(lines 80-82), and otherwise a timer is armed 500 ms ahead for a closure over the
new values (line 303).  `timerFirst` tells whether that timer runs before or
after the callbacks already waiting for the same instant. -/
def render (timerFirst : Bool) (w : World) : World :=
  if w.changed then
    let cleared : World :=
      { w with changed := false,
               events := w.events.filter (fun e => decide (e.point ≠ Point.start)) }
    if !cleared.isSimulating then cleared
    else if cleared.pendingProcesses.length == 0 && cleared.activeProcesses.length == 0 then
      { cleared with isSimulating := false }
    else
      let timer : Event :=
        { due := cleared.now + 500, captured := capture cleared, point := Point.start }
      { cleared with events := schedule timerFirst timer cleared.events }
  else w

/-- The function `startSimulation` of lines 26-58, before the first render. -/
def startSimulation (processes : List Process) : World :=
  { pendingProcesses := indexed 0 processes, activeProcesses := [],
    completedProcesses := [], ganttChart := [], currentTime := 0,
    isSimulating := true, changed := true, now := 0, events := [] }

/-- The earliest waiting callback runs, the `await` it stops at joins the
queue, and the component renders.  With no callback waiting nothing happens
any more. -/
def dispatch (timerFirst : Bool) (w : World) : World :=
  match w.events with
  | [] => w
  | e :: rest =>
    let popped : World := { w with events := rest, now := e.due }
    match resume e.captured e.point popped with
    | (w', none) => render timerFirst w'
    | (w', some (delay, point)) =>
      let awaiting : Event := { due := w'.now + delay, captured := e.captured, point := point }
      render timerFirst { w' with events := schedule false awaiting w'.events }

/-- The component after `n` callbacks from `w`. -/
def callbacks (timerFirst : Bool) : Nat → World → World
  | 0, w => w
  | n + 1, w => callbacks timerFirst n (dispatch timerFirst w)

/-- The component `n` callbacks after `startSimulation` on `processes`. -/
def run (timerFirst : Bool) (n : Nat) (processes : List Process) : World :=
  callbacks timerFirst n (render timerFirst (startSimulation processes))

/-- The Gantt chart `n` callbacks after the start, each row as name, start, end. -/
def chart (timerFirst : Bool) (n : Nat) (processes : List Process) :
    List (String × Nat × Option Nat) :=
  (run timerFirst n processes).ganttChart.map Entry.span

end Async

end Priority

/-! ## Inputs on which steps overlap -/

/-- Total length of the rows of a Round Robin chart of `RR.Async` that are not
Idle and carry the name `name`. -/
def RR.Async.work (name : String) (g : List RR.Async.Entry) : Int :=
  ((g.filter (fun e => !e.isIdle && e.name == name)).map (fun e =>
    e.endTime - (e.startTime : Int))).sum

/-- Round Robin input (time quantum 2): `P2` arrives at 5, after the three
units of `P1` are over. -/
def lateSecond : List Process :=
  [{ name := "P1", arrivalTime := 0, burstTime := 3 },
   { name := "P2", arrivalTime := 5, burstTime := 1 }]

/-- Round Robin input (time quantum 1): `P2` arrives at 5, after the two units
of `P1` are over. -/
def lateSecondShort : List Process :=
  [{ name := "P1", arrivalTime := 0, burstTime := 2 },
   { name := "P2", arrivalTime := 5, burstTime := 1 }]

/-- Round Robin input (time quantum 2): three processes arrive at 1, during the
first slice `[0, 2)` of `P1`, which has 3 units to run. -/
def threeArrivals : List Process :=
  [{ name := "P1", arrivalTime := 0, burstTime := 3 },
   { name := "P2", arrivalTime := 1, burstTime := 1 },
   { name := "P3", arrivalTime := 1, burstTime := 1 },
   { name := "P4", arrivalTime := 1, burstTime := 1 }]

/-- Round Robin input (time quantum 2): four processes arrive at 1, during the
only slice `[0, 2)` of `P1`. -/
def fourArrivals : List Process :=
  [{ name := "P1", arrivalTime := 0, burstTime := 2 },
   { name := "P2", arrivalTime := 1, burstTime := 1 },
   { name := "P3", arrivalTime := 1, burstTime := 1 },
   { name := "P4", arrivalTime := 1, burstTime := 1 },
   { name := "P5", arrivalTime := 1, burstTime := 1 }]

/-- Priority input: `A` completes at time 1, the instant at which `B` arrives,
while `C`, of two units and the lowest priority, is still active. -/
def arrivalBesideLongRun : List Process :=
  [{ name := "A", arrivalTime := 0, burstTime := 1, priority := 1 },
   { name := "C", arrivalTime := 0, burstTime := 2, priority := 3 },
   { name := "B", arrivalTime := 1, burstTime := 1, priority := 2 }]

/-- Priority input: `A` completes at time 1, the instant at which `C` arrives
while `B` is active; `C` and `D` have the same priority, the highest, and `D`
arrives at 3, when `C` still has 2 of its 3 units to run. -/
def tieAfterCompletion : List Process :=
  [{ name := "A", arrivalTime := 0, burstTime := 1, priority := 1 },
   { name := "B", arrivalTime := 0, burstTime := 2, priority := 2 },
   { name := "C", arrivalTime := 1, burstTime := 3, priority := 1 },
   { name := "D", arrivalTime := 3, burstTime := 1, priority := 1 }]

/-- The state in which the step of `fourArrivals` armed at the end of the
slice of `P1` finds the component: the clock is 2, nothing is queued or
running, and the four processes that arrived at 1 are still pending. -/
def RR.clockPastArrival : RR.State :=
  { pendingProcesses := (fourArrivals.drop 1).map RR.withRemaining,
    readyQueue := [],
    completedProcesses := [({ name := "P1", arrivalTime := 0, burstTime := 2, priority := 0,
                              remainingTime := 2 }, 2)],
    currentProcess := none,
    ganttChart := [RR.ganttEntry { name := "P1", arrivalTime := 0, burstTime := 2,
                                   priority := 0, remainingTime := 2 } 0 2],
    currentTime := 2,
    remainingTime := fun k => if k = "P1" then 0 else 1 }

/-- What a waiting callback is to do and what its closure holds: the point at
which it goes on, the clock, the names in the ready queue, the name of the
current process and the names and arrival times of the pending processes. -/
structure RR.Async.Call where
  point : RR.Async.Point
  currentTime : Nat
  readyQueue : List String
  currentProcess : Option String
  pendingProcesses : List (String × Nat)
deriving DecidableEq, Repr

/-- The callback that runs next. -/
def RR.Async.upcoming (w : RR.Async.World) : Option RR.Async.Call :=
  w.events.head?.map (fun e =>
    { point := e.point, currentTime := e.captured.currentTime,
      readyQueue := e.captured.readyQueue.map (fun o => o.process.name),
      currentProcess := e.captured.currentProcess.map (fun o => o.process.name),
      pendingProcesses :=
        e.captured.pendingProcesses.map (fun o => (o.process.name, o.process.arrivalTime)) })

end Sched

namespace Sched

/-! ## FCFS and SJF: rows never overlap -/

theorem minList_mem (x : Nat) (xs : List Nat) : minList x xs ∈ x :: xs := by
  induction xs generalizing x with
  | nil => simp [minList]
  | cons y ys ih =>
    have h := ih (min x y)
    simp only [minList, List.foldl_cons, List.mem_cons] at h ⊢
    rcases h with h | h
    · rcases Nat.le_total x y with hxy | hxy
      · left; rw [h, Nat.min_eq_left hxy]
      · right; left; rw [h, Nat.min_eq_right hxy]
    · right; right; exact h

theorem orderedUpTo_extends {g g' : List (Nat × Nat)} {t t' : Nat}
    (h : OrderedUpTo g t) (hs : Extends g t g' t') : OrderedUpTo g' t' := by
  rcases hs with ⟨rfl, hle⟩ | ⟨a, b, rfl, h1, h2, h3⟩
  · exact ⟨h.1, fun x hx => ⟨le_trans (h.2 x hx).1 hle, le_trans (h.2 x hx).2 hle⟩⟩
  · refine ⟨?_, ?_⟩
    · refine List.pairwise_append.mpr ⟨h.1, List.pairwise_singleton _ _, ?_⟩
      intro x hx y hy
      rw [List.mem_singleton] at hy
      subst hy
      have := h.2 x hx
      exact ⟨by omega, by omega⟩
    · intro x hx
      rcases List.mem_append.mp hx with hx | hx
      · have := h.2 x hx
        exact ⟨by omega, by omega⟩
      · rw [List.mem_singleton] at hx
        subst hx
        exact ⟨by simp only; omega, h3⟩

theorem fcfs_step_extends (s : FCFS.State) :
    Extends (s.ganttChart.map TimedProcess.interval) s.currentTime
      ((FCFS.simulationStep s).ganttChart.map TimedProcess.interval)
      (FCFS.simulationStep s).currentTime := by
  unfold FCFS.simulationStep
  cases s.pendingProcesses with
  | nil => exact Or.inl ⟨rfl, le_refl _⟩
  | cons first rest =>
    refine Or.inr ⟨max s.currentTime (FCFS.findMin first rest).arrivalTime,
      max s.currentTime (FCFS.findMin first rest).arrivalTime
        + (FCFS.findMin first rest).burstTime, ?_, ?_, ?_, ?_⟩
    · simp [withTiming, TimedProcess.interval]
    · exact le_max_left _ _
    · omega
    · exact le_refl _

theorem fcfs_steps_ordered (n : Nat) (s : FCFS.State)
    (h : OrderedUpTo (s.ganttChart.map TimedProcess.interval) s.currentTime) :
    OrderedUpTo ((FCFS.steps n s).ganttChart.map TimedProcess.interval)
      (FCFS.steps n s).currentTime := by
  induction n generalizing s with
  | zero => exact h
  | succ n ih => exact ih _ (orderedUpTo_extends h (fcfs_step_extends s))

theorem sjf_arrivalEffect_chart (s : SJF.State) :
    (SJF.arrivalEffect s).ganttChart = s.ganttChart ∧
    (SJF.arrivalEffect s).currentTime = s.currentTime ∧
    (SJF.arrivalEffect s).animatingTimeJump = s.animatingTimeJump := by
  unfold SJF.arrivalEffect
  split
  · exact ⟨rfl, rfl, rfl⟩
  · simp only
    split <;> exact ⟨rfl, rfl, rfl⟩

theorem sjf_arrivalEffect_pending (s : SJF.State) (h : s.animatingTimeJump = false) :
    ∀ p ∈ (SJF.arrivalEffect s).pendingProcesses, s.currentTime < p.arrivalTime := by
  unfold SJF.arrivalEffect
  simp only [h, Bool.false_eq_true, if_false]
  split
  · intro p hp
    simpa using (List.mem_filter.mp hp).2
  · rename_i hlen
    intro p hp
    by_contra hlt
    apply hlen
    apply List.length_pos_of_mem (a := p)
    exact List.mem_filter.mpr ⟨hp, by simpa using hlt⟩

theorem sjf_timeJump_chart (target : Nat) (s : SJF.State) :
    (SJF.timeJump target s).ganttChart = s.ganttChart ∧
    ((SJF.timeJump target s).currentTime = target ∨
      (target = 0 ∧ (SJF.timeJump target s).currentTime = s.currentTime)) := by
  unfold SJF.timeJump
  split
  · rename_i h
    exact ⟨rfl, Or.inr ⟨h, rfl⟩⟩
  · exact ⟨rfl, Or.inl rfl⟩

theorem sjf_simulationStep_extends (s : SJF.State)
    (hp : s.animatingTimeJump = true ∨ ∀ p ∈ s.pendingProcesses, s.currentTime < p.arrivalTime) :
    Extends (s.ganttChart.map TimedProcess.interval) s.currentTime
      ((SJF.simulationStep s).ganttChart.map TimedProcess.interval)
      (SJF.simulationStep s).currentTime := by
  unfold SJF.simulationStep
  split
  · exact Or.inl ⟨rfl, le_refl _⟩
  · rename_i hanim
    split
    · split
      · exact Or.inl ⟨rfl, le_refl _⟩
      · rename_i first rest _
        refine Or.inr ⟨s.currentTime,
          s.currentTime + (SJF.findShortestJob first rest).burstTime, ?_, le_refl _, by omega, ?_⟩
        · rw [(sjf_timeJump_chart _ _).1]
          simp [withTiming, TimedProcess.interval]
        · rcases (sjf_timeJump_chart (s.currentTime + (SJF.findShortestJob first rest).burstTime)
            { s with
              ganttChart := s.ganttChart ++ [withTiming (SJF.findShortestJob first rest)
                s.currentTime (s.currentTime + (SJF.findShortestJob first rest).burstTime)],
              completedProcesses := s.completedProcesses ++ [SJF.findShortestJob first rest],
              arrivedQueue := s.arrivedQueue.filter
                (fun p => p.name != (SJF.findShortestJob first rest).name),
              currentProcess := none }).2 with h | ⟨h0, h⟩
          · rw [h]
          · rw [h]; simp only; omega
    · split
      · split
        · exact Or.inl ⟨rfl, le_refl _⟩
        · rename_i p ps hpend
          refine Or.inl ⟨by rw [(sjf_timeJump_chart _ _).1], ?_⟩
          rcases (sjf_timeJump_chart (minList p.arrivalTime (ps.map (fun x => x.arrivalTime))) s).2
            with h | ⟨_, h⟩
          · rw [h]
            rcases hp with hp | hp
            · exact absurd hp hanim
            · have hm := minList_mem p.arrivalTime (ps.map (fun x => x.arrivalTime))
              have : minList p.arrivalTime (ps.map (fun x => x.arrivalTime))
                  ∈ (p :: ps).map (fun x => x.arrivalTime) := by simpa using hm
              obtain ⟨x, hx, hxe⟩ := List.mem_map.mp this
              rw [← hpend] at hx
              have := hp x hx
              omega
          · rw [h]
      · exact Or.inl ⟨rfl, le_refl _⟩

theorem sjf_tick_extends (s : SJF.State) :
    Extends (s.ganttChart.map TimedProcess.interval) s.currentTime
      ((SJF.tick s).ganttChart.map TimedProcess.interval) (SJF.tick s).currentTime := by
  have h := sjf_simulationStep_extends (SJF.arrivalEffect s) (by
    cases ha : s.animatingTimeJump with
    | true => exact Or.inl (by rw [(sjf_arrivalEffect_chart s).2.2, ha])
    | false =>
      right
      rw [(sjf_arrivalEffect_chart s).2.1]
      exact sjf_arrivalEffect_pending s ha)
  rw [(sjf_arrivalEffect_chart s).1, (sjf_arrivalEffect_chart s).2.1] at h
  exact h

theorem sjf_steps_ordered (n : Nat) (s : SJF.State)
    (h : OrderedUpTo (s.ganttChart.map TimedProcess.interval) s.currentTime) :
    OrderedUpTo ((SJF.steps n s).ganttChart.map TimedProcess.interval)
      (SJF.steps n s).currentTime := by
  induction n generalizing s with
  | zero => exact h
  | succ n ih => exact ih _ (orderedUpTo_extends h (sjf_tick_extends s))

theorem priority_modifyLast_snoc {α : Type} (f : α → α) (l : List α) (x : α) :
    Priority.modifyLast f (l ++ [x]) = l ++ [f x] := by
  induction l with
  | nil => rfl
  | cons a l ih =>
    cases l with
    | nil => rfl
    | cons b l' =>
      simp only [List.cons_append] at ih ⊢
      rw [Priority.modifyLast, ih]

/-! ## Round Robin, one step after another: work and remaining time -/

theorem rr_admitted_eq (s : RR.State) :
    (if (s.pendingProcesses.filter (fun p => p.arrivalTime ≤ s.currentTime)).length > 0 then
      { s with
        pendingProcesses := s.pendingProcesses.filter (fun p => p.arrivalTime > s.currentTime),
        readyQueue := s.readyQueue ++
          s.pendingProcesses.filter (fun p => p.arrivalTime ≤ s.currentTime) }
    else s) = RR.afterAdmission s := by
  split
  · rfl
  · rename_i hna
    have hnil : s.pendingProcesses.filter (fun p => p.arrivalTime ≤ s.currentTime) = [] := by
      cases h : s.pendingProcesses.filter (fun p => p.arrivalTime ≤ s.currentTime) with
      | nil => rfl
      | cons a l => rw [h] at hna; simp at hna
    have hall : s.pendingProcesses.filter (fun p => p.arrivalTime > s.currentTime)
        = s.pendingProcesses := by
      rw [List.filter_eq_self]
      intro a ha
      have := List.filter_eq_nil_iff.mp hnil a ha
      simpa using this
    unfold RR.afterAdmission
    rw [hnil, hall, List.append_nil]

theorem rr_step_eq (q : Nat) (s : RR.State) :
    RR.simulationStep q s =
      if s.currentProcess.isNone && s.readyQueue.length > 0 then
        match s.readyQueue with
        | [] => RR.afterAdmission s
        | nextProcess :: _ =>
          if s.remainingTime nextProcess.name - min q (s.remainingTime nextProcess.name) ≤ 0 then
            { RR.afterAdmission s with
              readyQueue := (RR.afterAdmission s).readyQueue.drop 1,
              currentTime := s.currentTime + min q (s.remainingTime nextProcess.name),
              ganttChart := s.ganttChart ++
                [RR.ganttEntry nextProcess s.currentTime (min q (s.remainingTime nextProcess.name))],
              remainingTime := RR.setKey s.remainingTime nextProcess.name
                (s.remainingTime nextProcess.name - min q (s.remainingTime nextProcess.name)),
              completedProcesses := s.completedProcesses ++
                [(nextProcess, s.currentTime + min q (s.remainingTime nextProcess.name))],
              currentProcess := none }
          else
            { RR.afterAdmission s with
              readyQueue := (RR.afterAdmission s).readyQueue.drop 1 ++
                [{ nextProcess with
                   remainingTime := s.remainingTime nextProcess.name
                     - min q (s.remainingTime nextProcess.name) }],
              currentTime := s.currentTime + min q (s.remainingTime nextProcess.name),
              ganttChart := s.ganttChart ++
                [RR.ganttEntry nextProcess s.currentTime (min q (s.remainingTime nextProcess.name))],
              remainingTime := RR.setKey s.remainingTime nextProcess.name
                (s.remainingTime nextProcess.name - min q (s.remainingTime nextProcess.name)),
              currentProcess := none }
      else if s.readyQueue.length == 0 && s.pendingProcesses.length > 0 then
        match s.pendingProcesses with
        | [] => RR.afterAdmission s
        | p :: ps =>
          if minList p.arrivalTime (ps.map (fun x => x.arrivalTime)) > s.currentTime then
            { RR.afterAdmission s with
              currentTime := minList p.arrivalTime (ps.map (fun x => x.arrivalTime)),
              ganttChart := s.ganttChart ++
                [RR.idleEntry s.currentTime (minList p.arrivalTime (ps.map (fun x => x.arrivalTime)))] }
          else RR.afterAdmission s
      else RR.afterAdmission s := by
  unfold RR.simulationStep
  simp only [rr_admitted_eq]
  rfl

theorem minList_le (x : Nat) (xs : List Nat) : ∀ y ∈ x :: xs, minList x xs ≤ y := by
  induction xs generalizing x with
  | nil =>
    intro y hy
    simp only [List.mem_singleton] at hy
    subst hy
    exact le_refl _
  | cons z zs ih =>
    intro y hy
    have h := ih (min x z)
    simp only [minList, List.foldl_cons] at h ⊢
    rcases List.mem_cons.mp hy with rfl | hy
    · exact le_trans (h (min y z) (List.mem_cons_self _ _)) (Nat.min_le_left _ _)
    · rcases List.mem_cons.mp hy with rfl | hy
      · exact le_trans (h (min x y) (List.mem_cons_self _ _)) (Nat.min_le_right _ _)
      · exact h y (List.mem_cons_of_mem _ hy)

theorem rr_filter_later (l : List RR.QProcess) (t : Nat) :
    l.filter (fun p => p.arrivalTime > t)
      = l.filter (fun p => !decide (p.arrivalTime ≤ t)) := by
  apply List.filter_congr
  intro x _
  by_cases h : x.arrivalTime ≤ t
  · simp [h, Nat.not_lt.mpr h]
  · simp [h, Nat.lt_of_not_le h]

theorem rr_split_perm (l : List RR.QProcess) (t : Nat) :
    (l.filter (fun p => p.arrivalTime ≤ t) ++ l.filter (fun p => p.arrivalTime > t)).Perm l := by
  rw [rr_filter_later]
  exact List.filter_append_perm _ l

theorem rr_live_admission_perm (s : RR.State) : (RR.live (RR.afterAdmission s)).Perm (RR.live s) := by
  unfold RR.live RR.afterAdmission
  simp only
  have h1 := rr_split_perm s.pendingProcesses s.currentTime
  calc s.pendingProcesses.filter (fun p => p.arrivalTime > s.currentTime)
          ++ (s.readyQueue ++ s.pendingProcesses.filter (fun p => p.arrivalTime ≤ s.currentTime))
      _ |>.Perm ((s.readyQueue
            ++ s.pendingProcesses.filter (fun p => p.arrivalTime ≤ s.currentTime))
          ++ s.pendingProcesses.filter (fun p => p.arrivalTime > s.currentTime)) :=
        List.perm_append_comm
      _ |>.Perm (s.readyQueue ++ s.pendingProcesses) := by
        rw [List.append_assoc]
        exact List.Perm.append_left _ h1
      _ |>.Perm (s.pendingProcesses ++ s.readyQueue) := List.perm_append_comm

theorem rr_work_snoc_run (n : String) (g : List RR.Entry) (next : RR.QProcess) (t e : Nat) :
    RR.work n (g ++ [RR.ganttEntry next t e])
      = RR.work n g + (if next.name = n then e else 0) := by
  unfold RR.work
  rw [List.filter_append, List.map_append, List.sum_append]
  congr 1
  by_cases h : next.name = n
  · simp [RR.ganttEntry, h]
  · simp [RR.ganttEntry, h]

theorem rr_work_snoc_idle (n : String) (g : List RR.Entry) (a b : Nat) :
    RR.work n (g ++ [RR.idleEntry a b]) = RR.work n g := by
  unfold RR.work
  rw [List.filter_append, List.map_append, List.sum_append]
  simp [RR.idleEntry]

theorem rr_inv_congr {processes : List Process} (s s' : RR.State)
    (hcur : s'.currentProcess = s.currentProcess)
    (hlive : (RR.live s').Perm (RR.live s))
    (hrem : s'.remainingTime = s.remainingTime)
    (hwork : ∀ n, RR.work n s'.ganttChart = RR.work n s.ganttChart)
    (h : RR.Inv processes s) : RR.Inv processes s' := by
  refine ⟨by rw [hcur]; exact h.current, ?_, ?_, ?_, ?_⟩
  · exact ((hlive.map _).nodup_iff).mpr h.nodup
  · intro p hp
    rw [hrem]
    exact h.positive p (hlive.mem_iff.mp hp)
  · intro p hp
    rw [hrem, hwork]
    exact h.conserved p hp
  · intro p hp
    rw [hrem]
    rcases h.completed p hp with hc | hc
    · exact Or.inl (((hlive.map _).mem_iff).mpr hc)
    · exact Or.inr hc

theorem rr_inv_admission {processes : List Process} {s : RR.State} (h : RR.Inv processes s) :
    RR.Inv processes (RR.afterAdmission s) :=
  rr_inv_congr s (RR.afterAdmission s) rfl (rr_live_admission_perm s) rfl (fun _ => rfl) h

theorem rr_inv_idle {processes : List Process} {s : RR.State} (a : Nat)
    (h : RR.Inv processes s) :
    RR.Inv processes
      { RR.afterAdmission s with
        currentTime := a,
        ganttChart := s.ganttChart ++ [RR.idleEntry s.currentTime a] } :=
  rr_inv_congr s _ rfl (rr_live_admission_perm s) rfl (fun n => rr_work_snoc_idle n _ _ _) h

theorem rr_admission_ready (s : RR.State) (next : RR.QProcess) (rest : List RR.QProcess)
    (hq : s.readyQueue = next :: rest) :
    (RR.afterAdmission s).readyQueue
      = next :: (rest ++ s.pendingProcesses.filter (fun p => p.arrivalTime ≤ s.currentTime)) := by
  simp [RR.afterAdmission, hq]

theorem rr_live_run_perm (s : RR.State) (next : RR.QProcess) (rest : List RR.QProcess)
    (hq : s.readyQueue = next :: rest) :
    (next :: ((RR.afterAdmission s).pendingProcesses ++ (RR.afterAdmission s).readyQueue.drop 1)).Perm
      (RR.live s) := by
  have h1 := rr_live_admission_perm s
  unfold RR.live at h1 ⊢
  rw [rr_admission_ready s next rest hq] at h1 ⊢
  exact (List.perm_middle.symm).trans h1

theorem rr_inv_after_run {processes : List Process} (s s' : RR.State) (next : RR.QProcess)
    (X : List RR.QProcess) (e : Nat) (h : RR.Inv processes s)
    (hperm : (next :: X).Perm (RR.live s)) (he : e ≤ s.remainingTime next.name)
    (hcur : s'.currentProcess = none)
    (hg : s'.ganttChart = s.ganttChart ++ [RR.ganttEntry next s.currentTime e])
    (hrem : s'.remainingTime
      = RR.setKey s.remainingTime next.name (s.remainingTime next.name - e))
    (hlive : (s.remainingTime next.name - e = 0 ∧ RR.live s' = X) ∨
      (0 < s.remainingTime next.name - e ∧ ∃ next' : RR.QProcess,
        next'.name = next.name ∧ next'.remainingTime = s.remainingTime next.name - e ∧
        RR.live s' = X ++ [next'])) :
    RR.Inv processes s' := by
  have hnd : ((next :: X).map (fun p => p.name)).Nodup := ((hperm.map _).nodup_iff).mpr h.nodup
  simp only [List.map_cons, List.nodup_cons] at hnd
  have hXmem : ∀ x ∈ X, x ∈ RR.live s :=
    fun x hx => hperm.mem_iff.mp (List.mem_cons_of_mem _ hx)
  have hXne : ∀ x ∈ X, x.name ≠ next.name := by
    intro x hx heq
    apply hnd.1
    rw [← heq]
    exact List.mem_map_of_mem _ hx
  have hremX : ∀ k, k ≠ next.name → s'.remainingTime k = s.remainingTime k := by
    intro k hk
    rw [hrem]
    simp [RR.setKey, hk]
  have hremN : s'.remainingTime next.name = s.remainingTime next.name - e := by
    rw [hrem]
    simp [RR.setKey]
  refine ⟨hcur, ?_, ?_, ?_, ?_⟩
  · rcases hlive with ⟨_, hl⟩ | ⟨_, next', hn, _, hl⟩
    · rw [hl]; exact hnd.2
    · rw [hl]
      have hp : ((X ++ [next']).map (fun p => p.name)).Perm
          (next.name :: X.map (fun p => p.name)) := by
        rw [List.map_append, List.map_singleton, hn]
        exact List.perm_append_singleton _ _
      exact (hp.nodup_iff).mpr (List.nodup_cons.mpr hnd)
  · intro x hx
    have hold : x ∈ X → 0 < s'.remainingTime x.name ∧ x.remainingTime = s'.remainingTime x.name := by
      intro hxX
      rw [hremX _ (hXne x hxX)]
      exact h.positive x (hXmem x hxX)
    rcases hlive with ⟨_, hl⟩ | ⟨h0, next', hn, hrt, hl⟩
    · rw [hl] at hx
      exact hold hx
    · rw [hl] at hx
      rcases List.mem_append.mp hx with hx | hx
      · exact hold hx
      · rw [List.mem_singleton] at hx
        subst hx
        rw [hn, hremN]
        exact ⟨h0, hrt⟩
  · intro p hp
    have hc := h.conserved p hp
    rw [hg, rr_work_snoc_run]
    by_cases hpn : next.name = p.name
    · rw [if_pos hpn, ← hpn, hremN]
      rw [← hpn] at hc
      omega
    · rw [if_neg hpn, hremX _ (Ne.symm hpn)]
      exact hc
  · intro p hp
    by_cases hpn : p.name = next.name
    · rcases hlive with ⟨h0, _⟩ | ⟨_, next', hn, _, hl⟩
      · right
        rw [hpn, hremN]
        exact h0
      · left
        rw [hl, List.map_append, List.map_singleton, hn, hpn]
        exact List.mem_append.mpr (Or.inr (List.mem_singleton.mpr rfl))
    · rcases h.completed p hp with hc | hc
      · left
        have hc' : p.name ∈ (next :: X).map (fun p => p.name) := ((hperm.map _).mem_iff).mpr hc
        rw [List.map_cons, List.mem_cons] at hc'
        rcases hc' with hc' | hc'
        · exact absurd hc' hpn
        · rcases hlive with ⟨_, hl⟩ | ⟨_, next', _, _, hl⟩
          · rw [hl]; exact hc'
          · rw [hl, List.map_append]
            exact List.mem_append.mpr (Or.inl hc')
      · right
        rw [hremX _ hpn]
        exact hc

theorem rr_inv_step {processes : List Process} (q : Nat) (s : RR.State)
    (h : RR.Inv processes s) : RR.Inv processes (RR.simulationStep q s) := by
  rw [rr_step_eq]
  simp only [h.current, Option.isNone_none, Bool.true_and]
  cases hq : s.readyQueue with
  | nil =>
    simp only [List.length_nil, gt_iff_lt, lt_self_iff_false, decide_False, Bool.false_eq_true,
      if_false, beq_self_eq_true, Bool.true_and]
    split
    · split
      · exact rr_inv_admission h
      · split
        · exact rr_inv_idle _ h
        · exact rr_inv_admission h
    · exact rr_inv_admission h
  | cons next rest =>
    simp only [List.length_cons, gt_iff_lt, Nat.zero_lt_succ, decide_True, if_true]
    have hperm := rr_live_run_perm s next rest hq
    split
    · rename_i hdone
      refine rr_inv_after_run s _ next _ (min q (s.remainingTime next.name)) h hperm
        (Nat.min_le_right _ _) rfl rfl rfl (Or.inl ⟨by omega, rfl⟩)
    · rename_i hdone
      refine rr_inv_after_run s _ next _ (min q (s.remainingTime next.name)) h hperm
        (Nat.min_le_right _ _) rfl rfl rfl (Or.inr ⟨by omega,
          { next with
            remainingTime := s.remainingTime next.name - min q (s.remainingTime next.name) },
          rfl, rfl, ?_⟩)
      simp [RR.live, List.append_assoc]

theorem rr_foldl_setKey_other (l : List RR.QProcess) (m : String → Nat) (k : String)
    (hk : k ∉ l.map (fun p => p.name)) :
    (l.foldl (fun m p => RR.setKey m p.name p.burstTime) m) k = m k := by
  induction l generalizing m with
  | nil => rfl
  | cons a l ih =>
    simp only [List.map_cons, List.mem_cons, not_or] at hk
    rw [List.foldl_cons, ih _ hk.2]
    simp [RR.setKey, hk.1]

theorem rr_foldl_setKey_mem (l : List RR.QProcess) (m : String → Nat)
    (hnd : (l.map (fun p => p.name)).Nodup) :
    ∀ x ∈ l, (l.foldl (fun m p => RR.setKey m p.name p.burstTime) m) x.name = x.burstTime := by
  induction l generalizing m with
  | nil => intro x hx; simp at hx
  | cons a l ih =>
    simp only [List.map_cons, List.nodup_cons] at hnd
    intro x hx
    rw [List.foldl_cons]
    rcases List.mem_cons.mp hx with rfl | hx
    · rw [rr_foldl_setKey_other _ _ _ hnd.1]
      simp [RR.setKey]
    · exact ih _ hnd.2 x hx

theorem rr_inv_init (processes : List Process)
    (hnd : (processes.map (fun p => p.name)).Nodup)
    (hburst : ∀ p ∈ processes, 0 < p.burstTime) :
    RR.Inv processes (RR.startSimulation processes) := by
  have hnames : (processes.map RR.withRemaining).map (fun p => p.name)
      = processes.map (fun p => p.name) := by
    rw [List.map_map]
    rfl
  have hrem : ∀ p ∈ processes,
      (RR.startSimulation processes).remainingTime p.name = p.burstTime := by
    intro p hp
    exact rr_foldl_setKey_mem (processes.map RR.withRemaining) _ (by rw [hnames]; exact hnd)
      (RR.withRemaining p) (List.mem_map_of_mem _ hp)
  have hlive : RR.live (RR.startSimulation processes) = processes.map RR.withRemaining := by
    simp [RR.live, RR.startSimulation]
  refine ⟨rfl, ?_, ?_, ?_, ?_⟩
  · rw [hlive, hnames]; exact hnd
  · intro x hx
    rw [hlive] at hx
    obtain ⟨p, hp, rfl⟩ := List.mem_map.mp hx
    have := hrem p hp
    have hb := hburst p hp
    exact ⟨by rw [show (RR.withRemaining p).name = p.name from rfl, this]; exact hb,
      by rw [show (RR.withRemaining p).name = p.name from rfl, this]; rfl⟩
  · intro p hp
    rw [hrem p hp]
    simp [RR.startSimulation, RR.work]
  · intro p hp
    left
    rw [hlive, hnames]
    exact List.mem_map_of_mem _ hp

theorem rr_steps_inv {processes : List Process} (q n : Nat) (s : RR.State)
    (h : RR.Inv processes s) : RR.Inv processes (RR.steps q n s) := by
  induction n generalizing s with
  | zero => exact h
  | succ n ih => exact ih _ (rr_inv_step q s h)

theorem rr_finished_step (q : Nat) (s : RR.State) (h : RR.finished s = true) :
    RR.simulationStep q s = s := by
  simp only [RR.finished, Bool.and_eq_true, List.isEmpty_iff] at h
  obtain ⟨⟨hp, hr⟩, _⟩ := h
  rw [rr_step_eq]
  simp only [hr, hp, List.length_nil, gt_iff_lt, lt_self_iff_false, decide_False,
    Bool.and_false, Bool.false_eq_true, if_false]
  cases s with
  | mk pend rq comp cur g t rem =>
    simp only at hp hr
    subst hp hr
    rfl

theorem rr_finished_steps (q n : Nat) (s : RR.State) (h : RR.finished s = true) :
    RR.steps q n s = s := by
  induction n with
  | zero => rfl
  | succ n ih => rw [RR.steps, rr_finished_step q s h, ih]

theorem rr_measure_le (s : RR.State) (a b : Nat)
    (ha : ((RR.live s).map (fun p => p.remainingTime)).sum ≤ a)
    (hb : s.pendingProcesses.length ≤ b) : RR.measure s ≤ 2 * a + 2 * b + 1 := by
  unfold RR.measure
  split <;> omega

theorem rr_measure_step {processes : List Process} (q : Nat) (hq : 0 < q) (s : RR.State)
    (h : RR.Inv processes s) (hnf : RR.finished s = false) :
    RR.measure (RR.simulationStep q s) < RR.measure s := by
  have hsum := ((rr_live_admission_perm s).map (fun p => p.remainingTime)).sum_eq
  have hlen : (RR.afterAdmission s).pendingProcesses.length ≤ s.pendingProcesses.length :=
    List.length_filter_le _ _
  have hlow : 2 * ((RR.live s).map (fun p => p.remainingTime)).sum
      + 2 * s.pendingProcesses.length ≤ RR.measure s := by
    unfold RR.measure
    omega
  rw [rr_step_eq]
  simp only [h.current, Option.isNone_none, Bool.true_and]
  cases hqueue : s.readyQueue with
  | cons next rest =>
    simp only [List.length_cons, gt_iff_lt, Nat.zero_lt_succ, decide_True, if_true]
    have hperm := rr_live_run_perm s next rest hqueue
    have hsumX := (hperm.map (fun p => p.remainingTime)).sum_eq
    simp only [List.map_cons, List.sum_cons] at hsumX
    have hnext : next ∈ RR.live s := by
      unfold RR.live
      rw [hqueue]
      simp
    obtain ⟨hpos, hrt⟩ := h.positive next hnext
    split
    · refine lt_of_le_of_lt (rr_measure_le _
        (((RR.live s).map (fun p => p.remainingTime)).sum - 1) s.pendingProcesses.length ?_ hlen) ?_
      · simp only [RR.live] at hsumX ⊢
        omega
      · omega
    · rename_i hdone
      refine lt_of_le_of_lt (rr_measure_le _
        (((RR.live s).map (fun p => p.remainingTime)).sum - 1) s.pendingProcesses.length ?_ hlen) ?_
      · simp only [RR.live, List.map_append, List.sum_append, List.map_cons, List.map_nil,
          List.sum_cons, List.sum_nil] at hsumX ⊢
        have hmin : 1 ≤ min q (s.remainingTime next.name) := by
          rw [Nat.le_min]
          exact ⟨hq, hpos⟩
        omega
      · omega
  | nil =>
    simp only [List.length_nil, gt_iff_lt, lt_self_iff_false, decide_False, Bool.false_eq_true,
      if_false, beq_self_eq_true, Bool.true_and]
    cases hpend : s.pendingProcesses with
    | nil =>
      simp [RR.finished, hqueue, hpend, h.current] at hnf
    | cons p ps =>
      simp only [List.length_cons, gt_iff_lt, Nat.zero_lt_succ, decide_True, if_true]
      have hm := minList_mem p.arrivalTime (ps.map (fun x => x.arrivalTime))
      have hm' : minList p.arrivalTime (ps.map (fun x => x.arrivalTime))
          ∈ (p :: ps).map (fun x => x.arrivalTime) := by simpa using hm
      obtain ⟨x, hx, hxe⟩ := List.mem_map.mp hm'
      rw [← hpend] at hx
      split
      · rename_i hgt
        have hA : s.pendingProcesses.filter (fun p => p.arrivalTime ≤ s.currentTime) = [] := by
          rw [List.filter_eq_nil_iff]
          intro y hy
          have := minList_le p.arrivalTime (ps.map (fun x => x.arrivalTime)) y.arrivalTime (by
            have : y.arrivalTime ∈ (p :: ps).map (fun x => x.arrivalTime) := by
              rw [← hpend]
              exact List.mem_map_of_mem _ hy
            simpa using this)
          simp only [decide_eq_true_eq]
          omega
        have hB : s.pendingProcesses.filter (fun p => p.arrivalTime > s.currentTime)
            = s.pendingProcesses := by
          rw [List.filter_eq_self]
          intro y hy
          have := List.filter_eq_nil_iff.mp hA y hy
          simpa using this
        have hxm : x ∈ s.pendingProcesses.filter (fun y => y.arrivalTime
            ≤ minList p.arrivalTime (ps.map (fun x => x.arrivalTime))) :=
          List.mem_filter.mpr ⟨hx, by simp [hxe]⟩
        have hne : (s.pendingProcesses.filter (fun y => y.arrivalTime
            ≤ minList p.arrivalTime (ps.map (fun x => x.arrivalTime)))).isEmpty = false := by
          cases hl : s.pendingProcesses.filter (fun y => y.arrivalTime
            ≤ minList p.arrivalTime (ps.map (fun x => x.arrivalTime))) with
          | nil => rw [hl] at hxm; simp at hxm
          | cons a l => rfl
        unfold RR.measure RR.live RR.afterAdmission
        simp only [hA, hB, List.append_nil, hne, List.isEmpty_nil, if_true, Bool.false_eq_true,
          if_false, hqueue]
        omega
      · have hxA : x ∈ s.pendingProcesses.filter (fun p => p.arrivalTime ≤ s.currentTime) :=
          List.mem_filter.mpr ⟨hx, by simp only [decide_eq_true_eq]; omega⟩
        have hsplit := (rr_split_perm s.pendingProcesses s.currentTime).length_eq
        rw [List.length_append] at hsplit
        have hApos := List.length_pos_of_mem hxA
        refine lt_of_le_of_lt (rr_measure_le _
          (((RR.live s).map (fun p => p.remainingTime)).sum) (s.pendingProcesses.length - 1)
          (le_of_eq hsum) ?_) ?_
        · simp only [RR.afterAdmission]
          omega
        · have : 0 < s.pendingProcesses.length := by rw [hpend]; simp
          omega

theorem rr_terminates {processes : List Process} (q : Nat) (hq : 0 < q) (n : Nat)
    (s : RR.State) (h : RR.Inv processes s) (hn : RR.measure s ≤ n) :
    RR.finished (RR.steps q n s) = true := by
  induction n generalizing s with
  | zero =>
    cases hf : RR.finished s with
    | true => exact hf
    | false =>
      have := rr_measure_step q hq s h hf
      omega
  | succ n ih =>
    cases hf : RR.finished s with
    | true =>
      rw [rr_finished_steps q _ s hf]
      exact hf
    | false =>
      have := rr_measure_step q hq s h hf
      exact ih _ (rr_inv_step q s h) (by omega)

theorem rr_measure_init (processes : List Process) :
    RR.measure (RR.startSimulation processes)
      ≤ 2 * (processes.map (fun p => p.burstTime)).sum + 2 * processes.length + 1 := by
  apply rr_measure_le
  · apply le_of_eq
    simp only [RR.live, RR.startSimulation, List.append_nil, List.map_map]
    rfl
  · simp [RR.startSimulation]

/-! ## The worked examples -/

/-- C5: FCFS on `P1(0,5), P2(1,3), P3(2,8)` finishes after three steps with the
Gantt chart `[P1:0-5, P2:5-8, P3:8-16]`, and further steps leave it unchanged. -/
theorem fcfs_example_chart :
    FCFS.finished (FCFS.steps 3 (FCFS.startSimulation fcfsExample)) = true ∧
    (FCFS.chart 3 fcfsExample).map TimedProcess.span
      = [("P1", 0, 5), ("P2", 5, 8), ("P3", 8, 16)] ∧
    FCFS.chart 4 fcfsExample = FCFS.chart 3 fcfsExample := by
  decide

/-- C6: SJF on `P1(0,7), P2(2,4)` finishes after two ticks with the Gantt chart
`[P1:0-7, P2:7-11]`: `P1` is dispatched at 0 and runs to 7 in one row although
the shorter `P2` arrives at 2. -/
theorem sjf_example_chart :
    SJF.finished (SJF.steps 2 (SJF.startSimulation sjfExample)) = true ∧
    (SJF.chart 2 sjfExample).map TimedProcess.span = [("P1", 0, 7), ("P2", 7, 11)] ∧
    SJF.chart 3 sjfExample = SJF.chart 2 sjfExample := by
  decide

/-- C7: Priority on `P1(0, priority 2, burst 5), P2(1, priority 1, burst 3)`
finishes after nine steps with the Gantt chart `[P1:0-1, P2:1-4, P1:4-8]`; the
first row is closed by preemption with 4 units left and the third row resumes
`P1` with 4 units remaining. -/
theorem priority_example_chart :
    Priority.finished (Priority.steps 9 (Priority.startSimulation priorityExample)) = true ∧
    (Priority.chart 9 priorityExample).map Priority.Entry.span
      = [("P1", 0, some 1), ("P2", 1, some 4), ("P1", 4, some 8)] ∧
    (Priority.chart 9 priorityExample).map (fun e => (e.completed, e.remainingBefore, e.remainingAfter))
      = [(false, 5, some 4), (true, 3, some 0), (true, 4, some 0)] ∧
    Priority.chart 10 priorityExample = Priority.chart 9 priorityExample := by
  decide

/-- C3 (counterexample): on a single process that arrives at 3 and runs for 2
units, FCFS, SJF and Priority each finish with the one-row chart `[P1:3-5]`:
the chart does not begin at 0 and the idle period `[0, 3)` is no row of it. -/
theorem idle_period_not_in_chart :
    FCFS.finished (FCFS.steps 1 (FCFS.startSimulation lateArrival)) = true ∧
    (FCFS.chart 1 lateArrival).map TimedProcess.span = [("P1", 3, 5)] ∧
    ¬ Covers 0 ((FCFS.chart 1 lateArrival).map TimedProcess.interval) 5 ∧
    SJF.finished (SJF.steps 2 (SJF.startSimulation lateArrival)) = true ∧
    (SJF.chart 2 lateArrival).map TimedProcess.span = [("P1", 3, 5)] ∧
    ¬ Covers 0 ((SJF.chart 2 lateArrival).map TimedProcess.interval) 5 ∧
    Priority.finished (Priority.steps 4 (Priority.startSimulation lateArrival)) = true ∧
    (Priority.chart 4 lateArrival).map Priority.Entry.span = [("P1", 3, some 5)] := by
  refine ⟨by decide, by decide, ?_, by decide, by decide, ?_, by decide, by decide⟩
  · have h : (FCFS.chart 1 lateArrival).map TimedProcess.interval = [(3, 5)] := by decide
    rw [h]
    simp [Covers]
  · have h : (SJF.chart 2 lateArrival).map TimedProcess.interval = [(3, 5)] := by decide
    rw [h]
    simp [Covers]

/-! ## Round Robin: the idle step -/

/-- C17 (amended): in a state with an empty ready queue and pending processes
`p :: ps`, let `a` be the minimum pending arrival time.  The step sets the
clock to `max t a` (it never moves it back), appends the one Idle row `[t, a)`
exactly when `a > t`, and appends nothing when `a ≤ t`. -/
theorem rr_idle_step (timeQuantum : Nat) (s : RR.State) (p : RR.QProcess)
    (ps : List RR.QProcess) (hready : s.readyQueue = [])
    (hpending : s.pendingProcesses = p :: ps) :
    (∀ x ∈ s.pendingProcesses,
      minList p.arrivalTime (ps.map (fun x => x.arrivalTime)) ≤ x.arrivalTime) ∧
    (∃ x ∈ s.pendingProcesses,
      x.arrivalTime = minList p.arrivalTime (ps.map (fun x => x.arrivalTime))) ∧
    (RR.simulationStep timeQuantum s).currentTime
      = max s.currentTime (minList p.arrivalTime (ps.map (fun x => x.arrivalTime))) ∧
    (RR.simulationStep timeQuantum s).ganttChart
      = (if s.currentTime < minList p.arrivalTime (ps.map (fun x => x.arrivalTime)) then
          s.ganttChart ++
            [RR.idleEntry s.currentTime (minList p.arrivalTime (ps.map (fun x => x.arrivalTime)))]
        else s.ganttChart) := by
  refine ⟨?_, ?_, ?_, ?_⟩
  · intro x hx
    apply minList_le
    rw [hpending] at hx
    have : x.arrivalTime ∈ (p :: ps).map (fun x => x.arrivalTime) := List.mem_map_of_mem _ hx
    simpa using this
  · have hm := minList_mem p.arrivalTime (ps.map (fun x => x.arrivalTime))
    have hm' : minList p.arrivalTime (ps.map (fun x => x.arrivalTime))
        ∈ (p :: ps).map (fun x => x.arrivalTime) := by simpa using hm
    obtain ⟨x, hx, hxe⟩ := List.mem_map.mp hm'
    exact ⟨x, by rw [hpending]; exact hx, hxe⟩
  · rw [rr_step_eq]
    simp only [hready, hpending, List.length_nil, List.length_cons, gt_iff_lt,
      lt_self_iff_false, decide_False, Bool.and_false, Bool.false_eq_true, if_false,
      beq_self_eq_true, Nat.zero_lt_succ, decide_True, Bool.and_self, if_true]
    split
    · rename_i h
      simp only
      omega
    · rename_i h
      simp only [RR.afterAdmission]
      omega
  · rw [rr_step_eq]
    simp only [hready, hpending, List.length_nil, List.length_cons, gt_iff_lt,
      lt_self_iff_false, decide_False, Bool.and_false, Bool.false_eq_true, if_false,
      beq_self_eq_true, Nat.zero_lt_succ, decide_True, Bool.and_self, if_true]
    split <;> rfl

/-- Witness for `rr_idle_step`: quantum 2, clock 0 and one pending process that
arrives at 3. -/
theorem rr_idle_step_witness :
    (RR.simulationStep 2
      { pendingProcesses := [{ name := "P1", arrivalTime := 3, burstTime := 2, priority := 0,
                               remainingTime := 2 }],
        readyQueue := [], completedProcesses := [], currentProcess := none, ganttChart := [],
        currentTime := 0, remainingTime := fun _ => 2 }).currentTime = max 0 (minList 3 []) :=
  (rr_idle_step 2
      { pendingProcesses := [{ name := "P1", arrivalTime := 3, burstTime := 2, priority := 0,
                               remainingTime := 2 }],
        readyQueue := [], completedProcesses := [], currentProcess := none, ganttChart := [],
        currentTime := 0, remainingTime := fun _ => 2 }
      { name := "P1", arrivalTime := 3, burstTime := 2, priority := 0, remainingTime := 2 }
      [] rfl rfl).2.2.1

/-! ## The first-minimum scan -/

theorem firstMinBy_split {α : Type} (k : α → Nat) (first : α) (rest : List α) :
    ∃ l1 l2, first :: rest = l1 ++ firstMinBy k first rest :: l2 ∧
      (∀ p ∈ l1, k (firstMinBy k first rest) < k p) ∧
      (∀ p ∈ l2, k (firstMinBy k first rest) ≤ k p) := by
  induction rest using List.reverseRecOn with
  | nil => exact ⟨[], [], rfl, by simp, by simp⟩
  | append_singleton r x ih =>
    obtain ⟨l1, l2, heq, h1, h2⟩ := ih
    have hfold : firstMinBy k first (r ++ [x])
        = if k x < k (firstMinBy k first r) then x else firstMinBy k first r := by
      simp [firstMinBy, List.foldl_append]
    by_cases hx : k x < k (firstMinBy k first r)
    · rw [hfold, if_pos hx]
      refine ⟨first :: r, [], by simp, ?_, by simp⟩
      intro p hp
      rw [heq] at hp
      rcases List.mem_append.mp hp with hp | hp
      · have := h1 p hp
        omega
      · rcases List.mem_cons.mp hp with rfl | hp
        · exact hx
        · have := h2 p hp
          omega
    · rw [hfold, if_neg hx]
      refine ⟨l1, l2 ++ [x], ?_, h1, ?_⟩
      · rw [← List.cons_append, heq]
        simp
      · intro p hp
        rcases List.mem_append.mp hp with hp | hp
        · exact h2 p hp
        · rw [List.mem_singleton] at hp
          subst hp
          omega

theorem firstMinBy_mem {α : Type} (k : α → Nat) (first : α) (rest : List α) :
    firstMinBy k first rest ∈ first :: rest := by
  obtain ⟨l1, l2, heq, _, _⟩ := firstMinBy_split k first rest
  rw [heq]
  simp

theorem firstMinBy_le {α : Type} (k : α → Nat) (first : α) (rest : List α) :
    ∀ p ∈ first :: rest, k (firstMinBy k first rest) ≤ k p := by
  obtain ⟨l1, l2, heq, h1, h2⟩ := firstMinBy_split k first rest
  intro p hp
  rw [heq] at hp
  rcases List.mem_append.mp hp with hp | hp
  · exact Nat.le_of_lt (h1 p hp)
  · rcases List.mem_cons.mp hp with rfl | hp
    · exact le_refl _
    · exact h2 p hp

theorem pair_sublist_split {α : Type} {a m : α} {l1 l2 : List α}
    (hnd : (l1 ++ m :: l2).Nodup) (hne : a ≠ m) (h : [a, m].Sublist (l1 ++ m :: l2)) :
    a ∈ l1 := by
  induction l1 with
  | nil =>
    simp only [List.nil_append] at h hnd
    have hm : m ∉ l2 := (List.nodup_cons.mp hnd).1
    cases h with
    | cons _ h' => exact absurd (h'.subset (by simp)) hm
    | cons₂ _ h' => exact absurd rfl hne
  | cons x l1 ih =>
    simp only [List.cons_append] at h hnd
    cases h with
    | cons _ h' => exact List.mem_cons_of_mem _ (ih (List.nodup_cons.mp hnd).2 h')
    | cons₂ _ h' => exact List.mem_cons_self _ _

theorem notAmong_snoc (names : List String) (m n : String) :
    notAmong (names ++ [m]) n = (n != m && notAmong names n) := by
  simp only [notAmong, List.contains_eq_any_beq, List.any_append, List.any_cons, List.any_nil,
    Bool.or_false, Bool.not_or]
  rw [Bool.and_comm]
  rfl

theorem notAmong_iff (names : List String) (n : String) :
    notAmong names n = true ↔ n ∉ names := by
  simp [notAmong]

theorem toProcess_withTiming (p : Process) (a b : Nat) :
    (withTiming p a b).toProcess = p := by
  cases p
  rfl

/-! ## FCFS: order of the chart -/

theorem name_injective {α : Type} (f : α → String) {l : List α}
    (hnd : (l.map f).Nodup) {a b : α} (ha : a ∈ l) (hb : b ∈ l) (h : f a = f b) : a = b :=
  List.inj_on_of_nodup_map hnd ha hb h

theorem fcfs_inv_init (processes : List Process) :
    FCFS.Inv processes (FCFS.startSimulation processes) := by
  refine ⟨?_, ?_, ?_, rfl, ?_, ?_, ?_, ?_⟩
  · simp [FCFS.startSimulation, notAmong]
  · intro c hc; simp [FCFS.startSimulation] at hc
  · simp [FCFS.startSimulation]
  · intro e he; simp [FCFS.startSimulation] at he
  · simp [FCFS.startSimulation]
  · intro c hc; simp [FCFS.startSimulation] at hc
  · intro a b _ _ hb; simp [FCFS.startSimulation] at hb

theorem fcfs_inv_step {processes : List Process}
    (hnd : (processes.map (fun p => p.name)).Nodup) (s : FCFS.State)
    (h : FCFS.Inv processes s) : FCFS.Inv processes (FCFS.simulationStep s) := by
  unfold FCFS.simulationStep
  cases hpend : s.pendingProcesses with
  | nil => simpa [hpend] using h
  | cons first rest =>
    simp only
    have hm : FCFS.findMin first rest = firstMinBy (fun p => p.arrivalTime) first rest := rfl
    obtain ⟨l1, l2, hsplit, hbefore, hafter⟩ :=
      firstMinBy_split (fun p : Process => p.arrivalTime) first rest
    rw [← hm] at hsplit hbefore hafter
    have hmem : FCFS.findMin first rest ∈ s.pendingProcesses := by
      rw [hpend, hsplit]; simp
    have hle : ∀ p ∈ s.pendingProcesses,
        (FCFS.findMin first rest).arrivalTime ≤ p.arrivalTime := by
      intro p hp
      rw [hpend] at hp
      rw [hm]
      exact firstMinBy_le (fun p : Process => p.arrivalTime) first rest p hp
    have hpf := h.pending
    have hmp : FCFS.findMin first rest ∈ processes ∧
        (FCFS.findMin first rest).name ∉ s.completedProcesses.map (fun c => c.name) := by
      rw [hpf] at hmem
      have := List.mem_filter.mp hmem
      exact ⟨this.1, (notAmong_iff _ _).mp this.2⟩
    have hsub : ∀ p ∈ s.pendingProcesses.filter
        (fun p => p.name != (FCFS.findMin first rest).name), p ∈ s.pendingProcesses :=
      fun p hp => (List.mem_filter.mp hp).1
    rw [← hpend]
    refine ⟨?_, ?_, ?_, ?_, ?_, ?_, ?_, ?_⟩
    · simp only [List.map_append, List.map_cons, List.map_nil]
      rw [hpf, List.filter_filter]
      apply List.filter_congr
      intro x _
      rw [notAmong_snoc]
    · intro c hc
      rcases List.mem_append.mp hc with hc | hc
      · exact h.members c hc
      · rw [List.mem_singleton] at hc
        rw [hc]; exact hmp.1
    · simp only [List.map_append, List.map_cons, List.map_nil]
      rw [List.nodup_append]
      refine ⟨h.nodup, List.nodup_singleton _, ?_⟩
      intro x hx1 hx2
      rw [List.mem_singleton] at hx2
      rw [hx2] at hx1
      exact hmp.2 hx1
    · simp only [List.map_append, List.map_cons, List.map_nil, toProcess_withTiming, h.chart]
    · intro e he
      rcases List.mem_append.mp he with he | he
      · exact h.rows e he
      · rw [List.mem_singleton] at he
        subst he
        exact ⟨rfl, le_max_right _ _⟩
    · refine List.pairwise_append.mpr ⟨h.sorted, List.pairwise_singleton _ _, ?_⟩
      intro c hc y hy
      rw [List.mem_singleton] at hy
      subst hy
      exact h.low c hc _ hmem
    · intro c hc p hp
      have hp' := hsub p hp
      rcases List.mem_append.mp hc with hc | hc
      · exact h.low c hc p hp'
      · rw [List.mem_singleton] at hc
        rw [hc]; exact hle p hp'
    · intro a b hab hsl hb
      rcases List.mem_append.mp hb with hb | hb
      · exact (h.stable a b hab hsl hb).trans (List.sublist_append_left _ _)
      · rw [List.mem_singleton] at hb
        subst hb
        have hane : a ≠ FCFS.findMin first rest := by
          intro heq
          rw [heq] at hsl
          have hpn : processes.Nodup := List.Nodup.of_map _ hnd
          have := hpn.sublist hsl
          simp at this
        have ha_proc : a ∈ processes := hsl.subset (by simp)
        by_cases hac : a ∈ s.completedProcesses
        · have h1 : [a].Sublist s.completedProcesses := List.singleton_sublist.mpr hac
          exact List.Sublist.append h1 (List.Sublist.refl _)
        · exfalso
          have hanot : notAmong (s.completedProcesses.map (fun c => c.name)) a.name = true := by
            rw [notAmong_iff]
            intro hin
            obtain ⟨c, hc, hcn⟩ := List.mem_map.mp hin
            have := name_injective (fun p : Process => p.name) hnd (h.members c hc) ha_proc hcn
            exact hac (this ▸ hc)
          have hmnot : notAmong (s.completedProcesses.map (fun c => c.name))
              (FCFS.findMin first rest).name = true := (notAmong_iff _ _).mpr hmp.2
          have hsl' := hsl.filter
            (fun p => notAmong (s.completedProcesses.map (fun c => c.name)) p.name)
          rw [← hpf] at hsl'
          simp only [List.filter_cons, hanot, hmnot, if_true, List.filter_nil] at hsl'
          rw [hpend, hsplit] at hsl'
          have hpnd : (l1 ++ FCFS.findMin first rest :: l2).Nodup := by
            rw [← hsplit, ← hpend, hpf]
            exact (List.Nodup.of_map _ hnd).sublist (List.filter_sublist _)
          have hal1 := pair_sublist_split hpnd hane hsl'
          have := hbefore a hal1
          omega

theorem fcfs_steps_inv {processes : List Process}
    (hnd : (processes.map (fun p => p.name)).Nodup) (n : Nat) (s : FCFS.State)
    (h : FCFS.Inv processes s) : FCFS.Inv processes (FCFS.steps n s) := by
  induction n generalizing s with
  | zero => exact h
  | succ n ih => exact ih _ (fcfs_inv_step hnd s h)

theorem fcfs_step_pending (s : FCFS.State) :
    (FCFS.simulationStep s).pendingProcesses.length ≤ s.pendingProcesses.length - 1 := by
  unfold FCFS.simulationStep
  cases hpend : s.pendingProcesses with
  | nil => simp [hpend]
  | cons first rest =>
    simp only
    have hmem : FCFS.findMin first rest ∈ first :: rest :=
      firstMinBy_mem (fun p : Process => p.arrivalTime) first rest
    have hlt := List.length_filter_lt_length_iff_exists.mpr
      (⟨FCFS.findMin first rest, hmem, by simp⟩ :
        ∃ x ∈ first :: rest, ¬ (x.name != (FCFS.findMin first rest).name) = true)
    omega

theorem fcfs_steps_pending (n : Nat) (s : FCFS.State) :
    (FCFS.steps n s).pendingProcesses.length ≤ s.pendingProcesses.length - n := by
  induction n generalizing s with
  | zero => exact le_refl _
  | succ n ih =>
    have h1 := ih (FCFS.simulationStep s)
    have h2 := fcfs_step_pending s
    simp only [FCFS.steps]
    omega

theorem fcfs_finished_perm {processes : List Process}
    (hnd : (processes.map (fun p => p.name)).Nodup) (s : FCFS.State)
    (h : FCFS.Inv processes s) (hp : s.pendingProcesses = []) :
    s.completedProcesses.Perm processes := by
  rw [List.perm_ext_iff_of_nodup (List.Nodup.of_map _ h.nodup) (List.Nodup.of_map _ hnd)]
  intro a
  constructor
  · exact h.members a
  · intro ha
    have hf := h.pending
    rw [hp] at hf
    have hna := List.filter_eq_nil_iff.mp hf.symm a ha
    have hin : a.name ∈ s.completedProcesses.map (fun c => c.name) := by
      by_contra hcon
      exact hna ((notAmong_iff _ _).mpr hcon)
    obtain ⟨c, hc, hcn⟩ := List.mem_map.mp hin
    have := name_injective (fun p : Process => p.name) hnd (h.members c hc) ha hcn
    exact this ▸ hc

/-- C14: FCFS order.  For every input with unique names, after as many steps as
there are processes the simulation is finished and the Gantt chart, read as
processes, is a permutation of the input in non-decreasing arrival time, two
processes of equal arrival time standing in the order of the input list. -/
theorem fcfs_chart_order (processes : List Process)
    (hnames : (processes.map (fun p => p.name)).Nodup) (n : Nat)
    (hn : processes.length ≤ n) :
    FCFS.finished (FCFS.steps n (FCFS.startSimulation processes)) = true ∧
    ((FCFS.chart n processes).map TimedProcess.toProcess).Perm processes ∧
    ((FCFS.chart n processes).map TimedProcess.toProcess).Pairwise
      (fun a b => a.arrivalTime ≤ b.arrivalTime) ∧
    ∀ a b : Process, a.arrivalTime = b.arrivalTime → [a, b].Sublist processes →
      [a, b].Sublist ((FCFS.chart n processes).map TimedProcess.toProcess) := by
  have hinv := fcfs_steps_inv hnames n _ (fcfs_inv_init processes)
  have hlen := fcfs_steps_pending n (FCFS.startSimulation processes)
  have hp : (FCFS.steps n (FCFS.startSimulation processes)).pendingProcesses = [] := by
    apply List.eq_nil_of_length_eq_zero
    simp only [FCFS.startSimulation] at hlen ⊢
    omega
  have hperm := fcfs_finished_perm hnames _ hinv hp
  unfold FCFS.chart
  rw [hinv.chart]
  refine ⟨by simp [FCFS.finished, hp], hperm, hinv.sorted, ?_⟩
  intro a b hab hsl
  exact hinv.stable a b hab hsl (hperm.mem_iff.mpr (hsl.subset (by simp)))

/-- Witness for `fcfs_chart_order`: the FCFS example and three steps. -/
theorem fcfs_chart_order_witness :
    (fcfsExample.map (fun p => p.name)).Nodup ∧ fcfsExample.length ≤ 3 ∧
    ((FCFS.chart 3 fcfsExample).map TimedProcess.toProcess).Perm fcfsExample :=
  ⟨by decide, by decide, (fcfs_chart_order fcfsExample (by decide) 3 (by decide)).2.1⟩

/-! ## SJF: the arrived queue and the dispatch rule -/

theorem sjf_arrivalEffect_eq (s : SJF.State) (ha : s.animatingTimeJump = false) :
    SJF.arrivalEffect s = SJF.afterArrival s := by
  unfold SJF.arrivalEffect
  have hnot : ¬ (s.animatingTimeJump = true) := by simp [ha]
  rw [if_neg hnot]
  simp only
  split
  · rfl
  · rename_i hna
    have hnil : s.pendingProcesses.filter (fun p => p.arrivalTime ≤ s.currentTime) = [] := by
      cases h : s.pendingProcesses.filter (fun p => p.arrivalTime ≤ s.currentTime) with
      | nil => rfl
      | cons a l => rw [h] at hna; simp at hna
    have hall : s.pendingProcesses.filter (fun p => p.arrivalTime > s.currentTime)
        = s.pendingProcesses := by
      rw [List.filter_eq_self]
      intro a ha
      have := List.filter_eq_nil_iff.mp hnil a ha
      simpa using this
    unfold SJF.afterArrival
    rw [hnil, hall, List.append_nil]

theorem sorted_split (l : List Process) (t : Nat)
    (hs : l.Pairwise (fun a b => a.arrivalTime ≤ b.arrivalTime)) :
    l.filter (fun p => p.arrivalTime ≤ t) ++ l.filter (fun p => p.arrivalTime > t) = l := by
  induction l with
  | nil => rfl
  | cons x l ih =>
    obtain ⟨hx, hl⟩ := List.pairwise_cons.mp hs
    by_cases hxt : x.arrivalTime ≤ t
    · have h2 : ¬ x.arrivalTime > t := by omega
      simp only [List.filter_cons, hxt, decide_True, if_true, h2, decide_False,
        Bool.false_eq_true, if_false, List.cons_append]
      rw [ih hl]
    · have h2 : x.arrivalTime > t := by omega
      have hnil : l.filter (fun p => p.arrivalTime ≤ t) = [] := by
        rw [List.filter_eq_nil_iff]
        intro a ha
        have := hx a ha
        simp only [decide_eq_true_eq]
        omega
      have hall : l.filter (fun p => p.arrivalTime > t) = l := by
        rw [List.filter_eq_self]
        intro a ha
        have := hx a ha
        simp only [gt_iff_lt, decide_eq_true_eq]
        omega
      simp only [List.filter_cons, hxt, decide_False, Bool.false_eq_true, if_false, h2,
        decide_True, if_true, hnil, hall, List.nil_append]

theorem sjf_sorted_pairwise (processes : List Process) :
    (SJF.sortedByArrival processes).Pairwise (fun a b => a.arrivalTime ≤ b.arrivalTime) := by
  have h := List.sorted_insertionSort SJF.arrivesNoLater processes
  exact h

theorem sjf_sorted_perm (processes : List Process) :
    (SJF.sortedByArrival processes).Perm processes :=
  List.perm_insertionSort SJF.arrivesNoLater processes

theorem sjf_inv_init (processes : List Process) :
    SJF.Inv processes (SJF.startSimulation processes) := by
  refine ⟨rfl, rfl, ?_, ?_, ?_, ?_, rfl, ?_⟩
  · simp [SJF.startSimulation, notAmong]
  · intro x hx; simp [SJF.startSimulation] at hx
  · intro c hc; simp [SJF.startSimulation] at hc
  · simp [SJF.startSimulation]
  · intro e he; simp [SJF.startSimulation] at he

theorem sjf_inv_arrival {processes : List Process} (s : SJF.State)
    (h : SJF.Inv processes s) :
    SJF.Inv processes (SJF.afterArrival s) ∧
    ∀ p ∈ (SJF.afterArrival s).pendingProcesses, s.currentTime < p.arrivalTime := by
  have hsorted : s.pendingProcesses.Pairwise (fun a b => a.arrivalTime ≤ b.arrivalTime) := by
    have h1 : (s.arrivedQueue ++ s.pendingProcesses).Pairwise
        (fun a b => a.arrivalTime ≤ b.arrivalTime) := by
      rw [h.queue]
      exact (sjf_sorted_pairwise processes).sublist (List.filter_sublist _)
    exact (List.pairwise_append.mp h1).2.1
  refine ⟨⟨h.animating, h.current, ?_, ?_, h.members, h.nodup, h.chart, h.rows⟩, ?_⟩
  · simp only [SJF.afterArrival]
    rw [List.append_assoc, sorted_split _ _ hsorted]
    exact h.queue
  · intro x hx
    simp only [SJF.afterArrival] at hx ⊢
    rcases List.mem_append.mp hx with hx | hx
    · exact h.arrived x hx
    · simpa using (List.mem_filter.mp hx).2
  · intro p hp
    simp only [SJF.afterArrival] at hp
    simpa using (List.mem_filter.mp hp).2

theorem sjf_tick_dispatch (s : SJF.State) (ha : s.animatingTimeJump = false)
    (hc : s.currentProcess = none) (first : Process) (rest : List Process)
    (hq : (SJF.afterArrival s).arrivedQueue = first :: rest) :
    SJF.tick s = SJF.timeJump (s.currentTime + (SJF.findShortestJob first rest).burstTime)
      { SJF.afterArrival s with
        ganttChart := s.ganttChart ++ [withTiming (SJF.findShortestJob first rest) s.currentTime
          (s.currentTime + (SJF.findShortestJob first rest).burstTime)],
        completedProcesses := s.completedProcesses ++ [SJF.findShortestJob first rest],
        arrivedQueue := (SJF.afterArrival s).arrivedQueue.filter
          (fun p => p.name != (SJF.findShortestJob first rest).name),
        currentProcess := none } := by
  have ha1 : (SJF.afterArrival s).animatingTimeJump = false := ha
  have hc1 : (SJF.afterArrival s).currentProcess = none := hc
  unfold SJF.tick
  rw [sjf_arrivalEffect_eq s ha]
  unfold SJF.simulationStep
  simp only [ha1, hc1, hq, Bool.false_eq_true, if_false, Option.isNone_none, List.length_cons,
    gt_iff_lt, Nat.zero_lt_succ, decide_True, Bool.and_self, if_true]
  rfl

theorem sjf_tick_jump (s : SJF.State) (ha : s.animatingTimeJump = false)
    (hq : (SJF.afterArrival s).arrivedQueue = []) (p : Process) (ps : List Process)
    (hp : (SJF.afterArrival s).pendingProcesses = p :: ps) :
    SJF.tick s = SJF.timeJump (minList p.arrivalTime (ps.map (fun x => x.arrivalTime)))
      (SJF.afterArrival s) := by
  have ha1 : (SJF.afterArrival s).animatingTimeJump = false := ha
  unfold SJF.tick
  rw [sjf_arrivalEffect_eq s ha]
  unfold SJF.simulationStep
  simp only [ha1, hq, hp, Bool.false_eq_true, if_false, List.length_nil, List.length_cons,
    gt_iff_lt, lt_self_iff_false, decide_False, Bool.and_false, Nat.zero_lt_succ, decide_True,
    beq_self_eq_true, Bool.and_self, if_true]

theorem sjf_tick_done (s : SJF.State) (ha : s.animatingTimeJump = false)
    (hq : (SJF.afterArrival s).arrivedQueue = [])
    (hp : (SJF.afterArrival s).pendingProcesses = []) :
    SJF.tick s = SJF.afterArrival s := by
  have ha1 : (SJF.afterArrival s).animatingTimeJump = false := ha
  unfold SJF.tick
  rw [sjf_arrivalEffect_eq s ha]
  unfold SJF.simulationStep
  simp only [ha1, hq, hp, Bool.false_eq_true, if_false, List.length_nil, gt_iff_lt,
    lt_self_iff_false, decide_False, Bool.and_false, Bool.false_and, ite_self]

theorem sjf_timeJump_pos (target : Nat) (s : SJF.State) (h : 0 < target) :
    SJF.timeJump target s = { s with currentTime := target, animatingTimeJump := false } := by
  unfold SJF.timeJump
  rw [if_neg (by omega)]

theorem sjf_min_arrival (p : Process) (ps : List Process) :
    ∃ x ∈ p :: ps, x.arrivalTime = minList p.arrivalTime (ps.map (fun x => x.arrivalTime)) := by
  have hm := minList_mem p.arrivalTime (ps.map (fun x => x.arrivalTime))
  have hm' : minList p.arrivalTime (ps.map (fun x => x.arrivalTime))
      ∈ (p :: ps).map (fun x => x.arrivalTime) := by simpa using hm
  obtain ⟨x, hx, hxe⟩ := List.mem_map.mp hm'
  exact ⟨x, hx, hxe⟩

theorem sjf_inv_tick {processes : List Process}
    (hnd : (processes.map (fun p => p.name)).Nodup)
    (hburst : ∀ p ∈ processes, 0 < p.burstTime) (s : SJF.State)
    (h : SJF.Inv processes s) : SJF.Inv processes (SJF.tick s) := by
  obtain ⟨h1, hlater⟩ := sjf_inv_arrival s h
  cases hq : (SJF.afterArrival s).arrivedQueue with
  | nil =>
    cases hp : (SJF.afterArrival s).pendingProcesses with
    | nil =>
      rw [sjf_tick_done s h.animating hq hp]
      exact h1
    | cons p ps =>
      rw [sjf_tick_jump s h.animating hq p ps hp]
      obtain ⟨x, hx, hxe⟩ := sjf_min_arrival p ps
      rw [← hp] at hx
      have hpos : 0 < minList p.arrivalTime (ps.map (fun x => x.arrivalTime)) := by
        have := hlater x hx
        omega
      rw [sjf_timeJump_pos _ _ hpos]
      refine ⟨rfl, h1.current, h1.queue, ?_, h1.members, h1.nodup, h1.chart, h1.rows⟩
      intro y hy
      simp only [hq] at hy
      simp at hy
  | cons first rest =>
    rw [sjf_tick_dispatch s h.animating h.current first rest hq]
    have hm : SJF.findShortestJob first rest
        = firstMinBy (fun p => p.burstTime) first rest := rfl
    have hmem : SJF.findShortestJob first rest ∈ (SJF.afterArrival s).arrivedQueue := by
      rw [hq, hm]
      exact firstMinBy_mem _ _ _
    have hmemF : SJF.findShortestJob first rest ∈ (SJF.sortedByArrival processes).filter
        (fun p => notAmong (s.completedProcesses.map (fun c => c.name)) p.name) := by
      have hqq := h1.queue
      simp only [SJF.afterArrival] at hqq hmem
      rw [← hqq]
      exact List.mem_append.mpr (Or.inl hmem)
    have hmproc : SJF.findShortestJob first rest ∈ processes :=
      (sjf_sorted_perm processes).mem_iff.mp (List.mem_filter.mp hmemF).1
    have hmnot : (SJF.findShortestJob first rest).name
        ∉ s.completedProcesses.map (fun c => c.name) :=
      (notAmong_iff _ _).mp (List.mem_filter.mp hmemF).2
    have hpos : 0 < s.currentTime + (SJF.findShortestJob first rest).burstTime := by
      have := hburst _ hmproc
      omega
    rw [sjf_timeJump_pos _ _ hpos]
    have hFnd : ((SJF.afterArrival s).arrivedQueue ++ (SJF.afterArrival s).pendingProcesses).Nodup := by
      rw [h1.queue]
      refine List.Nodup.sublist (List.filter_sublist _) ?_
      exact (sjf_sorted_perm processes).nodup_iff.mpr (List.Nodup.of_map _ hnd)
    have hFmem : ∀ x ∈ (SJF.afterArrival s).arrivedQueue ++ (SJF.afterArrival s).pendingProcesses,
        x ∈ processes := by
      intro x hx
      rw [h1.queue] at hx
      exact (sjf_sorted_perm processes).mem_iff.mp (List.mem_filter.mp hx).1
    refine ⟨rfl, rfl, ?_, ?_, ?_, ?_, ?_, ?_⟩
    · simp only [List.map_append, List.map_cons, List.map_nil]
      have hpendkeep : (SJF.afterArrival s).pendingProcesses.filter
          (fun p => p.name != (SJF.findShortestJob first rest).name)
          = (SJF.afterArrival s).pendingProcesses := by
        rw [List.filter_eq_self]
        intro x hx
        simp only [bne_iff_ne, ne_eq]
        intro hname
        have hxe : x = SJF.findShortestJob first rest :=
          name_injective (fun p : Process => p.name) hnd
            (hFmem x (List.mem_append.mpr (Or.inr hx)))
            hmproc hname
        rw [hxe] at hx
        exact (List.nodup_append.mp hFnd).2.2 hmem hx
      have hqq := h1.queue
      calc (SJF.afterArrival s).arrivedQueue.filter
              (fun p => p.name != (SJF.findShortestJob first rest).name)
            ++ (SJF.afterArrival s).pendingProcesses
          = ((SJF.afterArrival s).arrivedQueue ++ (SJF.afterArrival s).pendingProcesses).filter
              (fun p => p.name != (SJF.findShortestJob first rest).name) := by
            rw [List.filter_append, hpendkeep]
        _ = _ := by
            rw [hqq, List.filter_filter]
            apply List.filter_congr
            intro x _
            rw [notAmong_snoc]
            rfl
    · intro x hx
      have := h1.arrived x (List.mem_filter.mp hx).1
      simp only [SJF.afterArrival] at this ⊢
      omega
    · intro c hc
      rcases List.mem_append.mp hc with hc | hc
      · exact h.members c hc
      · rw [List.mem_singleton] at hc
        rw [hc]; exact hmproc
    · simp only [List.map_append, List.map_cons, List.map_nil]
      rw [List.nodup_append]
      refine ⟨h.nodup, List.nodup_singleton _, ?_⟩
      intro x hx1 hx2
      rw [List.mem_singleton] at hx2
      rw [hx2] at hx1
      exact hmnot hx1
    · simp only [List.map_append, List.map_cons, List.map_nil, toProcess_withTiming, h.chart]
    · intro e he
      rcases List.mem_append.mp he with he | he
      · exact h.rows e he
      · rw [List.mem_singleton] at he
        subst he
        exact ⟨rfl, h1.arrived _ hmem⟩

theorem sjf_steps_inv {processes : List Process}
    (hnd : (processes.map (fun p => p.name)).Nodup)
    (hburst : ∀ p ∈ processes, 0 < p.burstTime) (n : Nat) (s : SJF.State)
    (h : SJF.Inv processes s) : SJF.Inv processes (SJF.steps n s) := by
  induction n generalizing s with
  | zero => exact h
  | succ n ih => exact ih _ (sjf_inv_tick hnd hburst s h)

theorem sjf_total_length {processes : List Process} (s : SJF.State)
    (h : SJF.Inv processes s) :
    (SJF.afterArrival s).arrivedQueue.length + (SJF.afterArrival s).pendingProcesses.length
      = s.arrivedQueue.length + s.pendingProcesses.length := by
  have h1 := (sjf_inv_arrival s h).1.queue
  have h2 := h.queue
  rw [← List.length_append, ← List.length_append, h1]
  simp only [SJF.afterArrival]
  rw [h2]

theorem sjf_measure_tick {processes : List Process}
    (hburst : ∀ p ∈ processes, 0 < p.burstTime) (s : SJF.State)
    (h : SJF.Inv processes s) (hnf : SJF.finished s = false) :
    SJF.measure (SJF.tick s) < SJF.measure s := by
  obtain ⟨h1, hlater⟩ := sjf_inv_arrival s h
  have htot := sjf_total_length s h
  have hlow : 2 * (s.arrivedQueue.length + s.pendingProcesses.length) ≤ SJF.measure s := by
    unfold SJF.measure; omega
  cases hq : (SJF.afterArrival s).arrivedQueue with
  | nil =>
    have hq' := hq
    simp only [SJF.afterArrival, List.append_eq_nil] at hq'
    cases hp : (SJF.afterArrival s).pendingProcesses with
    | nil =>
      rw [hq, hp] at htot
      simp only [List.length_nil, hq'.1] at htot
      have hpn : s.pendingProcesses = [] := List.eq_nil_of_length_eq_zero (by omega)
      simp [SJF.finished, hq'.1, hpn, h.current] at hnf
    | cons p ps =>
      rw [sjf_tick_jump s h.animating hq p ps hp]
      obtain ⟨x, hx, hxe⟩ := sjf_min_arrival p ps
      have hxp : x ∈ (SJF.afterArrival s).pendingProcesses := by rw [hp]; exact hx
      have hpos : 0 < minList p.arrivalTime (ps.map (fun x => x.arrivalTime)) := by
        have := hlater x hxp
        omega
      rw [sjf_timeJump_pos _ _ hpos]
      have hne : ((SJF.afterArrival s).pendingProcesses.filter (fun y => y.arrivalTime
          ≤ minList p.arrivalTime (ps.map (fun x => x.arrivalTime)))).isEmpty = false := by
        have hxm : x ∈ (SJF.afterArrival s).pendingProcesses.filter (fun y => y.arrivalTime
            ≤ minList p.arrivalTime (ps.map (fun x => x.arrivalTime))) :=
          List.mem_filter.mpr ⟨hxp, by simp [hxe]⟩
        cases hl : (SJF.afterArrival s).pendingProcesses.filter (fun y => y.arrivalTime
            ≤ minList p.arrivalTime (ps.map (fun x => x.arrivalTime))) with
        | nil => rw [hl] at hxm; simp at hxm
        | cons a l => rfl
      rw [hq] at htot
      unfold SJF.measure
      simp only [hq, hne, hq'.1, hq'.2, List.isEmpty_nil, Bool.and_false, Bool.and_self,
        Bool.false_eq_true, if_false, if_true, List.length_nil] at htot ⊢
      omega
  | cons first rest =>
    rw [sjf_tick_dispatch s h.animating h.current first rest hq]
    have hm : SJF.findShortestJob first rest
        = firstMinBy (fun p => p.burstTime) first rest := rfl
    have hmem : SJF.findShortestJob first rest ∈ (SJF.afterArrival s).arrivedQueue := by
      rw [hq, hm]
      exact firstMinBy_mem _ _ _
    have hmproc : SJF.findShortestJob first rest ∈ processes := by
      have hqq := h1.queue
      have : SJF.findShortestJob first rest ∈ (SJF.afterArrival s).arrivedQueue
          ++ (SJF.afterArrival s).pendingProcesses := List.mem_append.mpr (Or.inl hmem)
      rw [hqq] at this
      exact (sjf_sorted_perm processes).mem_iff.mp (List.mem_filter.mp this).1
    have hpos : 0 < s.currentTime + (SJF.findShortestJob first rest).burstTime := by
      have := hburst _ hmproc
      omega
    rw [sjf_timeJump_pos _ _ hpos]
    have hlt := List.length_filter_lt_length_iff_exists.mpr
      (⟨SJF.findShortestJob first rest, hmem, by simp⟩ :
        ∃ x ∈ (SJF.afterArrival s).arrivedQueue,
          ¬ (x.name != (SJF.findShortestJob first rest).name) = true)
    unfold SJF.measure
    simp only
    split <;> omega

theorem sjf_finished_tick {processes : List Process} (s : SJF.State)
    (h : SJF.Inv processes s) (hf : SJF.finished s = true) : SJF.tick s = s := by
  simp only [SJF.finished, Bool.and_eq_true, List.isEmpty_iff] at hf
  obtain ⟨⟨hp, hq⟩, _⟩ := hf
  have h1 : SJF.afterArrival s = s := by
    cases s with
    | mk pend arr comp cur g t an =>
      simp only at hp hq
      subst hp hq
      rfl
  rw [sjf_tick_done s h.animating (by rw [h1]; exact hq) (by rw [h1]; exact hp)]
  exact h1

theorem sjf_finished_steps {processes : List Process} (n : Nat) (s : SJF.State)
    (h : SJF.Inv processes s) (hf : SJF.finished s = true) : SJF.steps n s = s := by
  induction n with
  | zero => rfl
  | succ n ih => rw [SJF.steps, sjf_finished_tick s h hf, ih]

theorem sjf_terminates {processes : List Process}
    (hnd : (processes.map (fun p => p.name)).Nodup)
    (hburst : ∀ p ∈ processes, 0 < p.burstTime) (n : Nat) (s : SJF.State)
    (h : SJF.Inv processes s) (hn : SJF.measure s ≤ n) :
    SJF.finished (SJF.steps n s) = true := by
  induction n generalizing s with
  | zero =>
    cases hf : SJF.finished s with
    | true => exact hf
    | false =>
      have := sjf_measure_tick hburst s h hf
      omega
  | succ n ih =>
    cases hf : SJF.finished s with
    | true =>
      rw [sjf_finished_steps _ s h hf]
      exact hf
    | false =>
      have := sjf_measure_tick hburst s h hf
      exact ih _ (sjf_inv_tick hnd hburst s h) (by omega)

theorem sjf_measure_init (processes : List Process) :
    SJF.measure (SJF.startSimulation processes) ≤ 2 * processes.length + 1 := by
  unfold SJF.measure
  have : (SJF.startSimulation processes).pendingProcesses.length = processes.length :=
    (sjf_sorted_perm processes).length_eq
  have h0 : (SJF.startSimulation processes).arrivedQueue.length = 0 := rfl
  split <;> omega

theorem sjf_finished_perm {processes : List Process}
    (hnd : (processes.map (fun p => p.name)).Nodup) (s : SJF.State)
    (h : SJF.Inv processes s) (hf : SJF.finished s = true) :
    s.completedProcesses.Perm processes := by
  simp only [SJF.finished, Bool.and_eq_true, List.isEmpty_iff] at hf
  obtain ⟨⟨hp, hq⟩, _⟩ := hf
  rw [List.perm_ext_iff_of_nodup (List.Nodup.of_map _ h.nodup) (List.Nodup.of_map _ hnd)]
  intro a
  constructor
  · exact h.members a
  · intro ha
    have hqq := h.queue
    rw [hp, hq] at hqq
    have hna := List.filter_eq_nil_iff.mp hqq.symm a ((sjf_sorted_perm processes).mem_iff.mpr ha)
    have hin : a.name ∈ s.completedProcesses.map (fun c => c.name) := by
      by_contra hcon
      exact hna ((notAmong_iff _ _).mpr hcon)
    obtain ⟨c, hc, hcn⟩ := List.mem_map.mp hin
    have := name_injective (fun p : Process => p.name) hnd (h.members c hc) ha hcn
    exact this ▸ hc

theorem filter_eq_singleton {α : Type} (f : α → String) (l : List α)
    (hnd : (l.map f).Nodup) (a : α) (ha : a ∈ l) :
    l.filter (fun x => f x == f a) = [a] := by
  induction l with
  | nil => simp at ha
  | cons x l ih =>
    simp only [List.map_cons, List.nodup_cons] at hnd
    rcases List.mem_cons.mp ha with rfl | ha
    · have hnil : l.filter (fun x => f x == f a) = [] := by
        rw [List.filter_eq_nil_iff]
        intro y hy
        simp only [beq_iff_eq]
        intro hfy
        exact hnd.1 (hfy ▸ List.mem_map_of_mem f hy)
      simp [List.filter_cons, hnil]
    · have hne : f x ≠ f a := by
        intro hfx
        exact hnd.1 (hfx ▸ List.mem_map_of_mem f ha)
      simp only [List.filter_cons, beq_iff_eq, hne, if_false]
      exact ih hnd.2 ha

theorem pair_sublist_total {α : Type} {a b : α} {l : List α} (ha : a ∈ l) (hb : b ∈ l)
    (hne : a ≠ b) : [a, b].Sublist l ∨ [b, a].Sublist l := by
  induction l with
  | nil => simp at ha
  | cons x l ih =>
    rcases List.mem_cons.mp ha with rfl | ha'
    · rcases List.mem_cons.mp hb with rfl | hb'
      · exact absurd rfl hne
      · exact Or.inl ((List.singleton_sublist.mpr hb').cons₂ _)
    · rcases List.mem_cons.mp hb with rfl | hb'
      · exact Or.inr ((List.singleton_sublist.mpr ha').cons₂ _)
      · rcases ih ha' hb' with h | h
        · exact Or.inl (h.cons _)
        · exact Or.inr (h.cons _)

theorem pair_sublist_antisymm {α : Type} {a b : α} {l : List α} (hnd : l.Nodup)
    (h1 : [a, b].Sublist l) (h2 : [b, a].Sublist l) : False := by
  induction l with
  | nil => simp at h1
  | cons x l ih =>
    obtain ⟨hx, hl⟩ := List.nodup_cons.mp hnd
    cases h1 with
    | cons _ h1' =>
      cases h2 with
      | cons _ h2' => exact ih hl h1' h2'
      | cons₂ _ h2' => exact hx (h1'.subset (by simp))
    | cons₂ _ h1' =>
      cases h2 with
      | cons _ h2' => exact hx (h2'.subset (by simp))
      | cons₂ _ h2' => exact hx (h1'.subset (by simp))

/-- C12: the SJF selection rule.  For every input with unique names and positive
burst times, at every tick at which the arrived queue `first :: rest` is not
empty after the arrival effect, the tick appends the row of
`findShortestJob first rest` starting at the clock `t`; that process has arrival
time at most `t` and has not run, and against every process `p` of the input
with arrival time at most `t` that has not run: its burst time is no larger;
when the burst times are equal its arrival time is no later; and when both are
equal it stands before `p` in the input list. -/
theorem sjf_dispatch_rule (processes : List Process)
    (hnames : (processes.map (fun p => p.name)).Nodup)
    (hburst : ∀ p ∈ processes, 0 < p.burstTime) (n : Nat)
    (first : Process) (rest : List Process)
    (hq : (SJF.afterArrival (SJF.steps n (SJF.startSimulation processes))).arrivedQueue
      = first :: rest) :
    (SJF.tick (SJF.steps n (SJF.startSimulation processes))).ganttChart
      = (SJF.steps n (SJF.startSimulation processes)).ganttChart ++
          [withTiming (SJF.findShortestJob first rest)
            (SJF.steps n (SJF.startSimulation processes)).currentTime
            ((SJF.steps n (SJF.startSimulation processes)).currentTime
              + (SJF.findShortestJob first rest).burstTime)] ∧
    SJF.findShortestJob first rest ∈ processes ∧
    (SJF.findShortestJob first rest).arrivalTime
      ≤ (SJF.steps n (SJF.startSimulation processes)).currentTime ∧
    SJF.findShortestJob first rest
      ∉ (SJF.steps n (SJF.startSimulation processes)).completedProcesses ∧
    ∀ p ∈ processes,
      p.arrivalTime ≤ (SJF.steps n (SJF.startSimulation processes)).currentTime →
      p ∉ (SJF.steps n (SJF.startSimulation processes)).completedProcesses →
      (SJF.findShortestJob first rest).burstTime ≤ p.burstTime ∧
      (p.burstTime = (SJF.findShortestJob first rest).burstTime →
        (SJF.findShortestJob first rest).arrivalTime ≤ p.arrivalTime ∧
        (p.arrivalTime = (SJF.findShortestJob first rest).arrivalTime →
          p ≠ SJF.findShortestJob first rest →
          [SJF.findShortestJob first rest, p].Sublist processes)) := by
  have h := sjf_steps_inv hnames hburst n _ (sjf_inv_init processes)
  generalize SJF.steps n (SJF.startSimulation processes) = s at h hq ⊢
  obtain ⟨h1, hlater⟩ := sjf_inv_arrival s h
  have hm : SJF.findShortestJob first rest
      = firstMinBy (fun p => p.burstTime) first rest := rfl
  obtain ⟨l1, l2, hsplit, hbefore, hafter⟩ :=
    firstMinBy_split (fun p : Process => p.burstTime) first rest
  rw [← hm] at hsplit hbefore hafter
  have hmem : SJF.findShortestJob first rest ∈ (SJF.afterArrival s).arrivedQueue := by
    rw [hq, hsplit]; simp
  have hF := h1.queue
  have hst : (SJF.afterArrival s).completedProcesses = s.completedProcesses := rfl
  rw [hst] at hF
  have hmemF : SJF.findShortestJob first rest ∈ (SJF.sortedByArrival processes).filter
      (fun p => notAmong (s.completedProcesses.map (fun c => c.name)) p.name) := by
    rw [← hF]
    exact List.mem_append.mpr (Or.inl hmem)
  have hmproc : SJF.findShortestJob first rest ∈ processes :=
    (sjf_sorted_perm processes).mem_iff.mp (List.mem_filter.mp hmemF).1
  have hmnot : (SJF.findShortestJob first rest).name
      ∉ s.completedProcesses.map (fun c => c.name) :=
    (notAmong_iff _ _).mp (List.mem_filter.mp hmemF).2
  have hSnd : (SJF.sortedByArrival processes).Nodup :=
    (sjf_sorted_perm processes).nodup_iff.mpr (List.Nodup.of_map _ hnames)
  have hsortedA : (SJF.afterArrival s).arrivedQueue.Pairwise
      (fun a b => a.arrivalTime ≤ b.arrivalTime) := by
    have h2 : ((SJF.afterArrival s).arrivedQueue ++ (SJF.afterArrival s).pendingProcesses).Pairwise
        (fun a b => a.arrivalTime ≤ b.arrivalTime) := by
      rw [hF]
      exact (sjf_sorted_pairwise processes).sublist (List.filter_sublist _)
    exact (List.pairwise_append.mp h2).1
  have hAsub : (SJF.afterArrival s).arrivedQueue.Sublist (SJF.sortedByArrival processes) := by
    have h2 : (SJF.afterArrival s).arrivedQueue.Sublist
        ((SJF.afterArrival s).arrivedQueue ++ (SJF.afterArrival s).pendingProcesses) :=
      List.sublist_append_left _ _
    rw [hF] at h2
    exact h2.trans (List.filter_sublist _)
  refine ⟨?_, hmproc, h1.arrived _ hmem, ?_, ?_⟩
  · rw [sjf_tick_dispatch s h.animating h.current first rest hq]
    exact (sjf_timeJump_chart _ _).1
  · intro hc
    exact hmnot (List.mem_map_of_mem _ hc)
  · intro p hp hpt hpc
    have hpnot : notAmong (s.completedProcesses.map (fun c => c.name)) p.name = true := by
      rw [notAmong_iff]
      intro hin
      obtain ⟨c, hc, hcn⟩ := List.mem_map.mp hin
      have := name_injective (fun p : Process => p.name) hnames (h.members c hc) hp hcn
      exact hpc (this ▸ hc)
    have hpF : p ∈ (SJF.afterArrival s).arrivedQueue ++ (SJF.afterArrival s).pendingProcesses := by
      rw [hF]
      exact List.mem_filter.mpr ⟨(sjf_sorted_perm processes).mem_iff.mpr hp, hpnot⟩
    have hpA : p ∈ first :: rest := by
      rcases List.mem_append.mp hpF with hpA | hpP
      · rw [hq] at hpA; exact hpA
      · have := hlater p hpP
        omega
    refine ⟨by rw [hm]; exact firstMinBy_le _ _ _ p hpA, ?_⟩
    intro hb
    rw [hsplit] at hpA
    have hcases : p = SJF.findShortestJob first rest ∨ p ∈ l2 := by
      rcases List.mem_append.mp hpA with hp1 | hp2
      · have := hbefore p hp1
        omega
      · exact List.mem_cons.mp hp2
    rw [hq, hsplit] at hsortedA hAsub
    rcases hcases with hpe | hp2
    · refine ⟨by rw [hpe], ?_⟩
      intro _ hne
      exact absurd hpe hne
    · have hle : (SJF.findShortestJob first rest).arrivalTime ≤ p.arrivalTime :=
        List.rel_of_pairwise_cons (List.pairwise_append.mp hsortedA).2.1 hp2
      refine ⟨hle, ?_⟩
      intro ha hne
      have hcp : [SJF.findShortestJob first rest, p].Sublist (SJF.sortedByArrival processes) := by
        have : [SJF.findShortestJob first rest, p].Sublist
            (l1 ++ SJF.findShortestJob first rest :: l2) :=
          ((List.singleton_sublist.mpr hp2).cons₂ _).trans (List.sublist_append_right _ _)
        exact this.trans hAsub
      rcases pair_sublist_total hmproc hp (Ne.symm hne) with hgood | hbad
      · exact hgood
      · exfalso
        have hr : SJF.arrivesNoLater p (SJF.findShortestJob first rest) := by
          unfold SJF.arrivesNoLater
          omega
        have hpc' : [p, SJF.findShortestJob first rest].Sublist
            (SJF.sortedByArrival processes) :=
          List.pair_sublist_insertionSort hr hbad
        exact pair_sublist_antisymm hSnd hcp hpc'

/-- Witness for `sjf_dispatch_rule`: the first tick of the SJF example, where the
arrived queue is `[P1]`. -/
theorem sjf_dispatch_rule_witness :
    (sjfExample.map (fun p => p.name)).Nodup ∧
    (∀ p ∈ sjfExample, 0 < p.burstTime) ∧
    (SJF.tick (SJF.steps 0 (SJF.startSimulation sjfExample))).ganttChart
      = (SJF.steps 0 (SJF.startSimulation sjfExample)).ganttChart ++
          [withTiming (SJF.findShortestJob
              { name := "P1", arrivalTime := 0, burstTime := 7 } [])
            (SJF.steps 0 (SJF.startSimulation sjfExample)).currentTime
            ((SJF.steps 0 (SJF.startSimulation sjfExample)).currentTime
              + (SJF.findShortestJob { name := "P1", arrivalTime := 0, burstTime := 7 }
                  []).burstTime)] :=
  ⟨by decide, by decide,
    (sjf_dispatch_rule sjfExample (by decide) (by decide) 0
      { name := "P1", arrivalTime := 0, burstTime := 7 } [] (by decide)).1⟩

/-- C13: SJF never preempts.  For every input with unique names and positive
burst times, after any number of ticks from `2 * (number of processes) + 1` on
the simulation is finished and every process has exactly one row in the Gantt
chart; that row is as long as the burst time of the process and starts no
earlier than its arrival time. -/
theorem sjf_one_row_each (processes : List Process)
    (hnames : (processes.map (fun p => p.name)).Nodup)
    (hburst : ∀ p ∈ processes, 0 < p.burstTime) (n : Nat)
    (hn : 2 * processes.length + 1 ≤ n) :
    SJF.finished (SJF.steps n (SJF.startSimulation processes)) = true ∧
    ∀ p ∈ processes, ∃ e : TimedProcess,
      (SJF.chart n processes).filter (fun r => r.name == p.name) = [e] ∧
      e.endTime - e.startTime = p.burstTime ∧ p.arrivalTime ≤ e.startTime := by
  have h := sjf_steps_inv hnames hburst n _ (sjf_inv_init processes)
  have hfin := sjf_terminates hnames hburst n _ (sjf_inv_init processes)
    (le_trans (sjf_measure_init processes) hn)
  have hperm := sjf_finished_perm hnames _ h hfin
  refine ⟨hfin, ?_⟩
  intro p hp
  unfold SJF.chart
  generalize SJF.steps n (SJF.startSimulation processes) = s at h hfin hperm ⊢
  have hpc : p ∈ s.ganttChart.map TimedProcess.toProcess := by
    rw [h.chart]
    exact hperm.mem_iff.mpr hp
  obtain ⟨e, he, hep⟩ := List.mem_map.mp hpc
  have hnd : (s.ganttChart.map (fun r : TimedProcess => r.name)).Nodup := by
    have : s.ganttChart.map (fun r : TimedProcess => r.name)
        = (s.ganttChart.map TimedProcess.toProcess).map (fun c => c.name) := by
      rw [List.map_map]
      rfl
    rw [this, h.chart]
    exact h.nodup
  have hname : e.name = p.name := by rw [← hep]; rfl
  have hb : e.burstTime = p.burstTime := by rw [← hep]; rfl
  have ha : e.arrivalTime = p.arrivalTime := by rw [← hep]; rfl
  refine ⟨e, ?_, ?_, ?_⟩
  · rw [← hname]
    exact filter_eq_singleton (fun r : TimedProcess => r.name) _ hnd e he
  · have := (h.rows e he).1
    omega
  · have := (h.rows e he).2
    omega

/-- Witness for `sjf_one_row_each`: the SJF example and five ticks. -/
theorem sjf_one_row_each_witness :
    (sjfExample.map (fun p => p.name)).Nodup ∧
    (∀ p ∈ sjfExample, 0 < p.burstTime) ∧
    SJF.finished (SJF.steps 5 (SJF.startSimulation sjfExample)) = true :=
  ⟨by decide, by decide, (sjf_one_row_each sjfExample (by decide) (by decide) 5 (by decide)).1⟩

/-! ## Round Robin, one step after another: what the rows record -/

theorem rr_step_cases (q : Nat) (s : RR.State) (hcur : s.currentProcess = none)
    (P : RR.State → Prop)
    (hadm : s.readyQueue = [] → P (RR.afterAdmission s))
    (hidle : ∀ a, s.readyQueue = [] → s.currentTime < a →
      (∀ x ∈ s.pendingProcesses, a ≤ x.arrivalTime) →
      P { RR.afterAdmission s with
          currentTime := a,
          ganttChart := s.ganttChart ++ [RR.idleEntry s.currentTime a] })
    (hdone : ∀ next rest, s.readyQueue = next :: rest →
      s.remainingTime next.name ≤ q →
      P { RR.afterAdmission s with
          readyQueue := (RR.afterAdmission s).readyQueue.drop 1,
          currentTime := s.currentTime + s.remainingTime next.name,
          ganttChart := s.ganttChart ++
            [RR.ganttEntry next s.currentTime (s.remainingTime next.name)],
          remainingTime := RR.setKey s.remainingTime next.name 0,
          completedProcesses := s.completedProcesses ++
            [(next, s.currentTime + s.remainingTime next.name)],
          currentProcess := none })
    (hcont : ∀ next rest, s.readyQueue = next :: rest →
      q < s.remainingTime next.name →
      P { RR.afterAdmission s with
          readyQueue := (RR.afterAdmission s).readyQueue.drop 1 ++
            [{ next with remainingTime := s.remainingTime next.name - q }],
          currentTime := s.currentTime + q,
          ganttChart := s.ganttChart ++ [RR.ganttEntry next s.currentTime q],
          remainingTime := RR.setKey s.remainingTime next.name
            (s.remainingTime next.name - q),
          currentProcess := none }) :
    P (RR.simulationStep q s) := by
  rw [rr_step_eq]
  simp only [hcur, Option.isNone_none, Bool.true_and]
  cases hq : s.readyQueue with
  | nil =>
    simp only [List.length_nil, gt_iff_lt, lt_self_iff_false, decide_False, Bool.false_eq_true,
      if_false, beq_self_eq_true, Bool.true_and]
    split
    · cases hp : s.pendingProcesses with
      | nil => exact hadm hq
      | cons p ps =>
        simp only
        split
        · rename_i hgt
          apply hidle _ hq hgt
          intro x hx
          apply minList_le
          rw [hp] at hx
          have : x.arrivalTime ∈ (p :: ps).map (fun x => x.arrivalTime) :=
            List.mem_map_of_mem _ hx
          simpa using this
        · exact hadm hq
    · exact hadm hq
  | cons next rest =>
    simp only [List.length_cons, gt_iff_lt, Nat.zero_lt_succ, decide_True, if_true]
    split
    · rename_i hd
      have hle : s.remainingTime next.name ≤ q := by omega
      have hmin : min q (s.remainingTime next.name) = s.remainingTime next.name :=
        Nat.min_eq_right hle
      have h := hdone next rest hq hle
      simp only [hmin, Nat.sub_self]
      exact h
    · rename_i hd
      have hlt : q < s.remainingTime next.name := by omega
      have hmin : min q (s.remainingTime next.name) = q := Nat.min_eq_left (Nat.le_of_lt hlt)
      have h := hcont next rest hq hlt
      simp only [hmin]
      exact h

theorem rr_slices_snoc {q : Nat} {processes : List Process} {g : List RR.Entry}
    (hs : RR.SlicesExact q processes g) (e0 : RR.Entry)
    (h0 : e0.isIdle = false → ∃ p ∈ processes, p.name = e0.name ∧
      e0.endTime - e0.startTime = min q (p.burstTime - RR.work p.name g)) :
    RR.SlicesExact q processes (g ++ [e0]) := by
  intro pre e post heq hidle
  rcases List.eq_nil_or_concat post with rfl | ⟨post', x, hpost⟩
  · have h1 : g ++ [e0] = pre ++ [e] := heq
    have h2 := List.append_inj' h1 rfl
    have h3 : e0 = e := by simpa using h2.2
    subst h3
    rw [← h2.1]
    exact h0 hidle
  · rw [List.concat_eq_append] at hpost
    subst hpost
    have h1 : g ++ [e0] = (pre ++ e :: post') ++ [x] := by
      rw [heq]; simp
    have h2 := List.append_inj' h1 rfl
    exact hs pre e post' h2.1 hidle

theorem rr_inv2_admission {q : Nat} {processes : List Process} (s : RR.State)
    (h : RR.Inv processes s) (h2 : RR.Inv2 q processes s) (a : Nat) (g' : List RR.Entry)
    (hta : s.currentTime ≤ a)
    (hg : g' = s.ganttChart ∨
      (s.currentTime < a ∧ g' = s.ganttChart ++ [RR.idleEntry s.currentTime a])) :
    RR.Inv2 q processes { RR.afterAdmission s with currentTime := a, ganttChart := g' } := by
  have hperm := rr_live_admission_perm s
  have hgmem : ∀ e ∈ g', e ∈ s.ganttChart ∨ (s.currentTime < a ∧ e = RR.idleEntry s.currentTime a) := by
    intro e he
    rcases hg with rfl | ⟨hlt, rfl⟩
    · exact Or.inl he
    · rcases List.mem_append.mp he with he | he
      · exact Or.inl he
      · exact Or.inr ⟨hlt, List.mem_singleton.mp he⟩
  refine ⟨?_, ?_, ?_, ?_, ?_, ?_, ?_, ?_, ?_⟩
  · intro x hx
    exact h2.known x (hperm.mem_iff.mp hx)
  · intro x hx
    exact h2.fresh x (List.mem_filter.mp hx).1
  · intro x hx
    simp only [RR.afterAdmission] at hx ⊢
    rcases List.mem_append.mp hx with hx | hx
    · have := h2.ready x hx
      omega
    · have : x.arrivalTime ≤ s.currentTime := by simpa using (List.mem_filter.mp hx).2
      omega
  · intro x hx
    simp only [RR.afterAdmission] at hx ⊢
    rcases List.mem_append.mp hx with hx | hx
    · have := h2.elapsed x hx
      omega
    · have hxp := (List.mem_filter.mp hx).1
      have hxa : x.arrivalTime ≤ s.currentTime := by simpa using (List.mem_filter.mp hx).2
      have hpos := h.positive x (List.mem_append.mpr (Or.inl hxp))
      have hf := h2.fresh x hxp
      omega
  · intro e he hidle
    rcases hgmem e he with he | ⟨_, he⟩
    · exact h2.rows e he hidle
    · rw [he] at hidle
      simp [RR.idleEntry] at hidle
  · intro e he
    rcases hgmem e he with he | ⟨hlt, he⟩
    · exact h2.nonempty e he
    · rw [he]
      exact hlt
  · intro e he
    rcases hgmem e he with he | ⟨hlt, he⟩
    · have := h2.ends e he
      simp only
      omega
    · rw [he]
      exact le_refl _
  · rcases hg with rfl | ⟨hlt, rfl⟩
    · exact h2.slices
    · apply rr_slices_snoc h2.slices
      intro hidle
      simp [RR.idleEntry] at hidle
  · intro p hp
    rcases h2.finishedRow p hp with hl | ⟨e, he, hrest⟩
    · left
      exact ((hperm.map _).mem_iff).mpr hl
    · right
      refine ⟨e, ?_, hrest⟩
      rcases hg with rfl | ⟨hlt, rfl⟩
      · exact he
      · exact List.mem_append.mpr (Or.inl he)

theorem rr_inv2_after_run {q : Nat} {processes : List Process}
    (hnd : (processes.map (fun p => p.name)).Nodup)
    (s s' : RR.State) (next : RR.QProcess) (rest tail : List RR.QProcess) (e : Nat)
    (h : RR.Inv processes s) (h2 : RR.Inv2 q processes s)
    (hq : s.readyQueue = next :: rest)
    (he : e = min q (s.remainingTime next.name)) (hepos : 0 < e)
    (hpend : s'.pendingProcesses
      = s.pendingProcesses.filter (fun p => p.arrivalTime > s.currentTime))
    (hready : s'.readyQueue
      = rest ++ s.pendingProcesses.filter (fun p => p.arrivalTime ≤ s.currentTime) ++ tail)
    (hg : s'.ganttChart = s.ganttChart ++ [RR.ganttEntry next s.currentTime e])
    (ht : s'.currentTime = s.currentTime + e)
    (hrem : s'.remainingTime
      = RR.setKey s.remainingTime next.name (s.remainingTime next.name - e))
    (htail : (s.remainingTime next.name - e = 0 ∧ tail = []) ∨
      (0 < s.remainingTime next.name - e ∧
        tail = [{ next with remainingTime := s.remainingTime next.name - e }])) :
    RR.Inv2 q processes s' := by
  have hle : e ≤ s.remainingTime next.name := by rw [he]; exact Nat.min_le_right _ _
  have hnextlive : next ∈ RR.live s := by
    unfold RR.live; rw [hq]; simp
  have hnextready : next ∈ s.readyQueue := by rw [hq]; simp
  have hperm := rr_live_run_perm s next rest hq
  rw [rr_admission_ready s next rest hq] at hperm
  simp only [RR.afterAdmission, List.drop_succ_cons, List.drop_zero] at hperm
  have hndl : ((next :: (s.pendingProcesses.filter (fun p => p.arrivalTime > s.currentTime)
      ++ (rest ++ s.pendingProcesses.filter (fun p => p.arrivalTime ≤ s.currentTime)))).map
      (fun p => p.name)).Nodup := ((hperm.map _).nodup_iff).mpr h.nodup
  simp only [List.map_cons, List.nodup_cons] at hndl
  have hother : ∀ x ∈ s.pendingProcesses.filter (fun p => p.arrivalTime > s.currentTime)
      ++ (rest ++ s.pendingProcesses.filter (fun p => p.arrivalTime ≤ s.currentTime)),
      x ∈ RR.live s ∧ x.name ≠ next.name := by
    intro x hx
    refine ⟨hperm.mem_iff.mp (List.mem_cons_of_mem _ hx), ?_⟩
    intro heq
    apply hndl.1
    rw [← heq]
    exact List.mem_map_of_mem _ hx
  have hremO : ∀ k, k ≠ next.name → s'.remainingTime k = s.remainingTime k := by
    intro k hk
    rw [hrem]
    simp [RR.setKey, hk]
  have hremN : s'.remainingTime next.name = s.remainingTime next.name - e := by
    rw [hrem]
    simp [RR.setKey]
  obtain ⟨pn, hpn, hpnname, hpnarr, hpnburst⟩ := h2.known next hnextlive
  have hnarr := h2.ready next hnextready
  have hnel := h2.elapsed next hnextready
  have hlive' : ∀ x ∈ RR.live s',
      (x ∈ RR.live s ∧ x.name ≠ next.name) ∨
      (0 < s.remainingTime next.name - e ∧
        x = { next with remainingTime := s.remainingTime next.name - e }) := by
    intro x hx
    unfold RR.live at hx
    rw [hpend, hready] at hx
    rcases List.mem_append.mp hx with hx | hx
    · exact Or.inl (hother x (List.mem_append.mpr (Or.inl hx)))
    · rcases List.mem_append.mp hx with hx | hx
      · exact Or.inl (hother x (List.mem_append.mpr (Or.inr hx)))
      · rcases htail with ⟨_, rfl⟩ | ⟨hpos, rfl⟩
        · simp at hx
        · exact Or.inr ⟨hpos, List.mem_singleton.mp hx⟩
  refine ⟨?_, ?_, ?_, ?_, ?_, ?_, ?_, ?_, ?_⟩
  · intro x hx
    rcases hlive' x hx with ⟨hxl, _⟩ | ⟨_, rfl⟩
    · exact h2.known x hxl
    · exact ⟨pn, hpn, hpnname, hpnarr, hpnburst⟩
  · intro x hx
    rw [hpend] at hx
    exact h2.fresh x (List.mem_filter.mp hx).1
  · intro x hx
    rw [ht]
    rw [hready] at hx
    rcases List.mem_append.mp hx with hx | hx
    · rcases List.mem_append.mp hx with hx | hx
      · have := h2.ready x (by rw [hq]; exact List.mem_cons_of_mem _ hx)
        omega
      · have : x.arrivalTime ≤ s.currentTime := by simpa using (List.mem_filter.mp hx).2
        omega
    · rcases htail with ⟨_, rfl⟩ | ⟨hpos, rfl⟩
      · simp at hx
      · rw [List.mem_singleton.mp hx]
        simp only
        omega
  · intro x hx
    rw [ht]
    rw [hready] at hx
    rcases List.mem_append.mp hx with hx | hx
    · have hxo := hother x (List.mem_append.mpr (Or.inr hx))
      rw [hremO _ hxo.2]
      rcases List.mem_append.mp hx with hx | hx
      · have := h2.elapsed x (by rw [hq]; exact List.mem_cons_of_mem _ hx)
        omega
      · have hxp := (List.mem_filter.mp hx).1
        have hxa : x.arrivalTime ≤ s.currentTime := by simpa using (List.mem_filter.mp hx).2
        have hpos := h.positive x (List.mem_append.mpr (Or.inl hxp))
        have hf := h2.fresh x hxp
        omega
    · rcases htail with ⟨_, rfl⟩ | ⟨hpos, rfl⟩
      · simp at hx
      · rw [List.mem_singleton.mp hx]
        simp only
        rw [hremN]
        omega
  · intro r hr hidle
    rw [hg] at hr
    rcases List.mem_append.mp hr with hr | hr
    · exact h2.rows r hr hidle
    · rw [List.mem_singleton.mp hr]
      refine ⟨pn, hpn, hpnname, ?_⟩
      simp only [RR.ganttEntry]
      omega
  · intro r hr
    rw [hg] at hr
    rcases List.mem_append.mp hr with hr | hr
    · exact h2.nonempty r hr
    · rw [List.mem_singleton.mp hr]
      simp only [RR.ganttEntry]
      omega
  · intro r hr
    rw [hg] at hr
    rw [ht]
    rcases List.mem_append.mp hr with hr | hr
    · have := h2.ends r hr
      omega
    · rw [List.mem_singleton.mp hr]
      simp only [RR.ganttEntry]
      exact le_refl _
  · rw [hg]
    apply rr_slices_snoc h2.slices
    intro _
    refine ⟨pn, hpn, hpnname, ?_⟩
    have hc := h.conserved pn hpn
    rw [hpnname] at hc ⊢
    simp only [RR.ganttEntry]
    rw [he]
    have : pn.burstTime - RR.work next.name s.ganttChart = s.remainingTime next.name := by omega
    rw [this]
    omega
  · intro p hp
    rcases h2.finishedRow p hp with hl | ⟨r, hr, hrest⟩
    · by_cases hpname : p.name = next.name
      · rcases htail with ⟨hz, rfl⟩ | ⟨hpos, rfl⟩
        · right
          have hpe : pn = p :=
            name_injective (fun p : Process => p.name) hnd hpn hp (hpnname.trans hpname.symm)
          subst hpe
          refine ⟨RR.ganttEntry next s.currentTime e, ?_, rfl, hpname.symm, ?_⟩
          · rw [hg]; simp
          · simp only [RR.ganttEntry]
            omega
        · left
          unfold RR.live
          rw [hready, hpname]
          simp
      · left
        have hl' : p.name ∈ (next :: (s.pendingProcesses.filter
            (fun p => p.arrivalTime > s.currentTime)
            ++ (rest ++ s.pendingProcesses.filter (fun p => p.arrivalTime ≤ s.currentTime)))).map
            (fun p => p.name) := ((hperm.map _).mem_iff).mpr hl
        rw [List.map_cons, List.mem_cons] at hl'
        rcases hl' with hl' | hl'
        · exact absurd hl' hpname
        · unfold RR.live
          rw [hpend, hready]
          simp only [List.map_append, List.mem_append] at hl' ⊢
          rcases hl' with hl' | hl' | hl'
          · exact Or.inl hl'
          · exact Or.inr (Or.inl (Or.inl hl'))
          · exact Or.inr (Or.inl (Or.inr hl'))
    · right
      exact ⟨r, by rw [hg]; exact List.mem_append.mpr (Or.inl hr), hrest⟩

theorem rr_inv2_step {q : Nat} {processes : List Process} (hqpos : 0 < q)
    (hnd : (processes.map (fun p => p.name)).Nodup) (s : RR.State)
    (h : RR.Inv processes s) (h2 : RR.Inv2 q processes s) :
    RR.Inv2 q processes (RR.simulationStep q s) := by
  apply rr_step_cases q s h.current
  · intro _
    exact rr_inv2_admission s h h2 s.currentTime s.ganttChart (le_refl _) (Or.inl rfl)
  · intro a _ hlt _
    exact rr_inv2_admission s h h2 a _ (Nat.le_of_lt hlt) (Or.inr ⟨hlt, rfl⟩)
  · intro next rest hq hle
    have hpos := (h.positive next (by unfold RR.live; rw [hq]; simp)).1
    refine rr_inv2_after_run hnd s _ next rest [] (s.remainingTime next.name) h h2 hq
      (Nat.min_eq_right hle).symm hpos rfl ?_ rfl rfl ?_ (Or.inl ⟨Nat.sub_self _, rfl⟩)
    · simp [rr_admission_ready s next rest hq]
    · simp
  · intro next rest hq hlt
    refine rr_inv2_after_run hnd s _ next rest
      [{ next with remainingTime := s.remainingTime next.name - q }] q h h2 hq
      (Nat.min_eq_left (Nat.le_of_lt hlt)).symm hqpos rfl ?_ rfl rfl rfl
      (Or.inr ⟨by omega, rfl⟩)
    simp [rr_admission_ready s next rest hq]

theorem rr_inv2_init (q : Nat) (processes : List Process) :
    RR.Inv2 q processes (RR.startSimulation processes) := by
  refine ⟨?_, ?_, ?_, ?_, ?_, ?_, ?_, ?_, ?_⟩
  · intro x hx
    simp only [RR.live, RR.startSimulation, List.append_nil] at hx
    obtain ⟨p, hp, rfl⟩ := List.mem_map.mp hx
    exact ⟨p, hp, rfl, rfl, rfl⟩
  · intro x hx
    simp only [RR.startSimulation] at hx
    obtain ⟨p, hp, rfl⟩ := List.mem_map.mp hx
    rfl
  · intro x hx; simp [RR.startSimulation] at hx
  · intro x hx; simp [RR.startSimulation] at hx
  · intro e he; simp [RR.startSimulation] at he
  · intro e he; simp [RR.startSimulation] at he
  · intro e he; simp [RR.startSimulation] at he
  · intro pre e post heq
    simp [RR.startSimulation] at heq
  · intro p hp
    left
    simp only [RR.live, RR.startSimulation, List.append_nil, List.map_map]
    exact List.mem_map_of_mem _ hp

theorem rr_steps_inv2 {q : Nat} {processes : List Process} (hqpos : 0 < q)
    (hnd : (processes.map (fun p => p.name)).Nodup) (n : Nat) (s : RR.State)
    (h : RR.Inv processes s) (h2 : RR.Inv2 q processes s) :
    RR.Inv2 q processes (RR.steps q n s) := by
  induction n generalizing s with
  | zero => exact h2
  | succ n ih => exact ih _ (rr_inv_step q s h) (rr_inv2_step hqpos hnd s h h2)

/-! ## The metrics functions -/

theorem lookup_map_update {β : Type} (key n : String) (f : β → β) (m : List (String × β)) :
    List.lookup n (m.map (fun kv => if kv.1 = key then (kv.1, f kv.2) else kv))
      = (List.lookup n m).map (fun v => if n = key then f v else v) := by
  induction m with
  | nil => rfl
  | cons kv m ih =>
    obtain ⟨k, v⟩ := kv
    rw [List.map_cons]
    by_cases hk : k = key
    · rw [if_pos (show (k, v).1 = key from hk)]
      by_cases hn : n = k
      · subst hn
        simp [List.lookup, hk]
      · have hnb : (n == k) = false := by simpa using hn
        simp only [List.lookup, hnb]
        exact ih
    · rw [if_neg (show ¬ (k, v).1 = key from hk)]
      by_cases hn : n = k
      · subst hn
        simp [List.lookup, hk]
      · have hnb : (n == k) = false := by simpa using hn
        simp only [List.lookup, hnb]
        exact ih

theorem lookup_map_val {β : Type} (n : String) (f : β → β) (m : List (String × β)) :
    List.lookup n (m.map (fun kv => (kv.1, f kv.2))) = (List.lookup n m).map f := by
  induction m with
  | nil => rfl
  | cons kv m ih =>
    obtain ⟨k, v⟩ := kv
    by_cases hn : n = k
    · subst hn
      simp [List.lookup]
    · have hnb : (n == k) = false := by simpa using hn
      simp only [List.map_cons, List.lookup, hnb]
      exact ih

theorem mem_uniqueNames (xs : List String) (n : String) : n ∈ uniqueNames xs ↔ n ∈ xs := by
  induction xs with
  | nil => simp [uniqueNames]
  | cons x xs ih =>
    simp only [uniqueNames, List.mem_cons, List.mem_filter, bne_iff_ne, ne_eq, ih]
    constructor
    · rintro (h | ⟨h, _⟩)
      · exact Or.inl h
      · exact Or.inr h
    · rintro (h | h)
      · exact Or.inl h
      · by_cases hx : n = x
        · exact Or.inl hx
        · exact Or.inr ⟨h, hx⟩

theorem find_of_nodup (processes : List Process)
    (hnd : (processes.map (fun p => p.name)).Nodup) (p : Process) (hp : p ∈ processes) :
    processes.find? (fun x => x.name == p.name) = some p := by
  induction processes with
  | nil => simp at hp
  | cons x l ih =>
    simp only [List.map_cons, List.nodup_cons] at hnd
    rcases List.mem_cons.mp hp with rfl | hp'
    · simp [List.find?]
    · have hne : x.name ≠ p.name := by
        intro h
        exact hnd.1 (h ▸ List.mem_map_of_mem _ hp')
      have hb : (x.name == p.name) = false := by simpa using hne
      simp only [List.find?, hb]
      exact ih hnd.2 hp'

theorem rr_initialStats_some (processes : List Process) (names : List String)
    (h : ∀ n ∈ names, ∃ p ∈ processes, p.name = n) :
    ∃ st, RR.initialStats processes names = some st := by
  induction names with
  | nil => exact ⟨[], rfl⟩
  | cons n names ih =>
    obtain ⟨st, hst⟩ := ih (fun m hm => h m (List.mem_cons_of_mem _ hm))
    obtain ⟨p, hp, hpn⟩ := h n (List.mem_cons_self _ _)
    cases hf : processes.find? (fun p => p.name == n) with
    | none =>
      have := List.find?_eq_none.mp hf p hp
      simp [hpn] at this
    | some p' =>
      simp only [RR.initialStats, hf, hst]
      exact ⟨_, rfl⟩

theorem rr_initialStats_lookup (processes : List Process) (names : List String)
    (st : List (String × RR.Stats)) (h : RR.initialStats processes names = some st) :
    ∀ n ∈ names, ∃ p, processes.find? (fun p => p.name == n) = some p ∧
      List.lookup n st = some { arrivalTime := p.arrivalTime, burstTime := p.burstTime,
                                completionTime := 0, turnaroundTime := 0, waitingTime := 0,
                                responseTime := none } := by
  induction names generalizing st with
  | nil => intro n hn; simp at hn
  | cons m names ih =>
    intro n hn
    simp only [RR.initialStats] at h
    cases hf : processes.find? (fun p => p.name == m) with
    | none => simp [hf] at h
    | some p =>
      cases hr : RR.initialStats processes names with
      | none => simp [hf, hr] at h
      | some rest =>
        simp only [hf, hr, Option.some.injEq] at h
        subst h
        by_cases hnm : n = m
        · subst hnm
          exact ⟨p, hf, by simp [List.lookup]⟩
        · have hnb : (n == m) = false := by simpa using hnm
          rcases List.mem_cons.mp hn with hn | hn
          · exact absurd hn hnm
          · obtain ⟨p', hp', hl⟩ := ih rest hr n hn
            exact ⟨p', hp', by simp only [List.lookup, hnb]; exact hl⟩

theorem rr_record_lookup (n : String) (g : List RR.Entry) (st : List (String × RR.Stats)) :
    List.lookup n (g.foldl RR.recordEntry st)
      = (List.lookup n st).map (fun v =>
          g.foldl (fun v e => if n = e.name then RR.recordRow e v else v) v) := by
  induction g generalizing st with
  | nil => simp
  | cons e g ih =>
    rw [List.foldl_cons, ih]
    unfold RR.recordEntry
    rw [lookup_map_update]
    cases List.lookup n st with
    | none => rfl
    | some v => rfl

theorem maxOf_foldl (xs : List Nat) (c : Nat) : xs.foldl max c = max c (maxOf xs) := by
  unfold maxOf
  induction xs generalizing c with
  | nil => simp
  | cons x xs ih =>
    simp only [List.foldl_cons]
    rw [ih (max c x), ih (max 0 x)]
    omega

theorem rr_record_fold (n : String) (g : List RR.Entry) (v : RR.Stats) :
    (g.foldl (fun v e => if n = e.name then RR.recordRow e v else v) v).arrivalTime
      = v.arrivalTime ∧
    (g.foldl (fun v e => if n = e.name then RR.recordRow e v else v) v).burstTime
      = v.burstTime ∧
    (g.foldl (fun v e => if n = e.name then RR.recordRow e v else v) v).completionTime
      = max v.completionTime
          (maxOf ((g.filter (fun e => !e.isIdle && e.name == n)).map (fun e => e.endTime))) ∧
    (g.foldl (fun v e => if n = e.name then RR.recordRow e v else v) v).responseTime
      = (match v.responseTime with
         | some r => some r
         | none => (g.filter (fun e => !e.isIdle && e.name == n)).head?.map
             (fun e => (e.startTime : Int) - v.arrivalTime)) := by
  induction g generalizing v with
  | nil =>
    refine ⟨rfl, rfl, by simp [maxOf], ?_⟩
    cases hv : v.responseTime <;> simp [hv]
  | cons e g ih =>
    rw [List.foldl_cons]
    by_cases hm : n = e.name
    · cases hidle : e.isIdle with
      | true =>
        have hrow : RR.recordRow e v = v := by simp [RR.recordRow, hidle]
        have hf : (e :: g).filter (fun e => !e.isIdle && e.name == n)
            = g.filter (fun e => !e.isIdle && e.name == n) := by
          simp [List.filter_cons, hidle]
        rw [if_pos hm, hrow, hf]
        exact ih v
      | false =>
        have hf : (e :: g).filter (fun e => !e.isIdle && e.name == n)
            = e :: g.filter (fun e => !e.isIdle && e.name == n) := by
          simp [List.filter_cons, hidle, hm]
        rw [if_pos hm, hf]
        obtain ⟨h1, h2, h3, h4⟩ := ih (RR.recordRow e v)
        have ha : (RR.recordRow e v).arrivalTime = v.arrivalTime := by
          unfold RR.recordRow
          simp only [hidle]
          split <;> split <;> rfl
        have hb : (RR.recordRow e v).burstTime = v.burstTime := by
          unfold RR.recordRow
          simp only [hidle]
          split <;> split <;> rfl
        have hc : (RR.recordRow e v).completionTime = max v.completionTime e.endTime := by
          unfold RR.recordRow
          simp only [hidle, Bool.not_false, Bool.true_and, decide_eq_true_eq]
          split <;> split <;> (try simp only) <;> omega
        have hr : (RR.recordRow e v).responseTime
            = (match v.responseTime with
               | some r => some r
               | none => some ((e.startTime : Int) - v.arrivalTime)) := by
          unfold RR.recordRow
          simp only [hidle, Bool.not_false, Bool.true_and, decide_eq_true_eq]
          cases hv : v.responseTime with
          | none => split <;> simp [hv]
          | some r => split <;> simp [hv]
        refine ⟨by rw [h1, ha], by rw [h2, hb], ?_, ?_⟩
        · rw [h3, hc]
          simp only [List.map_cons, maxOf, List.foldl_cons]
          rw [maxOf_foldl, maxOf_foldl]
          simp only [maxOf]
          omega
        · rw [h4, hr]
          cases v.responseTime with
          | none => simp
          | some r => simp
    · have hf : (e :: g).filter (fun e => !e.isIdle && e.name == n)
          = g.filter (fun e => !e.isIdle && e.name == n) := by
        have : (e.name == n) = false := by
          simp only [beq_eq_false_iff_ne, ne_eq]
          exact fun h => hm h.symm
        simp [List.filter_cons, this]
      rw [if_neg hm, hf]
      exact ih v

theorem lookup_snoc {β : Type} (k n : String) (v : β) (m : List (String × β)) :
    List.lookup k (m ++ [(n, v)])
      = (match List.lookup k m with
         | some x => some x
         | none => if k = n then some v else none) := by
  induction m with
  | nil =>
    by_cases hk : k = n
    · subst hk; simp [List.lookup]
    · have hb : (k == n) = false := by simpa using hk
      simp [List.lookup, hb, hk]
  | cons kv m ih =>
    obtain ⟨a, b⟩ := kv
    by_cases hk : k = a
    · subst hk; simp [List.lookup]
    · have hb : (k == a) = false := by simpa using hk
      simp only [List.cons_append, List.lookup, hb]
      exact ih

theorem lookup_of_any {β : Type} (n : String) (m : List (String × β)) :
    (m.any (fun kv => kv.1 == n) = true → ∃ x, List.lookup n m = some x) ∧
    (m.any (fun kv => kv.1 == n) = false → List.lookup n m = none) := by
  induction m with
  | nil => simp [List.lookup]
  | cons kv m ih =>
    obtain ⟨a, b⟩ := kv
    by_cases hk : n = a
    · subst hk; simp [List.lookup]
    · have hb : (n == a) = false := by simpa using hk
      have hb' : (a == n) = false := by
        simp only [beq_eq_false_iff_ne, ne_eq]
        exact fun h => hk h.symm
      simp only [List.any_cons, hb', Bool.false_or, List.lookup, hb]
      exact ih

theorem priority_lookup_setMetric (m : List (String × Priority.Metrics)) (n k : String)
    (v : Priority.Metrics) :
    List.lookup k (Priority.setMetric m n v) = if k = n then some v else List.lookup k m := by
  unfold Priority.setMetric
  cases hany : m.any (fun kv => kv.1 == n) with
  | true =>
    simp only [if_true]
    rw [lookup_map_update n k (fun _ => v) m]
    by_cases hk : k = n
    · subst hk
      obtain ⟨x, hx⟩ := (lookup_of_any k m).1 hany
      simp [hx]
    · simp only [hk, if_false]
      cases List.lookup k m <;> rfl
  | false =>
    simp only [Bool.false_eq_true, if_false]
    rw [lookup_snoc]
    by_cases hk : k = n
    · subst hk
      rw [(lookup_of_any k m).2 hany]
    · simp only [hk, if_false]
      cases List.lookup k m <;> rfl

theorem priority_metrics_other (g : List Priority.Entry) (l : List Process)
    (acc : List (String × Priority.Metrics)) (n : String) (h : ∀ x ∈ l, x.name ≠ n) :
    List.lookup n (l.foldl (Priority.recordProcess g) acc) = List.lookup n acc := by
  induction l generalizing acc with
  | nil => rfl
  | cons x l ih =>
    rw [List.foldl_cons, ih _ (fun y hy => h y (List.mem_cons_of_mem _ hy))]
    have hx : n ≠ x.name := fun heq => h x (List.mem_cons_self _ _) heq.symm
    unfold Priority.recordProcess
    simp only
    split
    · rfl
    · rw [priority_lookup_setMetric, if_neg hx]

theorem priority_metrics_lookup (g : List Priority.Entry) (l : List Process)
    (hnd : (l.map (fun p => p.name)).Nodup) (acc : List (String × Priority.Metrics))
    (p : Process) (hp : p ∈ l) (first : Priority.Entry) (rest : List Priority.Entry)
    (hseg : g.filter (fun item => item.name == p.name) = first :: rest) :
    List.lookup p.name (l.foldl (Priority.recordProcess g) acc)
      = some { arrivalTime := p.arrivalTime, burstTime := p.burstTime, priority := p.priority,
               completionTime := maxOf ((first :: rest).map (fun s => s.endTime.getD 0)),
               turnaroundTime :=
                 (maxOf ((first :: rest).map (fun s => s.endTime.getD 0)) : Int) - p.arrivalTime,
               waitingTime :=
                 (maxOf ((first :: rest).map (fun s => s.endTime.getD 0)) : Int) - p.arrivalTime
                   - p.burstTime,
               responseTime := (first.startTime : Int) - p.arrivalTime } := by
  induction l generalizing acc with
  | nil => simp at hp
  | cons x l ih =>
    simp only [List.map_cons, List.nodup_cons] at hnd
    rw [List.foldl_cons]
    rcases List.mem_cons.mp hp with rfl | hp'
    · rw [priority_metrics_other]
      · unfold Priority.recordProcess
        simp only [hseg]
        rw [priority_lookup_setMetric, if_pos rfl]
      · intro y hy heq
        exact hnd.1 (heq ▸ List.mem_map_of_mem (fun p => p.name) hy)
    · exact ih hnd.2 _ hp'

theorem maxOf_le (xs : List Nat) (b : Nat) (h : ∀ y ∈ xs, y ≤ b) : maxOf xs ≤ b := by
  induction xs with
  | nil => simp [maxOf]
  | cons x xs ih =>
    have h1 := ih (fun y hy => h y (List.mem_cons_of_mem _ hy))
    have h2 := h x (List.mem_cons_self _ _)
    simp only [maxOf, List.foldl_cons]
    rw [maxOf_foldl]
    omega

theorem le_maxOf (xs : List Nat) : ∀ y ∈ xs, y ≤ maxOf xs := by
  induction xs with
  | nil => intro y hy; simp at hy
  | cons x xs ih =>
    intro y hy
    simp only [maxOf, List.foldl_cons]
    rw [maxOf_foldl]
    rcases List.mem_cons.mp hy with rfl | hy
    · omega
    · have := ih y hy
      omega

theorem maxOf_sorted (xs : List Nat) (x : Nat) (hs : xs.Pairwise (fun a b => a ≤ b))
    (hl : xs.getLast? = some x) : maxOf xs = x := by
  rcases List.eq_nil_or_concat xs with rfl | ⟨l, y, hxs⟩
  · simp at hl
  · rw [List.concat_eq_append] at hxs
    subst hxs
    have hy : y = x := by simpa using hl
    subst hy
    have hle : ∀ z ∈ l, z ≤ y := fun z hz =>
      (List.pairwise_append.mp hs).2.2 z hz y (List.mem_singleton.mpr rfl)
    apply le_antisymm
    · apply maxOf_le
      intro z hz
      rcases List.mem_append.mp hz with hz | hz
      · exact hle z hz
      · rw [List.mem_singleton.mp hz]
    · exact le_maxOf _ y (by simp)

theorem rr_stats_lookup (processes : List Process)
    (hnd : (processes.map (fun p => p.name)).Nodup) (g : List RR.Entry)
    (hknown : ∀ e ∈ g, e.isIdle = false → ∃ p ∈ processes, p.name = e.name) :
    ∃ stats, RR.calculateProcessStats processes g = some stats ∧
      ∀ p ∈ processes, ∀ first rest,
        g.filter (fun e => !e.isIdle && e.name == p.name) = first :: rest →
        List.lookup p.name stats
          = some { arrivalTime := p.arrivalTime, burstTime := p.burstTime,
                   completionTime := maxOf ((first :: rest).map (fun e => e.endTime)),
                   turnaroundTime :=
                     (maxOf ((first :: rest).map (fun e => e.endTime)) : Int) - p.arrivalTime,
                   waitingTime :=
                     (maxOf ((first :: rest).map (fun e => e.endTime)) : Int) - p.arrivalTime
                       - p.burstTime,
                   responseTime := some ((first.startTime : Int) - p.arrivalTime) } := by
  have hnames : ∀ n ∈ uniqueNames ((g.filter (fun entry => !entry.isIdle)).map
      (fun entry => entry.name)), ∃ p ∈ processes, p.name = n := by
    intro n hn
    rw [mem_uniqueNames] at hn
    obtain ⟨e, he, hen⟩ := List.mem_map.mp hn
    have he' := List.mem_filter.mp he
    obtain ⟨p, hp, hpn⟩ := hknown e he'.1 (by simpa using he'.2)
    exact ⟨p, hp, hpn.trans hen⟩
  obtain ⟨st, hst⟩ := rr_initialStats_some processes _ hnames
  have hcalc : RR.calculateProcessStats processes g
      = some ((g.foldl RR.recordEntry st).map (fun kv => (kv.1, RR.finishStats kv.2))) := by
    unfold RR.calculateProcessStats
    simp only [hst]
  refine ⟨_, hcalc, ?_⟩
  intro p hp first rest hseg
  have hpin : p.name ∈ uniqueNames ((g.filter (fun entry => !entry.isIdle)).map
      (fun entry => entry.name)) := by
    rw [mem_uniqueNames]
    have hf : first ∈ g.filter (fun e => !e.isIdle && e.name == p.name) := by
      rw [hseg]; simp
    have hf' := List.mem_filter.mp hf
    simp only [Bool.and_eq_true, Bool.not_eq_true', beq_iff_eq] at hf'
    exact List.mem_map.mpr ⟨first, List.mem_filter.mpr ⟨hf'.1, by simp [hf'.2.1]⟩, hf'.2.2⟩
  obtain ⟨p', hp', hl⟩ := rr_initialStats_lookup processes _ st hst p.name hpin
  rw [find_of_nodup processes hnd p hp] at hp'
  have hpe : p' = p := by
    simp only [Option.some.injEq] at hp'
    exact hp'.symm
  subst hpe
  rw [lookup_map_val, rr_record_lookup, hl]
  simp only [Option.map_some']
  obtain ⟨h1, h2, h3, h4⟩ := rr_record_fold p'.name g
    { arrivalTime := p'.arrivalTime, burstTime := p'.burstTime, completionTime := 0,
      turnaroundTime := 0, waitingTime := 0, responseTime := none }
  rw [hseg] at h3 h4
  simp only [Nat.zero_max, List.head?_cons, Option.map_some'] at h3 h4
  unfold RR.finishStats
  rw [h1, h2, h3, h4]

/-- C18 (counterexample): three charts and process lists on which the formulas
fail as stated.  With a row named `X` that is no process of the list,
`calculateProcessStats` throws and `P1`, which has a row, gets no metrics.  With
two descriptors named `P`, `calculateMetrics` keeps one entry for `P`, computed
from the second descriptor (arrival 5): turnaround `1 - 5 = -4`, not the
`1 - 0` of the first.  And with the rows `[P:5-9, P:0-3]` the completion time is
9, the largest end time, while the last row ends at 3. -/
theorem metrics_formulas_fail :
    RR.calculateProcessStats [{ name := "P1", arrivalTime := 0, burstTime := 2 }]
      unknownRowChart = none ∧
    (List.lookup "P" (Priority.calculateMetrics sameNameTwice
        [Priority.closedRow "P" 0 1])).map
        (fun m => (m.completionTime, m.arrivalTime, m.turnaroundTime)) = some (1, 5, -4) ∧
    (List.lookup "P" (Priority.calculateMetrics [{ name := "P", arrivalTime := 0, burstTime := 7 }]
        [Priority.closedRow "P" 5 9, Priority.closedRow "P" 0 3])).map
        (fun m => m.completionTime) = some 9 := by
  decide

/-- C18 (amended): for every process list with unique names and every Gantt
chart, `calculateMetrics` gives each process with at least one row the
completion time that is the largest end time among its rows (an unset end time
counting as 0), turnaround = completion - arrival, waiting = turnaround - burst
and response = start of its first row - arrival; `calculateProcessStats` does
the same over the non-Idle rows whenever each of them names a process of the
list.  Where the end times of the rows are non-decreasing in chart order the
completion time is the end time of the last row. -/
theorem metrics_formulas (processes : List Process)
    (hnames : (processes.map (fun p => p.name)).Nodup) :
    (∀ (g : List Priority.Entry) (p : Process), p ∈ processes →
      ∀ first rest, g.filter (fun item => item.name == p.name) = first :: rest →
      ∃ m, List.lookup p.name (Priority.calculateMetrics processes g) = some m ∧
        m.completionTime = maxOf ((first :: rest).map (fun s => s.endTime.getD 0)) ∧
        (((first :: rest).map (fun s => s.endTime.getD 0)).Pairwise (fun a b => a ≤ b) →
          ((first :: rest).map (fun s => s.endTime.getD 0)).getLast? = some m.completionTime) ∧
        m.turnaroundTime = (m.completionTime : Int) - p.arrivalTime ∧
        m.waitingTime = m.turnaroundTime - p.burstTime ∧
        m.responseTime = (first.startTime : Int) - p.arrivalTime) ∧
    (∀ (g : List RR.Entry),
      (∀ e ∈ g, e.isIdle = false → ∃ p ∈ processes, p.name = e.name) →
      ∃ stats, RR.calculateProcessStats processes g = some stats ∧
        ∀ p ∈ processes, ∀ first rest,
          g.filter (fun e => !e.isIdle && e.name == p.name) = first :: rest →
          ∃ m, List.lookup p.name stats = some m ∧
            m.completionTime = maxOf ((first :: rest).map (fun e => e.endTime)) ∧
            (((first :: rest).map (fun e => e.endTime)).Pairwise (fun a b => a ≤ b) →
              ((first :: rest).map (fun e => e.endTime)).getLast? = some m.completionTime) ∧
            m.turnaroundTime = (m.completionTime : Int) - p.arrivalTime ∧
            m.waitingTime = m.turnaroundTime - p.burstTime ∧
            m.responseTime = some ((first.startTime : Int) - p.arrivalTime)) := by
  have hlast : ∀ xs : List Nat, xs ≠ [] → xs.Pairwise (fun a b => a ≤ b) →
      xs.getLast? = some (maxOf xs) := by
    intro xs hne hs
    cases hl : xs.getLast? with
    | none => exact absurd (List.getLast?_eq_none_iff.mp hl) hne
    | some x => rw [maxOf_sorted xs x hs hl]
  constructor
  · intro g p hp first rest hseg
    refine ⟨_, priority_metrics_lookup g processes hnames [] p hp first rest hseg,
      rfl, ?_, rfl, rfl, rfl⟩
    intro hs
    exact hlast _ (by simp) hs
  · intro g hknown
    obtain ⟨stats, hstats, hl⟩ := rr_stats_lookup processes hnames g hknown
    refine ⟨stats, hstats, ?_⟩
    intro p hp first rest hseg
    refine ⟨_, hl p hp first rest hseg, rfl, ?_, rfl, rfl, rfl⟩
    intro hs
    exact hlast _ (by simp) hs

/-- Witness for `metrics_formulas`: the Round Robin example and its chart. -/
theorem metrics_formulas_witness :
    (rrExample.map (fun p => p.name)).Nodup ∧
    ∃ stats, RR.calculateProcessStats rrExample (RR.chart 2 6 rrExample) = some stats :=
  ⟨by decide,
    let ⟨stats, h, _⟩ := (metrics_formulas rrExample (by decide)).2 (RR.chart 2 6 rrExample)
      (by decide)
    ⟨stats, h⟩⟩

/-! ## Rows that follow one another -/

theorem noRepeat_of_nodup {names : List String} (h : names.Nodup) : NoRepeat names :=
  List.Pairwise.chain' h

theorem chart_names_eq (g : List TimedProcess) :
    g.map (fun e => e.name) = (g.map TimedProcess.toProcess).map (fun c => c.name) := by
  rw [List.map_map]; rfl

/-- C21 (counterexample): Round Robin with quantum 2 on one process of burst
time 4 finishes with the two rows `P1:0-2` and `P1:2-4`: the same subject, the
second starting where the first ends. -/
theorem rr_back_to_back_quanta_not_merged :
    RR.finished (RR.steps 2 4 (RR.startSimulation twoQuanta)) = true ∧
    (RR.chart 2 4 twoQuanta).map RR.Entry.span = [("P1", 0, 2), ("P1", 2, 4)] := by
  decide

/-! ## The pending list of SJF -/

/-- C24: normalisation by arrival.  For every input list the pending list that
`SJF.startSimulation` builds is a permutation of the input, in non-decreasing
arrival time, in which two processes of equal arrival time stand in the order
they have in the input; it is built from a copy, the input being a value that
the function only reads. -/
theorem sjf_start_sorted_stable (processes : List Process) :
    (SJF.startSimulation processes).pendingProcesses.Perm processes ∧
    (SJF.startSimulation processes).pendingProcesses.Pairwise
      (fun a b => a.arrivalTime ≤ b.arrivalTime) ∧
    ∀ a b : Process, a.arrivalTime = b.arrivalTime → [a, b].Sublist processes →
      [a, b].Sublist (SJF.startSimulation processes).pendingProcesses := by
  refine ⟨sjf_sorted_perm processes, sjf_sorted_pairwise processes, ?_⟩
  intro a b hab hsl
  exact List.pair_sublist_insertionSort (le_of_eq hab) hsl

/-! ## The metrics tables of FCFS and SJF -/

theorem foldl_add_sum {α : Type} (f : α → Int) (g : List α) (a : Int) :
    g.foldl (fun sum p => sum + f p) a = a + (g.map f).sum := by
  induction g generalizing a with
  | nil => simp
  | cons x g ih =>
    rw [List.foldl_cons, ih, List.map_cons, List.sum_cons]
    omega

theorem table_sums (g : List TimedProcess)
    (h : ∀ e ∈ g, e.endTime = e.startTime + e.burstTime) :
    tableTurnaroundSum g - tableWaitingSum g = ((g.map (fun e => e.burstTime)).sum : Nat) := by
  unfold tableTurnaroundSum tableWaitingSum
  rw [foldl_add_sum, foldl_add_sum]
  induction g with
  | nil => simp
  | cons x g ih =>
    have hx := h x (List.mem_cons_self _ _)
    have ih' := ih (fun e he => h e (List.mem_cons_of_mem _ he))
    have hx' : (x.endTime : Int) = x.startTime + x.burstTime := by exact_mod_cast hx
    simp only [List.map_cons, List.sum_cons, TimedProcess.turnaroundTime,
      TimedProcess.waitingTime, Nat.cast_add] at ih' ⊢
    omega

theorem chart_burst_sum (g : List TimedProcess) (completed processes : List Process)
    (hc : g.map TimedProcess.toProcess = completed) (hp : completed.Perm processes) :
    (g.map (fun e => e.burstTime)).sum = (processes.map (fun p => p.burstTime)).sum := by
  have : g.map (fun e => e.burstTime)
      = (g.map TimedProcess.toProcess).map (fun p => p.burstTime) := by
    rw [List.map_map]; rfl
  rw [this, hc]
  exact (hp.map _).sum_eq

/-- C26: the waiting-time shortcut of FCFS and SJF.  For every input with unique
names and positive burst times, every row of the FCFS and of the SJF chart has
`startTime - arrivalTime = (endTime - arrivalTime) - burstTime`; and once the
run is finished the total turnaround time less the total waiting time of the
table is the sum of the burst times of the input. -/
theorem waiting_time_shortcut (processes : List Process)
    (hnames : (processes.map (fun p => p.name)).Nodup)
    (hburst : ∀ p ∈ processes, 0 < p.burstTime) (n : Nat) :
    (∀ e ∈ FCFS.chart n processes, e.waitingTime = e.turnaroundTime - e.burstTime) ∧
    (∀ e ∈ SJF.chart n processes, e.waitingTime = e.turnaroundTime - e.burstTime) ∧
    (processes.length ≤ n →
      tableTurnaroundSum (FCFS.chart n processes) - tableWaitingSum (FCFS.chart n processes)
        = ((processes.map (fun p => p.burstTime)).sum : Nat)) ∧
    (2 * processes.length + 1 ≤ n →
      tableTurnaroundSum (SJF.chart n processes) - tableWaitingSum (SJF.chart n processes)
        = ((processes.map (fun p => p.burstTime)).sum : Nat)) := by
  have hf := fcfs_steps_inv hnames n _ (fcfs_inv_init processes)
  have hs := sjf_steps_inv hnames hburst n _ (sjf_inv_init processes)
  refine ⟨?_, ?_, ?_, ?_⟩
  · intro e he
    have := (hf.rows e he).1
    simp only [TimedProcess.waitingTime, TimedProcess.turnaroundTime, this]
    push_cast
    omega
  · intro e he
    have := (hs.rows e he).1
    simp only [TimedProcess.waitingTime, TimedProcess.turnaroundTime, this]
    push_cast
    omega
  · intro hn
    have hlen := fcfs_steps_pending n (FCFS.startSimulation processes)
    have hp : (FCFS.steps n (FCFS.startSimulation processes)).pendingProcesses = [] := by
      apply List.eq_nil_of_length_eq_zero
      simp only [FCFS.startSimulation] at hlen ⊢
      omega
    unfold FCFS.chart
    rw [table_sums _ (fun e he => (hf.rows e he).1),
      chart_burst_sum _ _ processes hf.chart (fcfs_finished_perm hnames _ hf hp)]
  · intro hn
    have hfin := sjf_terminates hnames hburst n _ (sjf_inv_init processes)
      (le_trans (sjf_measure_init processes) hn)
    unfold SJF.chart
    rw [table_sums _ (fun e he => (hs.rows e he).1),
      chart_burst_sum _ _ processes hs.chart (sjf_finished_perm hnames _ hs hfin)]

/-- Witness for `waiting_time_shortcut`: the FCFS example after three steps. -/
theorem waiting_time_shortcut_witness :
    (fcfsExample.map (fun p => p.name)).Nodup ∧
    (∀ p ∈ fcfsExample, 0 < p.burstTime) ∧
    tableTurnaroundSum (FCFS.chart 3 fcfsExample) - tableWaitingSum (FCFS.chart 3 fcfsExample)
      = ((fcfsExample.map (fun p => p.burstTime)).sum : Nat) :=
  ⟨by decide, by decide,
    (waiting_time_shortcut fcfsExample (by decide) (by decide) 3).2.2.1 (by decide)⟩

/-! ## Inputs with a repeated name -/

theorem priority_indexed_ids (i : Nat) (processes : List Process) :
    ∀ a ∈ Priority.indexed i processes, i ≤ a.id.2 ∧ a.id.1 = a.name := by
  induction processes generalizing i with
  | nil => intro a ha; simp [Priority.indexed] at ha
  | cons p ps ih =>
    intro a ha
    simp only [Priority.indexed, List.mem_cons] at ha
    rcases ha with rfl | ha
    · exact ⟨le_refl _, rfl⟩
    · have := ih (i + 1) a ha
      exact ⟨by omega, this.2⟩

theorem priority_indexed_nodup (i : Nat) (processes : List Process) :
    ((Priority.indexed i processes).map (fun a => a.id)).Nodup := by
  induction processes generalizing i with
  | nil => simp [Priority.indexed]
  | cons p ps ih =>
    simp only [Priority.indexed, List.map_cons, List.nodup_cons]
    refine ⟨?_, ih (i + 1)⟩
    intro hmem
    obtain ⟨a, ha, hid⟩ := List.mem_map.mp hmem
    have := (priority_indexed_ids (i + 1) ps a ha).1
    rw [hid] at this
    simp [Priority.withRemaining] at this

theorem priority_indexed_names (i : Nat) (processes : List Process) :
    (Priority.indexed i processes).map (fun a => a.name) = processes.map (fun p => p.name) := by
  induction processes generalizing i with
  | nil => rfl
  | cons p ps ih =>
    simp only [Priority.indexed, List.map_cons, ih (i + 1)]
    rfl

/-- C23 (counterexample): on `sameNameTwice`, two descriptors named `P`, the
run does not fail: the policy steps and yields a timeline.  FCFS finishes with
`[P:0-1]`, SJF with `[P:0-1, P:5-7]`, Priority with `[P:0-7]`. -/
theorem duplicate_names_yield_timelines :
    (sameNameTwice.map (fun p => p.name)) = ["P", "P"] ∧
    (FCFS.chart 1 sameNameTwice).map TimedProcess.span = [("P", 0, 1)] ∧
    (SJF.chart 3 sameNameTwice).map TimedProcess.span = [("P", 0, 1), ("P", 5, 7)] ∧
    (Priority.chart 9 sameNameTwice).map Priority.Entry.span = [("P", 0, some 7)] := by
  decide

/-- C23 (amended): no policy checks names.  For every input list, with or
without a repeated name, `startSimulation` returns a state in which every
descriptor is pending: as given for FCFS, each with its remaining time for Round
Robin, in arrival order for SJF, and each under an id of its own for Priority;
and when the list is not empty that state is not a finished one, so the
simulation steps follow, the first FCFS step emitting a row. -/
theorem duplicate_names_accepted (processes : List Process) :
    (FCFS.startSimulation processes).pendingProcesses = processes ∧
    (SJF.startSimulation processes).pendingProcesses.Perm processes ∧
    (RR.startSimulation processes).pendingProcesses = processes.map RR.withRemaining ∧
    (Priority.startSimulation processes).pendingProcesses.map (fun a => a.name)
      = processes.map (fun p => p.name) ∧
    ((Priority.startSimulation processes).pendingProcesses.map (fun a => a.id)).Nodup ∧
    (processes ≠ [] →
      FCFS.finished (FCFS.startSimulation processes) = false ∧
      SJF.finished (SJF.startSimulation processes) = false ∧
      RR.finished (RR.startSimulation processes) = false ∧
      Priority.finished (Priority.startSimulation processes) = false ∧
      FCFS.chart 1 processes ≠ []) := by
  refine ⟨rfl, sjf_sorted_perm processes, rfl, priority_indexed_names 0 processes,
    priority_indexed_nodup 0 processes, ?_⟩
  intro hne
  obtain ⟨p, ps, rfl⟩ := List.exists_cons_of_ne_nil hne
  refine ⟨rfl, ?_, rfl, rfl, ?_⟩
  · have hlen : (SJF.startSimulation (p :: ps)).pendingProcesses.length = (p :: ps).length :=
      (sjf_sorted_perm (p :: ps)).length_eq
    cases hs : (SJF.startSimulation (p :: ps)).pendingProcesses with
    | nil => rw [hs] at hlen; simp at hlen
    | cons x xs => simp [SJF.finished, hs]
  · simp [FCFS.chart, FCFS.steps, FCFS.simulationStep, FCFS.startSimulation]

/-! ## FCFS as a sort and a fold -/

theorem eq_of_same_pair_order {α : Type} (l1 : List α) :
    ∀ l2 : List α, l1.Nodup → l1.Perm l2 →
      (∀ a b, [a, b].Sublist l1 → [a, b].Sublist l2) → l1 = l2 := by
  induction l1 with
  | nil =>
    intro l2 _ hperm _
    exact (List.nil_perm.mp hperm).symm
  | cons x t1 ih =>
    intro l2 hnd hperm hord
    have hnd2 : l2.Nodup := (List.Perm.nodup_iff hperm).mp hnd
    cases l2 with
    | nil => exact absurd (List.perm_nil.mp hperm) (by simp)
    | cons y t2 =>
      have hxy : y = x := by
        by_contra hne
        have hy1 : y ∈ t1 := by
          have : y ∈ x :: t1 := hperm.mem_iff.mpr (List.mem_cons_self _ _)
          rcases List.mem_cons.mp this with h | h
          · exact absurd h hne
          · exact h
        have hx2 : x ∈ t2 := by
          have : x ∈ y :: t2 := hperm.mem_iff.mp (List.mem_cons_self _ _)
          rcases List.mem_cons.mp this with h | h
          · exact absurd h.symm hne
          · exact h
        have h1 : [x, y].Sublist (y :: t2) :=
          hord x y (List.Sublist.cons₂ x (List.singleton_sublist.mpr hy1))
        have h2 : [y, x].Sublist (y :: t2) :=
          List.Sublist.cons₂ y (List.singleton_sublist.mpr hx2)
        exact pair_sublist_antisymm hnd2 h1 h2
      subst hxy
      have hx1 : y ∉ t1 := (List.nodup_cons.mp hnd).1
      congr 1
      apply ih t2 (List.nodup_cons.mp hnd).2 (List.Perm.cons_inv hperm)
      intro a b hab
      have h := hord a b (List.Sublist.cons y hab)
      cases h with
      | cons _ h' => exact h'
      | cons₂ _ h' => exact absurd (hab.subset (List.mem_cons_self _ _)) hx1

theorem stable_pair_order {processes l : List Process} (hnd : processes.Nodup)
    (hperm : l.Perm processes)
    (hs : l.Pairwise (fun a b => a.arrivalTime ≤ b.arrivalTime))
    (hst : ∀ a b : Process, a.arrivalTime = b.arrivalTime → [a, b].Sublist processes →
      [a, b].Sublist l) (a b : Process) :
    [a, b].Sublist l ↔
      a ∈ processes ∧ b ∈ processes ∧
        (a.arrivalTime < b.arrivalTime ∨
          (a.arrivalTime = b.arrivalTime ∧ [a, b].Sublist processes)) := by
  have hndl : l.Nodup := (List.Perm.nodup_iff hperm).mpr hnd
  constructor
  · intro hab
    have ha : a ∈ processes := hperm.mem_iff.mp (hab.subset (by simp))
    have hb : b ∈ processes := hperm.mem_iff.mp (hab.subset (by simp))
    have hle : a.arrivalTime ≤ b.arrivalTime := by
      have := List.Pairwise.sublist hab hs
      simpa using this
    have hne : a ≠ b := by
      intro heq
      have := List.Nodup.sublist hab hndl
      simp [heq] at this
    refine ⟨ha, hb, ?_⟩
    rcases Nat.lt_or_ge a.arrivalTime b.arrivalTime with hlt | hge
    · exact Or.inl hlt
    · right
      have heq : a.arrivalTime = b.arrivalTime := Nat.le_antisymm hle hge
      refine ⟨heq, ?_⟩
      rcases pair_sublist_total ha hb hne with h | h
      · exact h
      · exact absurd (hst b a heq.symm h) (fun h' => pair_sublist_antisymm hndl hab h')
  · rintro ⟨ha, hb, h⟩
    rcases h with hlt | ⟨heq, hsub⟩
    · have hne : a ≠ b := by intro heq; rw [heq] at hlt; exact Nat.lt_irrefl _ hlt
      rcases pair_sublist_total (hperm.mem_iff.mpr ha) (hperm.mem_iff.mpr hb) hne with h | h
      · exact h
      · have := List.Pairwise.sublist h hs
        simp only [List.pairwise_cons, List.mem_singleton, forall_eq] at this
        omega
    · exact hst a b heq hsub

theorem assignTimes_snoc (t : Nat) (l : List Process) (p : Process) :
    assignTimes t (l ++ [p])
      = assignTimes t l ++
        [withTiming p (max (lastEnd t l) p.arrivalTime)
          (max (lastEnd t l) p.arrivalTime + p.burstTime)] ∧
    lastEnd t (l ++ [p]) = max (lastEnd t l) p.arrivalTime + p.burstTime := by
  induction l generalizing t with
  | nil => exact ⟨rfl, rfl⟩
  | cons x l ih =>
    have := ih (max t x.arrivalTime + x.burstTime)
    constructor
    · show withTiming x _ _ :: assignTimes _ (l ++ [p]) = _
      rw [this.1]
      rfl
    · show lastEnd _ (l ++ [p]) = _
      rw [this.2]
      rfl

theorem fcfs_step_assign (s : FCFS.State)
    (h : s.ganttChart = assignTimes 0 s.completedProcesses ∧
      s.currentTime = lastEnd 0 s.completedProcesses) :
    (FCFS.simulationStep s).ganttChart = assignTimes 0 (FCFS.simulationStep s).completedProcesses ∧
    (FCFS.simulationStep s).currentTime = lastEnd 0 (FCFS.simulationStep s).completedProcesses := by
  unfold FCFS.simulationStep
  cases hp : s.pendingProcesses with
  | nil => exact h
  | cons first rest =>
    simp only
    have := assignTimes_snoc 0 s.completedProcesses (FCFS.findMin first rest)
    rw [this.1, this.2, ← h.1, ← h.2]
    exact ⟨rfl, rfl⟩

theorem fcfs_steps_assign (n : Nat) (s : FCFS.State)
    (h : s.ganttChart = assignTimes 0 s.completedProcesses ∧
      s.currentTime = lastEnd 0 s.completedProcesses) :
    (FCFS.steps n s).ganttChart = assignTimes 0 (FCFS.steps n s).completedProcesses := by
  induction n generalizing s with
  | zero => exact h.1
  | succ n ih => exact ih _ (fcfs_step_assign s h)

/-- C27: FCFS equals sort-then-fold.  For every input with unique names, once
every process has been scheduled (after as many steps as there are processes,
or more) the chart of the FCFS scan loop is the chart obtained by sorting the
input stably by arrival time and assigning `startTime = max (previous endTime)
arrivalTime`, `endTime = startTime + burstTime` from left to right. -/
theorem fcfs_eq_sort_then_fold (processes : List Process)
    (hnames : (processes.map (fun p => p.name)).Nodup) (n : Nat)
    (hn : processes.length ≤ n) :
    FCFS.chart n processes = sortThenFold processes := by
  have hinv := fcfs_steps_inv hnames n _ (fcfs_inv_init processes)
  have hlen := fcfs_steps_pending n (FCFS.startSimulation processes)
  have hp : (FCFS.steps n (FCFS.startSimulation processes)).pendingProcesses = [] := by
    apply List.eq_nil_of_length_eq_zero
    simp only [FCFS.startSimulation] at hlen ⊢
    omega
  have hperm := fcfs_finished_perm hnames _ hinv hp
  have hassign := fcfs_steps_assign n (FCFS.startSimulation processes) ⟨rfl, rfl⟩
  unfold FCFS.chart sortThenFold
  rw [hassign]
  congr 1
  have hnd : processes.Nodup := List.Nodup.of_map _ hnames
  have hsorted : (processes.insertionSort (fun a b => a.arrivalTime ≤ b.arrivalTime)).Perm
      processes := List.perm_insertionSort _ _
  have hc1 := stable_pair_order hnd hperm hinv.sorted
    (fun a b hab hsl => hinv.stable a b hab hsl (hperm.mem_iff.mpr (hsl.subset (by simp))))
  have hc2 := stable_pair_order hnd hsorted (sjf_sorted_pairwise processes)
    (fun a b hab hsl => List.pair_sublist_insertionSort (le_of_eq hab) hsl)
  apply eq_of_same_pair_order _ _ ((List.Perm.nodup_iff hperm).mpr hnd)
    (hperm.trans hsorted.symm)
  intro a b hab
  exact (hc2 a b).mpr ((hc1 a b).mp hab)

/-- Witness for `fcfs_eq_sort_then_fold`: the FCFS example after three steps. -/
theorem fcfs_eq_sort_then_fold_witness :
    (fcfsExample.map (fun p => p.name)).Nodup ∧ fcfsExample.length ≤ 3 ∧
    FCFS.chart 3 fcfsExample = sortThenFold fcfsExample :=
  ⟨by decide, by decide, fcfs_eq_sort_then_fold fcfsExample (by decide) 3 (by decide)⟩

/-! ## SJF when every process arrives at 0 -/

theorem sjf_tick_cases {processes : List Process}
    (hburst : ∀ p ∈ processes, 0 < p.burstTime) (s : SJF.State)
    (h : SJF.Inv processes s) (P : SJF.State → Prop)
    (hdone : (SJF.afterArrival s).arrivedQueue = [] →
      (SJF.afterArrival s).pendingProcesses = [] → P (SJF.afterArrival s))
    (hjump : ∀ a, (SJF.afterArrival s).arrivedQueue = [] →
      (∃ x ∈ (SJF.afterArrival s).pendingProcesses, x.arrivalTime = a) → s.currentTime < a →
      P { SJF.afterArrival s with currentTime := a, animatingTimeJump := false })
    (hdisp : ∀ first rest, (SJF.afterArrival s).arrivedQueue = first :: rest →
      SJF.findShortestJob first rest ∈ processes →
      P { SJF.afterArrival s with
          ganttChart := s.ganttChart ++ [withTiming (SJF.findShortestJob first rest)
            s.currentTime (s.currentTime + (SJF.findShortestJob first rest).burstTime)],
          completedProcesses := s.completedProcesses ++ [SJF.findShortestJob first rest],
          arrivedQueue := (SJF.afterArrival s).arrivedQueue.filter
            (fun p => p.name != (SJF.findShortestJob first rest).name),
          currentProcess := none,
          currentTime := s.currentTime + (SJF.findShortestJob first rest).burstTime,
          animatingTimeJump := false }) :
    P (SJF.tick s) := by
  obtain ⟨h1, hlater⟩ := sjf_inv_arrival s h
  cases hq : (SJF.afterArrival s).arrivedQueue with
  | nil =>
    cases hp : (SJF.afterArrival s).pendingProcesses with
    | nil =>
      rw [sjf_tick_done s h.animating hq hp]
      exact hdone hq hp
    | cons p ps =>
      rw [sjf_tick_jump s h.animating hq p ps hp]
      obtain ⟨x, hx, hxe⟩ := sjf_min_arrival p ps
      rw [← hp] at hx
      have hlt := hlater x hx
      rw [sjf_timeJump_pos _ _ (by omega)]
      exact hjump _ hq ⟨x, hx, hxe⟩ (by omega)
  | cons first rest =>
    rw [sjf_tick_dispatch s h.animating h.current first rest hq]
    have hmem : SJF.findShortestJob first rest ∈ (SJF.afterArrival s).arrivedQueue := by
      rw [hq]
      exact firstMinBy_mem (fun p : Process => p.burstTime) _ _
    have hmemF : SJF.findShortestJob first rest ∈ (SJF.sortedByArrival processes).filter
        (fun p => notAmong (s.completedProcesses.map (fun c => c.name)) p.name) := by
      have hqq := h1.queue
      simp only [SJF.afterArrival] at hqq hmem
      rw [← hqq]
      exact List.mem_append.mpr (Or.inl hmem)
    have hmproc : SJF.findShortestJob first rest ∈ processes :=
      (sjf_sorted_perm processes).mem_iff.mp (List.mem_filter.mp hmemF).1
    have hpos := hburst _ hmproc
    rw [sjf_timeJump_pos _ _ (by omega)]
    exact hdisp first rest hq hmproc
theorem sjf_byBurst_tick {processes : List Process}
    (hnd : (processes.map (fun p => p.name)).Nodup)
    (hburst : ∀ p ∈ processes, 0 < p.burstTime)
    (hzero : ∀ p ∈ processes, p.arrivalTime = 0) (s : SJF.State)
    (h : SJF.Inv processes s) (hb : SJF.ByBurst processes s) :
    SJF.ByBurst processes (SJF.tick s) := by
  obtain ⟨h1, hlater⟩ := sjf_inv_arrival s h
  have hF := h1.queue
  have hst : (SJF.afterArrival s).completedProcesses = s.completedProcesses := rfl
  rw [hst] at hF
  have hsame : (SJF.afterArrival s).arrivedQueue ++ (SJF.afterArrival s).pendingProcesses
      = s.arrivedQueue ++ s.pendingProcesses := hF.trans h.queue.symm
  have hFmem : ∀ x ∈ (SJF.afterArrival s).arrivedQueue ++ (SJF.afterArrival s).pendingProcesses,
      x ∈ processes := by
    intro x hx
    rw [hF] at hx
    exact (sjf_sorted_perm processes).mem_iff.mp (List.mem_filter.mp hx).1
  have hpend : (SJF.afterArrival s).pendingProcesses = [] := by
    apply List.eq_nil_iff_forall_not_mem.mpr
    intro x hx
    have h0 := hzero x (hFmem x (List.mem_append.mpr (Or.inr hx)))
    have := hlater x hx
    omega
  apply sjf_tick_cases hburst s h
  · intro _ _
    refine ⟨hb.sorted, ?_, hb.stable, hb.times⟩
    intro c hc x hx
    rw [hsame] at hx
    exact hb.low c hc x hx
  · intro a _ hex hlt
    obtain ⟨x, hx, _⟩ := hex
    rw [hpend] at hx
    simp at hx
  · intro first rest hq hmproc
    have hm : SJF.findShortestJob first rest
        = firstMinBy (fun p => p.burstTime) first rest := rfl
    obtain ⟨l1, l2, hsplit, hbefore, hafter⟩ :=
      firstMinBy_split (fun p : Process => p.burstTime) first rest
    rw [← hm] at hsplit hbefore hafter
    have hmem : SJF.findShortestJob first rest ∈ (SJF.afterArrival s).arrivedQueue := by
      rw [hq, hsplit]; simp
    have hmq : SJF.findShortestJob first rest ∈ s.arrivedQueue ++ s.pendingProcesses := by
      rw [← hsame]
      exact List.mem_append.mpr (Or.inl hmem)
    have hqall : first :: rest = (SJF.sortedByArrival processes).filter
        (fun p => notAmong (s.completedProcesses.map (fun c => c.name)) p.name) := by
      rw [← hF, hpend, List.append_nil, hq]
    have hSnd : (SJF.sortedByArrival processes).Nodup :=
      (sjf_sorted_perm processes).nodup_iff.mpr (List.Nodup.of_map _ hnd)
    refine ⟨?_, ?_, ?_, ?_⟩
    · simp only
      rw [List.pairwise_append]
      refine ⟨hb.sorted, List.pairwise_singleton _ _, ?_⟩
      intro c hc y hy
      rw [List.mem_singleton] at hy
      subst hy
      exact hb.low c hc _ hmq
    · intro c hc x hx
      simp only at hc hx
      have hxq : x ∈ first :: rest := by
        rw [hpend, List.append_nil, hq] at hx
        exact (List.mem_filter.mp hx).1
      rcases List.mem_append.mp hc with hc | hc
      · apply hb.low c hc x
        rw [← hsame, hpend, List.append_nil, hq]
        exact hxq
      · rw [List.mem_singleton] at hc
        subst hc
        exact firstMinBy_le (fun p : Process => p.burstTime) first rest x hxq
    · intro a b hab hsl hbc
      simp only at hbc ⊢
      rcases List.mem_append.mp hbc with hbc | hbc
      · exact (hb.stable a b hab hsl hbc).trans (List.sublist_append_left _ _)
      · rw [List.mem_singleton] at hbc
        subst hbc
        have ha : a ∈ processes := hsl.subset (by simp)
        have hne : a ≠ SJF.findShortestJob first rest := by
          intro heq
          have := List.Nodup.sublist hsl (List.Nodup.of_map _ hnd)
          simp [heq] at this
        have hac : a ∈ s.completedProcesses := by
          by_contra hnot
          have hanot : notAmong (s.completedProcesses.map (fun c => c.name)) a.name = true := by
            rw [notAmong_iff]
            intro hin
            obtain ⟨c, hc, hcn⟩ := List.mem_map.mp hin
            have := name_injective (fun p : Process => p.name) hnd (h.members c hc) ha hcn
            exact hnot (this ▸ hc)
          have hmnot : notAmong (s.completedProcesses.map (fun c => c.name))
              (SJF.findShortestJob first rest).name = true := by
            have : SJF.findShortestJob first rest ∈ first :: rest := by rw [hsplit]; simp
            rw [hqall] at this
            exact (List.mem_filter.mp this).2
          have hsorted : [a, SJF.findShortestJob first rest].Sublist
              (SJF.sortedByArrival processes) :=
            List.pair_sublist_insertionSort
              (by show a.arrivalTime ≤ _; rw [hzero a ha]; exact Nat.zero_le _) hsl
          have hfil := hsorted.filter
            (fun p => notAmong (s.completedProcesses.map (fun c => c.name)) p.name)
          rw [← hqall, hsplit] at hfil
          simp only [List.filter_cons, hanot, hmnot, if_true, List.filter_nil] at hfil
          have hnd2 : (l1 ++ SJF.findShortestJob first rest :: l2).Nodup := by
            rw [← hsplit, hqall]
            exact List.Nodup.sublist (List.filter_sublist _) hSnd
          have hal1 := pair_sublist_split hnd2 hne hfil
          have := hbefore a hal1
          omega
        exact ((List.singleton_sublist.mpr hac).append (List.Sublist.refl
          [SJF.findShortestJob first rest]))
    · simp only
      have hsn := assignTimes_snoc 0 s.completedProcesses (SJF.findShortestJob first rest)
      have h0 := hzero _ hmproc
      rw [hsn.1, hsn.2, ← hb.times.1, ← hb.times.2, h0, Nat.max_eq_left (Nat.zero_le _)]
      exact ⟨rfl, rfl⟩
theorem sjf_steps_byBurst {processes : List Process}
    (hnd : (processes.map (fun p => p.name)).Nodup)
    (hburst : ∀ p ∈ processes, 0 < p.burstTime)
    (hzero : ∀ p ∈ processes, p.arrivalTime = 0) (n : Nat) (s : SJF.State)
    (h : SJF.Inv processes s) (hb : SJF.ByBurst processes s) :
    SJF.ByBurst processes (SJF.steps n s) := by
  induction n generalizing s with
  | zero => exact hb
  | succ n ih =>
    exact ih _ (sjf_inv_tick hnd hburst s h) (sjf_byBurst_tick hnd hburst hzero s h hb)

theorem covers_assignTimes (l : List Process) (h0 : ∀ p ∈ l, p.arrivalTime = 0) (t : Nat) :
    Covers t ((assignTimes t l).map TimedProcess.interval)
      (t + (l.map (fun p => p.burstTime)).sum) := by
  induction l generalizing t with
  | nil => simp [assignTimes, Covers]
  | cons p ps ih =>
    have hp := h0 p (List.mem_cons_self _ _)
    have := ih (fun x hx => h0 x (List.mem_cons_of_mem _ hx)) (t + p.burstTime)
    simp only [assignTimes, hp, Nat.max_eq_left (Nat.zero_le _), List.map_cons,
      TimedProcess.interval, withTiming, Covers, List.sum_cons, true_and]
    refine ⟨Nat.le_add_right _ _, ?_⟩
    rw [← Nat.add_assoc]
    exact this

/-- C30: SJF with simultaneous arrival.  For every input with unique names and
positive burst times in which every process arrives at 0, the finished SJF
chart lists the processes of the input, each once, in non-decreasing burst
time, two of equal burst time in the order of the input; its rows cover
`[0, sum of the burst times)` one after the other: the first starts at 0, each
next one starts where the one before it ends, and the last ends at the sum of
all burst times. -/
theorem sjf_simultaneous_arrival (processes : List Process)
    (hnames : (processes.map (fun p => p.name)).Nodup)
    (hburst : ∀ p ∈ processes, 0 < p.burstTime)
    (hzero : ∀ p ∈ processes, p.arrivalTime = 0) (n : Nat)
    (hn : 2 * processes.length + 1 ≤ n) :
    SJF.finished (SJF.steps n (SJF.startSimulation processes)) = true ∧
    ((SJF.chart n processes).map TimedProcess.toProcess).Perm processes ∧
    ((SJF.chart n processes).map TimedProcess.toProcess).Pairwise
      (fun a b => a.burstTime ≤ b.burstTime) ∧
    (∀ a b : Process, a.burstTime = b.burstTime → [a, b].Sublist processes →
      [a, b].Sublist ((SJF.chart n processes).map TimedProcess.toProcess)) ∧
    Covers 0 ((SJF.chart n processes).map TimedProcess.interval)
      (processes.map (fun p => p.burstTime)).sum := by
  have h := sjf_steps_inv hnames hburst n _ (sjf_inv_init processes)
  have hb := sjf_steps_byBurst hnames hburst hzero n _ (sjf_inv_init processes)
    ⟨List.Pairwise.nil, fun c hc => by simp [SJF.startSimulation] at hc,
      fun a b _ _ hbc => by simp [SJF.startSimulation] at hbc, rfl, rfl⟩
  have hfin := sjf_terminates hnames hburst n _ (sjf_inv_init processes)
    (le_trans (sjf_measure_init processes) hn)
  have hperm := sjf_finished_perm hnames _ h hfin
  unfold SJF.chart
  rw [h.chart]
  refine ⟨hfin, hperm, hb.sorted, ?_, ?_⟩
  · intro a b hab hsl
    exact hb.stable a b hab hsl (hperm.mem_iff.mpr (hsl.subset (by simp)))
  · rw [hb.times.1]
    have := covers_assignTimes _
      (fun p hp => hzero p (hperm.mem_iff.mp hp)) 0
    rw [Nat.zero_add, (hperm.map (fun p => p.burstTime)).sum_eq] at this
    exact this

/-- Witness for `sjf_simultaneous_arrival`: three processes arriving at 0 with
burst times 3, 1 and 3. -/
theorem sjf_simultaneous_arrival_witness :
    (simultaneousArrival.map (fun p => p.name)).Nodup ∧
    (∀ p ∈ simultaneousArrival, 0 < p.burstTime) ∧
    (∀ p ∈ simultaneousArrival, p.arrivalTime = 0) ∧
    2 * simultaneousArrival.length + 1 ≤ 7 ∧
    Covers 0 ((SJF.chart 7 simultaneousArrival).map TimedProcess.interval)
      (simultaneousArrival.map (fun p => p.burstTime)).sum :=
  ⟨by decide, by decide, by decide, by decide,
    (sjf_simultaneous_arrival simultaneousArrival (by decide) (by decide) (by decide) 7
      (by decide)).2.2.2.2⟩

/-! ## Priority, one step after another: the shape of a step -/

theorem priority_admitted_eq (s : Priority.State) :
    (if (s.pendingProcesses.filter (fun p => p.arrivalTime ≤ s.currentTime)).length > 0 then
      { s with
        pendingProcesses := s.pendingProcesses.filter (fun p => p.arrivalTime > s.currentTime),
        activeProcesses :=
          if ((s.pendingProcesses.filter (fun p => p.arrivalTime ≤ s.currentTime)).filter
              (fun p => !(s.activeProcesses.map (fun p => p.id)).contains p.id)).length > 0 then
            s.activeProcesses ++
              (s.pendingProcesses.filter (fun p => p.arrivalTime ≤ s.currentTime)).filter
                (fun p => !(s.activeProcesses.map (fun p => p.id)).contains p.id)
          else s.activeProcesses }
    else s) = Priority.afterAdmission s := by
  unfold Priority.afterAdmission
  split
  · split
    · rfl
    · rename_i hlen
      have hnil : (s.pendingProcesses.filter (fun p => p.arrivalTime ≤ s.currentTime)).filter
          (fun p => !(s.activeProcesses.map (fun p => p.id)).contains p.id) = [] :=
        List.eq_nil_of_length_eq_zero (by omega)
      rw [hnil, List.append_nil]
  · rename_i hlen
    have hnil : s.pendingProcesses.filter (fun p => p.arrivalTime ≤ s.currentTime) = [] :=
      List.eq_nil_of_length_eq_zero (by omega)
    have hall : s.pendingProcesses.filter (fun p => p.arrivalTime > s.currentTime)
        = s.pendingProcesses := by
      rw [List.filter_eq_self]
      intro x hx
      have := List.filter_eq_nil_iff.mp hnil x hx
      simpa using this
    rw [hnil, hall, List.filter_nil, List.append_nil]

theorem priority_selectHighest_mem (l : List Priority.AProcess) :
    (l = [] ∧ Priority.selectHighest l = none) ∨
    ∃ h ∈ l, Priority.selectHighest l = some h ∧ ∀ x ∈ l, h.priority ≤ x.priority := by
  unfold Priority.selectHighest
  induction l using List.reverseRecOn with
  | nil => exact Or.inl ⟨rfl, rfl⟩
  | append_singleton l a ih =>
    right
    rw [List.foldl_append]
    simp only [List.foldl_cons, List.foldl_nil]
    rcases ih with ⟨hl, hnone⟩ | ⟨h, hh, hsel, hmin⟩
    · rw [hnone]
      subst hl
      refine ⟨a, by simp, rfl, ?_⟩
      intro x hx
      simp only [List.nil_append, List.mem_singleton] at hx
      rw [hx]
    · rw [hsel]
      simp only
      split
      · rename_i hlt
        refine ⟨a, by simp, rfl, ?_⟩
        intro x hx
        rcases List.mem_append.mp hx with hx | hx
        · have := hmin x hx; omega
        · rw [List.mem_singleton] at hx; rw [hx]
      · rename_i hge
        refine ⟨h, List.mem_append.mpr (Or.inl hh), rfl, ?_⟩
        intro x hx
        rcases List.mem_append.mp hx with hx | hx
        · exact hmin x hx
        · rw [List.mem_singleton] at hx; rw [hx]; omega

theorem priority_find_updated (l : List Priority.AProcess) (h : Priority.AProcess)
    (hmem : h ∈ l) (hnd : (l.map (fun p => p.id)).Nodup) :
    (l.map (fun p =>
        if p.id = h.id then { p with remainingTime := p.remainingTime - 1 } else p)).find?
      (fun p => p.id == h.id) = some { h with remainingTime := h.remainingTime - 1 } := by
  induction l with
  | nil => simp at hmem
  | cons a l ih =>
    simp only [List.map_cons, List.nodup_cons] at hnd
    rw [List.map_cons]
    by_cases ha : a.id = h.id
    · have hah : a = h := by
        rcases List.mem_cons.mp hmem with heq | hin
        · exact heq.symm
        · exact absurd (ha ▸ List.mem_map_of_mem (fun p => p.id) hin) hnd.1
      subst hah
      simp [List.find?_cons]
    · have hin : h ∈ l := by
        rcases List.mem_cons.mp hmem with heq | hin
        · exact absurd (heq ▸ rfl) ha
        · exact hin
      rw [if_neg ha, List.find?_cons]
      have : (a.id == h.id) = false := by simpa using ha
      rw [this]
      exact ih hin hnd.2
theorem priority_step_eq (s : Priority.State) :
    Priority.simulationStep s =
      if s.pendingProcesses.length == 0 && s.activeProcesses.length == 0 then s
      else if s.activeProcesses.length == 0 && s.pendingProcesses.length > 0 then
        match s.pendingProcesses with
        | [] => Priority.afterAdmission s
        | p :: ps =>
          if minList p.arrivalTime (ps.map (fun x => x.arrivalTime)) > s.currentTime then
            { Priority.afterAdmission s with
              currentTime := minList p.arrivalTime (ps.map (fun x => x.arrivalTime)) }
          else Priority.afterAdmission s
      else
        match Priority.selectHighest s.activeProcesses with
        | none => Priority.afterAdmission s
        | some h => Priority.execute s (Priority.afterAdmission s) h := by
  unfold Priority.simulationStep
  simp only [priority_admitted_eq]

theorem priority_filter_later (l : List Priority.AProcess) (t : Nat) :
    (if (l.filter (fun p => p.arrivalTime == t + 1)).length > 0 then
      (l.filter (fun p => p.arrivalTime > t)).filter (fun p => p.arrivalTime > t + 1)
    else l.filter (fun p => p.arrivalTime > t))
      = (l.filter (fun p => p.arrivalTime > t)).filter (fun p => p.arrivalTime > t + 1) := by
  split
  · rfl
  · rename_i hlen
    have hnil : l.filter (fun p => p.arrivalTime == t + 1) = [] :=
      List.eq_nil_of_length_eq_zero (by omega)
    symm
    rw [List.filter_eq_self]
    intro x hx
    have hx' := List.mem_filter.mp hx
    have := List.filter_eq_nil_iff.mp hnil x hx'.1
    simp only [beq_iff_eq] at this
    have h2 := hx'.2
    simp only [gt_iff_lt, decide_eq_true_eq] at h2 ⊢
    omega

theorem priority_execute_eq (s : Priority.State) (h : Priority.AProcess)
    (hmem : h ∈ s.activeProcesses)
    (hids : (s.activeProcesses.map (fun p => p.id)).Nodup) :
    Priority.execute s (Priority.afterAdmission s) h =
      if h.remainingTime - 1 = 0 then
        { Priority.afterAdmission s with
          currentTime := s.currentTime + 1,
          completedProcesses := s.completedProcesses ++ [{ h with remainingTime := 0 }],
          activeProcesses := (Priority.updatedActive s h).filter (fun p => p.id != h.id),
          ganttChart := Priority.closeLast (s.currentTime + 1) true (some 0)
            (Priority.openRow s.ganttChart s.ganttChart s.currentTime h) }
      else
        { Priority.afterAdmission s with
          currentTime := s.currentTime + 1,
          pendingProcesses := (Priority.afterAdmission s).pendingProcesses.filter
            (fun p => p.arrivalTime > s.currentTime + 1),
          activeProcesses := Priority.updatedActive s h
            ++ Priority.arrivingAt s (s.currentTime + 1),
          ganttChart :=
            if (match s.pendingProcesses.filter
                  (fun p => p.arrivalTime == s.currentTime + 1) with
                | [] => false
                | first :: _ =>
                  decide ((Priority.highestPriorityNewArrival first
                    (s.pendingProcesses.filter
                      (fun p => p.arrivalTime == s.currentTime + 1))).priority
                    < h.priority)) ||
                ((Priority.updatedActive s h).find? (fun p =>
                  p.id != h.id && decide (p.priority < h.priority))).isSome
            then Priority.closeLast (s.currentTime + 1) false (some (h.remainingTime - 1))
              (Priority.openRow s.ganttChart s.ganttChart s.currentTime h)
            else Priority.openRow s.ganttChart s.ganttChart s.currentTime h } := by
  unfold Priority.execute
  simp only
  rw [priority_find_updated s.activeProcesses h hmem hids]
  simp only
  split
  · rfl
  · have hp := priority_filter_later s.pendingProcesses s.currentTime
    have hact : (if ((s.pendingProcesses.filter
          (fun p => p.arrivalTime == s.currentTime + 1)).length > 0 &&
          ((s.pendingProcesses.filter (fun p => p.arrivalTime == s.currentTime + 1)).filter
            (fun p => !(s.activeProcesses.map (fun p => p.id)).contains p.id)).length > 0) = true
        then Priority.updatedActive s h ++ Priority.arrivingAt s (s.currentTime + 1)
        else Priority.updatedActive s h)
        = Priority.updatedActive s h ++ Priority.arrivingAt s (s.currentTime + 1) := by
      split
      · rfl
      · rename_i hlen
        have hnil : Priority.arrivingAt s (s.currentTime + 1) = [] := by
          unfold Priority.arrivingAt
          apply List.eq_nil_of_length_eq_zero
          simp only [gt_iff_lt, Bool.and_eq_true, decide_eq_true_eq, not_and, not_lt,
            Nat.le_zero_eq] at hlen
          rcases Nat.eq_zero_or_pos (s.pendingProcesses.filter
            (fun p => p.arrivalTime == s.currentTime + 1)).length with h0 | hpos
          · rw [List.eq_nil_of_length_eq_zero h0]; rfl
          · exact hlen hpos
        rw [hnil, List.append_nil]
    simp only [Priority.afterAdmission] at hp ⊢
    simp only [Priority.updatedActive, Priority.arrivingAt] at hact ⊢
    rw [hp, hact]
theorem priority_step_cases (s : Priority.State)
    (hids : (s.activeProcesses.map (fun p => p.id)).Nodup) (P : Priority.State → Prop)
    (hfin : s.pendingProcesses = [] → s.activeProcesses = [] → P s)
    (hidle : ∀ a, s.activeProcesses = [] → (∃ x ∈ s.pendingProcesses, x.arrivalTime = a) →
      (∀ x ∈ s.pendingProcesses, a ≤ x.arrivalTime) →
      P { Priority.afterAdmission s with currentTime := max s.currentTime a })
    (hdone : ∀ h ∈ s.activeProcesses, (∀ x ∈ s.activeProcesses, h.priority ≤ x.priority) →
      h.remainingTime - 1 = 0 →
      P { Priority.afterAdmission s with
          currentTime := s.currentTime + 1,
          completedProcesses := s.completedProcesses ++ [{ h with remainingTime := 0 }],
          activeProcesses := (Priority.updatedActive s h).filter (fun p => p.id != h.id),
          ganttChart := Priority.closeLast (s.currentTime + 1) true (some 0)
            (Priority.openRow s.ganttChart s.ganttChart s.currentTime h) })
    (hcont : ∀ h ∈ s.activeProcesses, (∀ x ∈ s.activeProcesses, h.priority ≤ x.priority) →
      h.remainingTime - 1 ≠ 0 → ∀ g6,
      (g6 = Priority.openRow s.ganttChart s.ganttChart s.currentTime h ∨
        ∃ r, g6 = Priority.closeLast (s.currentTime + 1) false r
          (Priority.openRow s.ganttChart s.ganttChart s.currentTime h)) →
      P { Priority.afterAdmission s with
          currentTime := s.currentTime + 1,
          pendingProcesses := (Priority.afterAdmission s).pendingProcesses.filter
            (fun p => p.arrivalTime > s.currentTime + 1),
          activeProcesses := Priority.updatedActive s h
            ++ Priority.arrivingAt s (s.currentTime + 1),
          ganttChart := g6 }) :
    P (Priority.simulationStep s) := by
  rw [priority_step_eq]
  cases hact : s.activeProcesses with
  | nil =>
    cases hpend : s.pendingProcesses with
    | nil =>
      simp only [List.length_nil, beq_self_eq_true, Bool.and_self, if_true]
      exact hfin hpend hact
    | cons p ps =>
      simp only [List.length_cons, List.length_nil, beq_self_eq_true, Bool.and_true,
        Nat.add_one_ne_zero, beq_iff_eq, if_false, gt_iff_lt, Nat.zero_lt_succ, decide_True,
        Bool.true_and, if_true, Bool.and_self]
      obtain ⟨x, hx, hxe⟩ : ∃ x ∈ s.pendingProcesses,
          x.arrivalTime = minList p.arrivalTime (ps.map (fun x => x.arrivalTime)) := by
        have hm := minList_mem p.arrivalTime (ps.map (fun x => x.arrivalTime))
        have hm' : minList p.arrivalTime (ps.map (fun x => x.arrivalTime))
            ∈ (p :: ps).map (fun x => x.arrivalTime) := by simpa using hm
        obtain ⟨x, hx, hxe⟩ := List.mem_map.mp hm'
        exact ⟨x, by rw [hpend]; exact hx, hxe⟩
      have hmin : ∀ y ∈ s.pendingProcesses,
          minList p.arrivalTime (ps.map (fun x => x.arrivalTime)) ≤ y.arrivalTime := by
        intro y hy
        apply minList_le
        rw [hpend] at hy
        have : y.arrivalTime ∈ (p :: ps).map (fun x => x.arrivalTime) :=
          List.mem_map_of_mem _ hy
        simpa using this
      have key := hidle _ hact ⟨x, hx, hxe⟩ hmin
      split
      · rename_i hgt
        rw [Nat.max_eq_right (Nat.le_of_lt hgt)] at key
        exact key
      · rename_i hle
        rw [Nat.max_eq_left (by omega)] at key
        exact key
  | cons a l =>
    have hb : ((a :: l).length == 0) = false := by simp
    simp only [hb, Bool.and_false, Bool.false_and, Bool.false_eq_true, if_false]
    rcases priority_selectHighest_mem s.activeProcesses with ⟨hnil, _⟩ | ⟨h, hh, hsel, hmin⟩
    · rw [hact] at hnil
      simp at hnil
    · rw [← hact, hsel]
      simp only
      rw [priority_execute_eq s h hh hids]
      split
      · rename_i hz
        exact hdone h hh hmin hz
      · rename_i hnz
        refine hcont h hh hmin hnz _ ?_
        split
        · exact Or.inr ⟨_, rfl⟩
        · exact Or.inl rfl

/-! ## Priority, one step after another: what a step does to the rows -/

theorem modifyLast_mem {α : Type} (f : α → α) (g : List α) (e : α)
    (he : e ∈ Priority.modifyLast f g) :
    e ∈ g ∨ ∃ l, g.getLast? = some l ∧ e = f l := by
  rcases List.eq_nil_or_concat g with rfl | ⟨L, b, hgeq⟩
  · simp [Priority.modifyLast] at he
  · rw [List.concat_eq_append] at hgeq
    subst hgeq
    rw [priority_modifyLast_snoc] at he
    rcases List.mem_append.mp he with he | he
    · exact Or.inl (List.mem_append.mpr (Or.inl he))
    · rw [List.mem_singleton] at he
      exact Or.inr ⟨b, by simp, he⟩

theorem modifyLast_keeps {α : Type} (f : α → α) (g : List α) (e : α) (he : e ∈ g)
    (hne : ∀ l, g.getLast? = some l → e ≠ l) : e ∈ Priority.modifyLast f g := by
  rcases List.eq_nil_or_concat g with rfl | ⟨L, b, hgeq⟩
  · simp at he
  · rw [List.concat_eq_append] at hgeq
    subst hgeq
    rw [priority_modifyLast_snoc]
    rcases List.mem_append.mp he with he | he
    · exact List.mem_append.mpr (Or.inl he)
    · rw [List.mem_singleton] at he
      exact absurd he (hne b (by simp))

theorem modifyLast_last {α : Type} (f : α → α) (g : List α) (e : α)
    (he : (Priority.modifyLast f g).getLast? = some e) :
    ∃ l, g.getLast? = some l ∧ e = f l := by
  rcases List.eq_nil_or_concat g with rfl | ⟨L, b, hgeq⟩
  · simp [Priority.modifyLast] at he
  · rw [List.concat_eq_append] at hgeq
    subst hgeq
    rw [priority_modifyLast_snoc] at he
    rw [List.getLast?_concat] at he
    simp only [Option.some.injEq] at he
    exact ⟨b, by simp, he.symm⟩

theorem priority_openRow_mem (g : List Priority.Entry) (t : Nat) (h : Priority.AProcess)
    (e : Priority.Entry) (he : e ∈ Priority.openRow g g t h) :
    e ∈ g ∨ e = Priority.newGanttItem h t ∨
      ∃ l ∈ g, l.name ≠ h.name ∧ e.name = l.name ∧ e.startTime = l.startTime ∧
        e.endTime = some t := by
  unfold Priority.openRow at he
  have hclose : ∀ e, e ∈ Priority.closeLast t false none g →
      e ∈ g ∨ ∃ l, g.getLast? = some l ∧ e.name = l.name ∧ e.startTime = l.startTime ∧
        e.endTime = some t := by
    intro e he
    unfold Priority.closeLast at he
    rcases modifyLast_mem _ g e he with he | ⟨l, hl, hel⟩
    · exact Or.inl he
    · exact Or.inr ⟨l, hl, by rw [hel], by rw [hel], by rw [hel]⟩
  cases hlast : g.getLast? with
  | none =>
    simp only [hlast, Bool.false_eq_true, if_false] at he
    rcases List.mem_append.mp he with he | he
    · exact Or.inl he
    · exact Or.inr (Or.inl (List.mem_singleton.mp he))
  | some l =>
    have hlg : l ∈ g := by
      obtain ⟨ys, hys⟩ := List.getLast?_eq_some_iff.mp hlast
      rw [hys]; simp
    simp only [hlast] at he
    by_cases hname : l.name = h.name
    · simp only [hname, bne_self_eq_false, Bool.false_and, Bool.false_eq_true, if_false,
        beq_self_eq_true, if_true] at he
      exact Or.inl he
    · have hne : (l.name != h.name) = true := by simpa using hname
      have hbeq : (l.name == h.name) = false := by simpa using hname
      simp only [hne, hbeq, Bool.true_and, Bool.false_eq_true, if_false] at he
      rcases List.mem_append.mp he with he | he
      · split at he
        · rcases hclose e he with he | ⟨l', hl', h1, h2, h3⟩
          · exact Or.inl he
          · rw [hlast] at hl'
            simp only [Option.some.injEq] at hl'
            subst hl'
            exact Or.inr (Or.inr ⟨l, hlg, hname, h1, h2, h3⟩)
        · exact Or.inl he
      · exact Or.inr (Or.inl (List.mem_singleton.mp he))
theorem priority_closeLast_mem (t : Nat) (c : Bool) (r : Option Int) (g : List Priority.Entry)
    (e : Priority.Entry) (he : e ∈ Priority.closeLast t c r g) :
    e ∈ g ∨ ∃ l, g.getLast? = some l ∧ e.name = l.name ∧ e.startTime = l.startTime ∧
      e.endTime = some t ∧ e.completed = c := by
  unfold Priority.closeLast at he
  rcases modifyLast_mem _ g e he with he | ⟨l, hl, hel⟩
  · exact Or.inl he
  · exact Or.inr ⟨l, hl, by rw [hel], by rw [hel], by rw [hel], by rw [hel]⟩

theorem priority_closeLast_last (t : Nat) (c : Bool) (r : Option Int) (g : List Priority.Entry)
    (e : Priority.Entry) (he : (Priority.closeLast t c r g).getLast? = some e) :
    ∃ l, g.getLast? = some l ∧ e.name = l.name ∧ e.startTime = l.startTime ∧
      e.endTime = some t ∧ e.completed = c := by
  unfold Priority.closeLast at he
  obtain ⟨l, hl, hel⟩ := modifyLast_last _ g e he
  exact ⟨l, hl, by rw [hel], by rw [hel], by rw [hel], by rw [hel]⟩

theorem priority_closeLast_keeps (t : Nat) (c : Bool) (r : Option Int)
    (g : List Priority.Entry) (e : Priority.Entry) (he : e ∈ g)
    (hne : ∀ l, g.getLast? = some l → e.name ≠ l.name) :
    e ∈ Priority.closeLast t c r g := by
  unfold Priority.closeLast
  apply modifyLast_keeps _ g e he
  intro l hl heq
  exact hne l hl (by rw [heq])

theorem priority_closeLast_some (t : Nat) (c : Bool) (r : Option Int)
    (g : List Priority.Entry) (l : Priority.Entry) (hl : g.getLast? = some l) :
    ∃ e, (Priority.closeLast t c r g).getLast? = some e ∧
      e ∈ Priority.closeLast t c r g ∧ e.name = l.name ∧ e.startTime = l.startTime ∧
      e.endTime = some t ∧ e.completed = c := by
  obtain ⟨ys, hys⟩ := List.getLast?_eq_some_iff.mp hl
  subst hys
  unfold Priority.closeLast
  rw [priority_modifyLast_snoc]
  exact ⟨_, List.getLast?_concat _, by simp, rfl, rfl, rfl, rfl⟩

theorem priority_openRow_keeps (g : List Priority.Entry) (t : Nat) (h : Priority.AProcess)
    (e : Priority.Entry) (he : e ∈ g) (hc : e.completed = true) :
    e ∈ Priority.openRow g g t h := by
  unfold Priority.openRow
  cases hlast : g.getLast? with
  | none =>
    simp only [Bool.false_eq_true, if_false]
    exact List.mem_append.mpr (Or.inl he)
  | some l =>
    simp only
    have hg4 : e ∈ (if (l.name != h.name && !l.completed) = true then
        Priority.closeLast t false none g else g) := by
      split
      · rename_i hpre
        simp only [Bool.and_eq_true, Bool.not_eq_true'] at hpre
        unfold Priority.closeLast
        apply modifyLast_keeps _ g e he
        intro l' hl' heq
        rw [hlast] at hl'
        simp only [Option.some.injEq] at hl'
        rw [heq, ← hl', hpre.2] at hc
        exact Bool.false_ne_true hc
      · exact he
    split
    · exact hg4
    · exact List.mem_append.mpr (Or.inl hg4)

theorem priority_openRow_last (g : List Priority.Entry) (t : Nat) (h : Priority.AProcess) :
    ∃ l, (Priority.openRow g g t h).getLast? = some l ∧ l.name = h.name := by
  unfold Priority.openRow
  cases hlast : g.getLast? with
  | none =>
    simp only [Bool.false_eq_true, if_false]
    exact ⟨_, List.getLast?_concat _, rfl⟩
  | some l =>
    simp only
    by_cases hname : l.name = h.name
    · simp only [hname, bne_self_eq_false, Bool.false_and, Bool.false_eq_true, if_false,
        beq_self_eq_true, if_true]
      exact ⟨l, hlast, hname⟩
    · have hbeq : (l.name == h.name) = false := by simpa using hname
      simp only [hbeq, Bool.false_eq_true, if_false]
      exact ⟨_, List.getLast?_concat _, rfl⟩

theorem priority_rows_openRow {processes : List Process} (g : List Priority.Entry) (t : Nat)
    (h : Priority.AProcess) (hg : ∀ e ∈ g, Priority.RowOK processes t e)
    (hh : ∃ p ∈ processes, p.name = h.name ∧ p.arrivalTime ≤ t) :
    ∀ e ∈ Priority.openRow g g t h, Priority.RowOK processes (t + 1) e := by
  intro e he
  rcases priority_openRow_mem g t h e he with he | he | ⟨l, hl, _, hn, hs, hend⟩
  · obtain ⟨h1, h2, h3⟩ := hg e he
    refine ⟨by omega, ?_, h3⟩
    intro x hx
    have := h2 x hx
    omega
  · subst he
    refine ⟨Nat.lt_succ_self _, ?_, hh⟩
    intro x hx
    simp [Priority.newGanttItem] at hx
  · obtain ⟨h1, _, p, hp, hpn, hpa⟩ := hg l hl
    refine ⟨by omega, ?_, p, hp, by rw [hn]; exact hpn, by omega⟩
    intro x hx
    rw [hend] at hx
    simp only [Option.some.injEq] at hx
    omega

theorem priority_rows_closeLast {processes : List Process} (g : List Priority.Entry) (t : Nat)
    (c : Bool) (r : Option Int) (hg : ∀ e ∈ g, Priority.RowOK processes t e) :
    ∀ e ∈ Priority.closeLast t c r g, Priority.RowOK processes t e := by
  intro e he
  rcases priority_closeLast_mem t c r g e he with he | ⟨l, hl, hn, hs, hend, _⟩
  · exact hg e he
  · have hlg : l ∈ g := by
      obtain ⟨ys, hys⟩ := List.getLast?_eq_some_iff.mp hl
      rw [hys]; simp
    obtain ⟨h1, _, p, hp, hpn, hpa⟩ := hg l hlg
    refine ⟨by omega, ?_, p, hp, by rw [hn]; exact hpn, by omega⟩
    intro x hx
    rw [hend] at hx
    simp only [Option.some.injEq] at hx
    omega
/-! ## Priority, one step after another: what a step does to the queues -/

theorem priority_updated_mem (s : Priority.State) (h a : Priority.AProcess)
    (ha : a ∈ Priority.updatedActive s h) :
    ∃ a0 ∈ s.activeProcesses, a.name = a0.name ∧ a.id = a0.id ∧
      a.arrivalTime = a0.arrivalTime ∧ a.originalBurstTime = a0.originalBurstTime ∧
      ((a0.id ≠ h.id ∧ a = a0) ∨ (a0.id = h.id ∧ a.remainingTime = a0.remainingTime - 1)) := by
  unfold Priority.updatedActive at ha
  obtain ⟨a0, ha0, heq⟩ := List.mem_map.mp ha
  refine ⟨a0, ha0, ?_⟩
  by_cases hid : a0.id = h.id
  · rw [if_pos hid] at heq
    subst heq
    exact ⟨rfl, rfl, rfl, rfl, Or.inr ⟨hid, rfl⟩⟩
  · rw [if_neg hid] at heq
    subst heq
    exact ⟨rfl, rfl, rfl, rfl, Or.inl ⟨hid, rfl⟩⟩

theorem priority_updated_names (s : Priority.State) (h : Priority.AProcess) :
    (Priority.updatedActive s h).map (fun a => a.name)
      = s.activeProcesses.map (fun a => a.name) := by
  unfold Priority.updatedActive
  rw [List.map_map]
  apply List.map_congr_left
  intro a _
  simp only [Function.comp]
  split <;> rfl

theorem priority_arriving_mem (s : Priority.State) (t : Nat) (a : Priority.AProcess)
    (ha : a ∈ Priority.arrivingAt s t) : a ∈ s.pendingProcesses ∧ a.arrivalTime = t := by
  unfold Priority.arrivingAt at ha
  have h1 := (List.mem_filter.mp ha).1
  have h2 := List.mem_filter.mp h1
  exact ⟨h2.1, by simpa using h2.2⟩

theorem priority_arriving_sublist (s : Priority.State) (t : Nat) :
    (Priority.arrivingAt s t).Sublist s.pendingProcesses :=
  (List.filter_sublist _).trans (List.filter_sublist _)

theorem priority_adm_pending (s : Priority.State) (x : Priority.AProcess)
    (hx : x ∈ (Priority.afterAdmission s).pendingProcesses) :
    x ∈ s.pendingProcesses ∧ s.currentTime < x.arrivalTime := by
  simp only [Priority.afterAdmission] at hx
  have := List.mem_filter.mp hx
  exact ⟨this.1, by simpa using this.2⟩

theorem priority_adm_active (s : Priority.State) (a : Priority.AProcess)
    (ha : a ∈ (Priority.afterAdmission s).activeProcesses) :
    a ∈ s.activeProcesses ∨ (a ∈ s.pendingProcesses ∧ a.arrivalTime ≤ s.currentTime) := by
  simp only [Priority.afterAdmission] at ha
  rcases List.mem_append.mp ha with ha | ha
  · exact Or.inl ha
  · have h1 := List.mem_filter.mp (List.mem_filter.mp ha).1
    exact Or.inr ⟨h1.1, by simpa using h1.2⟩

theorem priority_rowOK_mono {processes : List Process} {t t' : Nat} {e : Priority.Entry}
    (h : Priority.RowOK processes t e) (hle : t ≤ t') : Priority.RowOK processes t' e := by
  obtain ⟨h1, h2, h3⟩ := h
  refine ⟨by omega, ?_, h3⟩
  intro x hx
  have := h2 x hx
  omega

theorem priority_same_of_id {processes : List Process} {s : Priority.State}
    (h : Priority.Inv processes s) {a b : Priority.AProcess} (ha : a ∈ s.activeProcesses)
    (hb : b ∈ s.activeProcesses) (hid : a.id = b.id) : a = b := by
  apply name_injective (fun a : Priority.AProcess => a.name) h.actNames ha hb
  show a.name = b.name
  rw [← h.ids a (List.mem_append.mpr (Or.inr ha)), ← h.ids b (List.mem_append.mpr (Or.inr hb)),
    hid]

theorem priority_ids_nodup {processes : List Process} {s : Priority.State}
    (h : Priority.Inv processes s) : (s.activeProcesses.map (fun p => p.id)).Nodup := by
  apply List.Nodup.map_on
  · intro a ha b hb hid
    exact priority_same_of_id h ha hb hid
  · exact List.Nodup.of_map _ h.actNames

theorem priority_inv_admission {processes : List Process} (s : Priority.State)
    (h : Priority.Inv processes s) (t : Nat) (ht : s.currentTime ≤ t) :
    Priority.Inv processes { Priority.afterAdmission s with currentTime := t } := by
  have hsubP : ((Priority.afterAdmission s).pendingProcesses).Sublist s.pendingProcesses :=
    List.filter_sublist _
  refine ⟨?_, ?_, ?_, ?_, ?_, ?_, ?_, ?_, ?_, ?_, ?_, ?_, ?_⟩
  · intro a ha
    simp only at ha
    rcases List.mem_append.mp ha with ha | ha
    · exact h.ids a (List.mem_append.mpr (Or.inl (priority_adm_pending s a ha).1))
    · rcases priority_adm_active s a ha with ha | ha
      · exact h.ids a (List.mem_append.mpr (Or.inr ha))
      · exact h.ids a (List.mem_append.mpr (Or.inl ha.1))
  · exact List.Nodup.sublist (hsubP.map _) h.pendNames
  · simp only [Priority.afterAdmission, List.map_append]
    rw [List.nodup_append]
    refine ⟨h.actNames, ?_, ?_⟩
    · exact List.Nodup.sublist
        (((List.filter_sublist _).trans (List.filter_sublist _)).map _) h.pendNames
    · intro n hn1 hn2
      obtain ⟨a, ha, han⟩ := List.mem_map.mp hn1
      obtain ⟨x, hx, hxn⟩ := List.mem_map.mp hn2
      have hxp : x ∈ s.pendingProcesses := (List.mem_filter.mp (List.mem_filter.mp hx).1).1
      exact h.pendAct x hxp a ha (hxn.trans han.symm)
  · intro x hx a ha
    simp only at hx ha
    have hx' := priority_adm_pending s x hx
    rcases priority_adm_active s a ha with ha | ha
    · exact h.pendAct x hx'.1 a ha
    · intro hname
      have := name_injective (fun a : Priority.AProcess => a.name) h.pendNames hx'.1 ha.1 hname
      rw [this] at hx'
      omega
  · intro a ha c hc
    simp only at ha hc
    apply h.liveDone a _ c hc
    rcases List.mem_append.mp ha with ha | ha
    · exact List.mem_append.mpr (Or.inl (priority_adm_pending s a ha).1)
    · rcases priority_adm_active s a ha with ha | ha
      · exact List.mem_append.mpr (Or.inr ha)
      · exact List.mem_append.mpr (Or.inl ha.1)
  · intro a ha
    simp only at ha
    apply h.known a
    rcases List.mem_append.mp ha with ha | ha
    · refine List.mem_append.mpr (Or.inl ?_)
      rcases List.mem_append.mp ha with ha | ha
      · exact List.mem_append.mpr (Or.inl (priority_adm_pending s a ha).1)
      · rcases priority_adm_active s a ha with ha | ha
        · exact List.mem_append.mpr (Or.inr ha)
        · exact List.mem_append.mpr (Or.inl ha.1)
    · exact List.mem_append.mpr (Or.inr ha)
  · intro a ha
    exact h.fresh a (priority_adm_pending s a ha).1
  · intro a ha
    simp only at ha
    apply h.positive a
    rcases List.mem_append.mp ha with ha | ha
    · exact List.mem_append.mpr (Or.inl (priority_adm_pending s a ha).1)
    · rcases priority_adm_active s a ha with ha | ha
      · exact List.mem_append.mpr (Or.inr ha)
      · exact List.mem_append.mpr (Or.inl ha.1)
  · intro a ha
    simp only at ha ⊢
    rcases priority_adm_active s a ha with ha | ha
    · have := h.arrived a ha; omega
    · omega
  · intro a ha
    simp only at ha ⊢
    rcases priority_adm_active s a ha with ha | ha
    · have := h.elapsed a ha; omega
    · have := h.fresh a ha.1
      rw [this]
      omega
  · intro e he
    exact priority_rowOK_mono (h.rows e he) ht
  · intro hact e he
    simp only [Priority.afterAdmission] at hact he
    exact h.lastClosed (List.append_eq_nil.mp hact).1 e he
  · exact h.done
theorem priority_known_selected {processes : List Process} {s : Priority.State}
    (h : Priority.Inv processes s) (hp : Priority.AProcess) (hmem : hp ∈ s.activeProcesses) :
    ∃ p ∈ processes, p.name = hp.name ∧ p.arrivalTime ≤ s.currentTime := by
  obtain ⟨p, hpp, hn, ha, _⟩ := h.known hp
    (List.mem_append.mpr (Or.inl (List.mem_append.mpr (Or.inr hmem))))
  exact ⟨p, hpp, hn, by rw [ha]; exact h.arrived hp hmem⟩

theorem priority_done_kept {processes : List Process} {s : Priority.State}
    (h : Priority.Inv processes s) (hp : Priority.AProcess) (hmem : hp ∈ s.activeProcesses)
    (g6 : List Priority.Entry)
    (hg6 : g6 = Priority.openRow s.ganttChart s.ganttChart s.currentTime hp ∨
      ∃ c r, g6 = Priority.closeLast (s.currentTime + 1) c r
        (Priority.openRow s.ganttChart s.ganttChart s.currentTime hp)) :
    ∀ c ∈ s.completedProcesses, ∃ e ∈ g6, e.name = c.name ∧ e.completed = true ∧
      ∃ x, e.endTime = some x ∧ c.arrivalTime + c.originalBurstTime ≤ x := by
  intro c hc
  obtain ⟨e, he, hen, hec, x, hx, hle⟩ := h.done c hc
  have he5 := priority_openRow_keeps s.ganttChart s.currentTime hp e he hec
  refine ⟨e, ?_, hen, hec, x, hx, hle⟩
  rcases hg6 with hg6 | ⟨c', r, hg6⟩
  · rw [hg6]; exact he5
  · rw [hg6]
    apply priority_closeLast_keeps _ _ _ _ e he5
    intro l hl
    obtain ⟨l', hl', hname⟩ := priority_openRow_last s.ganttChart s.currentTime hp
    rw [hl] at hl'
    simp only [Option.some.injEq] at hl'
    rw [hl', hname, hen]
    exact fun heq => h.liveDone hp (List.mem_append.mpr (Or.inr hmem)) c hc heq.symm

theorem priority_inv_cont {processes : List Process} (s : Priority.State)
    (h : Priority.Inv processes s) (hp : Priority.AProcess) (hmem : hp ∈ s.activeProcesses)
    (hnz : hp.remainingTime - 1 ≠ 0) (g6 : List Priority.Entry)
    (hg6 : g6 = Priority.openRow s.ganttChart s.ganttChart s.currentTime hp ∨
      ∃ r, g6 = Priority.closeLast (s.currentTime + 1) false r
        (Priority.openRow s.ganttChart s.ganttChart s.currentTime hp)) :
    Priority.Inv processes
      { Priority.afterAdmission s with
        currentTime := s.currentTime + 1,
        pendingProcesses := (Priority.afterAdmission s).pendingProcesses.filter
          (fun p => p.arrivalTime > s.currentTime + 1),
        activeProcesses := Priority.updatedActive s hp
          ++ Priority.arrivingAt s (s.currentTime + 1),
        ganttChart := g6 } := by
  have hpend : ∀ x ∈ (Priority.afterAdmission s).pendingProcesses.filter
      (fun p => p.arrivalTime > s.currentTime + 1),
      x ∈ s.pendingProcesses ∧ s.currentTime + 1 < x.arrivalTime := by
    intro x hx
    have := List.mem_filter.mp hx
    exact ⟨(priority_adm_pending s x this.1).1, by simpa using this.2⟩
  have hact : ∀ a ∈ Priority.updatedActive s hp ++ Priority.arrivingAt s (s.currentTime + 1),
      (∃ a0 ∈ s.activeProcesses, a.name = a0.name ∧ a.id = a0.id ∧
        a.arrivalTime = a0.arrivalTime ∧ a.originalBurstTime = a0.originalBurstTime ∧
        a0.remainingTime - 1 ≤ a.remainingTime ∧ 0 < a.remainingTime) ∨
      (a ∈ s.pendingProcesses ∧ a.arrivalTime = s.currentTime + 1) := by
    intro a ha
    rcases List.mem_append.mp ha with ha | ha
    · left
      obtain ⟨a0, ha0, h1, h2, h3, h4, h5⟩ := priority_updated_mem s hp a ha
      have hpos := h.positive a0 (List.mem_append.mpr (Or.inr ha0))
      refine ⟨a0, ha0, h1, h2, h3, h4, ?_⟩
      rcases h5 with ⟨_, heq⟩ | ⟨hid, hrem⟩
      · rw [heq]; exact ⟨by omega, hpos⟩
      · have : a0 = hp := priority_same_of_id h ha0 hmem hid
        subst this
        rw [hrem]
        exact ⟨le_refl _, by omega⟩
    · exact Or.inr (priority_arriving_mem s _ a ha)
  refine ⟨?_, ?_, ?_, ?_, ?_, ?_, ?_, ?_, ?_, ?_, ?_, ?_, ?_⟩
  · intro a ha
    simp only at ha
    rcases List.mem_append.mp ha with ha | ha
    · exact h.ids a (List.mem_append.mpr (Or.inl (hpend a ha).1))
    · rcases hact a ha with ⟨a0, ha0, h1, h2, _⟩ | ⟨hap, _⟩
      · rw [h1, h2]
        exact h.ids a0 (List.mem_append.mpr (Or.inr ha0))
      · exact h.ids a (List.mem_append.mpr (Or.inl hap))
  · exact List.Nodup.sublist
      (((List.filter_sublist _).trans (List.filter_sublist _)).map _) h.pendNames
  · simp only [List.map_append]
    rw [List.nodup_append, priority_updated_names]
    refine ⟨h.actNames, ?_, ?_⟩
    · exact List.Nodup.sublist ((priority_arriving_sublist s _).map _) h.pendNames
    · intro n hn1 hn2
      obtain ⟨a, ha, han⟩ := List.mem_map.mp hn1
      obtain ⟨x, hx, hxn⟩ := List.mem_map.mp hn2
      exact h.pendAct x (priority_arriving_mem s _ x hx).1 a ha (hxn.trans han.symm)
  · intro x hx a ha
    simp only at hx ha
    have hx' := hpend x hx
    rcases hact a ha with ⟨a0, ha0, h1, _⟩ | ⟨hap, harr⟩
    · rw [h1]
      exact h.pendAct x hx'.1 a0 ha0
    · intro hname
      have := name_injective (fun a : Priority.AProcess => a.name) h.pendNames hx'.1 hap hname
      rw [this] at hx'
      omega
  · intro a ha c hc
    simp only at ha hc
    rcases List.mem_append.mp ha with ha | ha
    · exact h.liveDone a (List.mem_append.mpr (Or.inl (hpend a ha).1)) c hc
    · rcases hact a ha with ⟨a0, ha0, h1, _⟩ | ⟨hap, _⟩
      · rw [h1]
        exact h.liveDone a0 (List.mem_append.mpr (Or.inr ha0)) c hc
      · exact h.liveDone a (List.mem_append.mpr (Or.inl hap)) c hc
  · intro a ha
    simp only at ha
    rcases List.mem_append.mp ha with ha | ha
    · rcases List.mem_append.mp ha with ha | ha
      · exact h.known a (List.mem_append.mpr (Or.inl (List.mem_append.mpr
          (Or.inl (hpend a ha).1))))
      · rcases hact a ha with ⟨a0, ha0, h1, _, h3, h4, _⟩ | ⟨hap, _⟩
        · rw [h1, h3, h4]
          exact h.known a0 (List.mem_append.mpr (Or.inl (List.mem_append.mpr (Or.inr ha0))))
        · exact h.known a (List.mem_append.mpr (Or.inl (List.mem_append.mpr (Or.inl hap))))
    · exact h.known a (List.mem_append.mpr (Or.inr ha))
  · intro a ha
    exact h.fresh a (hpend a ha).1
  · intro a ha
    simp only at ha
    rcases List.mem_append.mp ha with ha | ha
    · exact h.positive a (List.mem_append.mpr (Or.inl (hpend a ha).1))
    · rcases hact a ha with ⟨a0, ha0, _, _, _, _, _, hpos⟩ | ⟨hap, _⟩
      · exact hpos
      · exact h.positive a (List.mem_append.mpr (Or.inl hap))
  · intro a ha
    simp only at ha ⊢
    rcases hact a ha with ⟨a0, ha0, _, _, h3, _⟩ | ⟨_, harr⟩
    · have := h.arrived a0 ha0
      omega
    · omega
  · intro a ha
    simp only at ha ⊢
    rcases hact a ha with ⟨a0, ha0, _, _, h3, h4, h5, _⟩ | ⟨hap, harr⟩
    · have := h.elapsed a0 ha0
      rw [h3, h4]
      push_cast
      omega
    · have := h.fresh a hap
      rw [this, harr]
  · intro e he
    simp only at he ⊢
    have h5 := priority_rows_openRow s.ganttChart s.currentTime hp h.rows
      (priority_known_selected h hp hmem)
    rcases hg6 with hg6 | ⟨r, hg6⟩
    · rw [hg6] at he
      exact h5 e he
    · rw [hg6] at he
      exact priority_rows_closeLast _ _ _ _ h5 e he
  · intro hnil e _
    simp only at hnil
    exfalso
    have hlen : (Priority.updatedActive s hp).length = s.activeProcesses.length := by
      unfold Priority.updatedActive
      exact List.length_map _ _
    have h0 : (Priority.updatedActive s hp) = [] := (List.append_eq_nil.mp hnil).1
    rw [h0] at hlen
    have := List.length_pos_of_mem hmem
    simp at hlen
    omega
  · simp only
    apply priority_done_kept h hp hmem g6
    rcases hg6 with hg6 | ⟨r, hg6⟩
    · exact Or.inl hg6
    · exact Or.inr ⟨false, r, hg6⟩
theorem priority_inv_done {processes : List Process} (s : Priority.State)
    (h : Priority.Inv processes s) (hp : Priority.AProcess) (hmem : hp ∈ s.activeProcesses)
    (hz : hp.remainingTime - 1 = 0) :
    Priority.Inv processes
      { Priority.afterAdmission s with
        currentTime := s.currentTime + 1,
        completedProcesses := s.completedProcesses ++ [{ hp with remainingTime := 0 }],
        activeProcesses := (Priority.updatedActive s hp).filter (fun p => p.id != hp.id),
        ganttChart := Priority.closeLast (s.currentTime + 1) true (some 0)
          (Priority.openRow s.ganttChart s.ganttChart s.currentTime hp) } := by
  have hact : ∀ a ∈ (Priority.updatedActive s hp).filter (fun p => p.id != hp.id),
      a ∈ s.activeProcesses ∧ a.name ≠ hp.name := by
    intro a ha
    have ha' := List.mem_filter.mp ha
    obtain ⟨a0, ha0, _, h2, _, _, h5⟩ := priority_updated_mem s hp a ha'.1
    have hne : a0.id ≠ hp.id := by
      have := ha'.2
      simp only [bne_iff_ne, ne_eq] at this
      rw [← h2]; exact this
    rcases h5 with ⟨_, heq⟩ | ⟨hid, _⟩
    · subst heq
      refine ⟨ha0, ?_⟩
      intro hname
      have := name_injective (fun a : Priority.AProcess => a.name) h.actNames ha0 hmem hname
      exact hne (by rw [this])
    · exact absurd hid hne
  have hsubA : ((Priority.updatedActive s hp).filter (fun p => p.id != hp.id)).map
      (fun a => a.name) |>.Sublist (s.activeProcesses.map (fun a => a.name)) := by
    rw [← priority_updated_names s hp]
    exact (List.filter_sublist _).map _
  have h5 := priority_rows_openRow s.ganttChart s.currentTime hp h.rows
    (priority_known_selected h hp hmem)
  refine ⟨?_, ?_, ?_, ?_, ?_, ?_, ?_, ?_, ?_, ?_, ?_, ?_, ?_⟩
  · intro a ha
    simp only at ha
    rcases List.mem_append.mp ha with ha | ha
    · exact h.ids a (List.mem_append.mpr (Or.inl (priority_adm_pending s a ha).1))
    · exact h.ids a (List.mem_append.mpr (Or.inr (hact a ha).1))
  · exact List.Nodup.sublist ((List.filter_sublist _).map _) h.pendNames
  · exact List.Nodup.sublist hsubA h.actNames
  · intro x hx a ha
    exact h.pendAct x (priority_adm_pending s x hx).1 a (hact a ha).1
  · intro a ha c hc
    simp only at ha hc
    rcases List.mem_append.mp hc with hc | hc
    · apply h.liveDone a _ c hc
      rcases List.mem_append.mp ha with ha | ha
      · exact List.mem_append.mpr (Or.inl (priority_adm_pending s a ha).1)
      · exact List.mem_append.mpr (Or.inr (hact a ha).1)
    · rw [List.mem_singleton] at hc
      subst hc
      rcases List.mem_append.mp ha with ha | ha
      · exact h.pendAct a (priority_adm_pending s a ha).1 hp hmem
      · exact (hact a ha).2
  · intro a ha
    simp only at ha
    rcases List.mem_append.mp ha with ha | ha
    · apply h.known a
      refine List.mem_append.mpr (Or.inl ?_)
      rcases List.mem_append.mp ha with ha | ha
      · exact List.mem_append.mpr (Or.inl (priority_adm_pending s a ha).1)
      · exact List.mem_append.mpr (Or.inr (hact a ha).1)
    · rcases List.mem_append.mp ha with ha | ha
      · exact h.known a (List.mem_append.mpr (Or.inr ha))
      · rw [List.mem_singleton] at ha
        subst ha
        exact h.known hp (List.mem_append.mpr (Or.inl (List.mem_append.mpr (Or.inr hmem))))
  · intro a ha
    exact h.fresh a (priority_adm_pending s a ha).1
  · intro a ha
    simp only at ha
    apply h.positive a
    rcases List.mem_append.mp ha with ha | ha
    · exact List.mem_append.mpr (Or.inl (priority_adm_pending s a ha).1)
    · exact List.mem_append.mpr (Or.inr (hact a ha).1)
  · intro a ha
    have := h.arrived a (hact a ha).1
    simp only
    omega
  · intro a ha
    have := h.elapsed a (hact a ha).1
    simp only
    push_cast
    omega
  · intro e he
    simp only at he
    exact priority_rows_closeLast _ _ _ _ h5 e he
  · intro _ e he
    simp only at he
    obtain ⟨l, _, _, _, hend, _⟩ := priority_closeLast_last _ _ _ _ e he
    exact ⟨_, hend⟩
  · intro c hc
    simp only at hc ⊢
    rcases List.mem_append.mp hc with hc | hc
    · exact priority_done_kept h hp hmem _ (Or.inr ⟨true, some 0, rfl⟩) c hc
    · rw [List.mem_singleton] at hc
      subst hc
      obtain ⟨l, hl, hname⟩ := priority_openRow_last s.ganttChart s.currentTime hp
      obtain ⟨e, _, he, hen, _, hend, hcomp⟩ :=
        priority_closeLast_some (s.currentTime + 1) true (some 0) _ l hl
      refine ⟨e, he, by rw [hen, hname], hcomp, s.currentTime + 1, hend, ?_⟩
      have := h.elapsed hp hmem
      simp only
      omega
theorem priority_inv_step {processes : List Process} (s : Priority.State)
    (h : Priority.Inv processes s) : Priority.Inv processes (Priority.simulationStep s) := by
  apply priority_step_cases s (priority_ids_nodup h)
  · intro _ _
    exact h
  · intro a _ _ _
    exact priority_inv_admission s h _ (Nat.le_max_left _ _)
  · intro hp hmem _ hz
    exact priority_inv_done s h hp hmem hz
  · intro hp hmem _ hnz g6 hg6
    exact priority_inv_cont s h hp hmem hnz g6 hg6

theorem priority_indexed_mem (i : Nat) (processes : List Process) :
    ∀ a ∈ Priority.indexed i processes, ∃ p ∈ processes, ∃ j, a = Priority.withRemaining p j := by
  induction processes generalizing i with
  | nil => intro a ha; simp [Priority.indexed] at ha
  | cons p ps ih =>
    intro a ha
    simp only [Priority.indexed, List.mem_cons] at ha
    rcases ha with rfl | ha
    · exact ⟨p, List.mem_cons_self _ _, i, rfl⟩
    · obtain ⟨q, hq, j, hj⟩ := ih (i + 1) a ha
      exact ⟨q, List.mem_cons_of_mem _ hq, j, hj⟩

theorem priority_inv_init (processes : List Process)
    (hnd : (processes.map (fun p => p.name)).Nodup)
    (hburst : ∀ p ∈ processes, 0 < p.burstTime) :
    Priority.Inv processes (Priority.startSimulation processes) := by
  refine ⟨?_, ?_, ?_, ?_, ?_, ?_, ?_, ?_, ?_, ?_, ?_, ?_, ?_⟩
  · intro a ha
    simp only [Priority.startSimulation, List.append_nil] at ha
    exact (priority_indexed_ids 0 processes a ha).2
  · simp only [Priority.startSimulation]
    rw [priority_indexed_names]
    exact hnd
  · simp [Priority.startSimulation]
  · intro x _ a ha
    simp [Priority.startSimulation] at ha
  · intro a _ c hc
    simp [Priority.startSimulation] at hc
  · intro a ha
    simp only [Priority.startSimulation, List.append_nil] at ha
    obtain ⟨p, hp, j, rfl⟩ := priority_indexed_mem 0 processes a ha
    exact ⟨p, hp, rfl, rfl, rfl⟩
  · intro a ha
    simp only [Priority.startSimulation] at ha
    obtain ⟨p, hp, j, rfl⟩ := priority_indexed_mem 0 processes a ha
    rfl
  · intro a ha
    simp only [Priority.startSimulation, List.append_nil] at ha
    obtain ⟨p, hp, j, rfl⟩ := priority_indexed_mem 0 processes a ha
    have := hburst p hp
    simp only [Priority.withRemaining]
    omega
  · intro a ha
    simp [Priority.startSimulation] at ha
  · intro a ha
    simp [Priority.startSimulation] at ha
  · intro e he
    simp [Priority.startSimulation] at he
  · intro _ e he
    simp [Priority.startSimulation] at he
  · intro c hc
    simp [Priority.startSimulation] at hc

theorem priority_steps_inv {processes : List Process} (n : Nat) (s : Priority.State)
    (h : Priority.Inv processes s) : Priority.Inv processes (Priority.steps n s) := by
  induction n generalizing s with
  | zero => exact h
  | succ n ih => exact ih _ (priority_inv_step s h)

/-! ## Priority, one step after another: the steps come to an end -/

theorem priority_load_split (l : List Priority.AProcess) (f : Priority.AProcess → Bool) :
    Priority.load (l.filter f) + Priority.load (l.filter (fun a => !f a)) = Priority.load l := by
  unfold Priority.load
  induction l with
  | nil => rfl
  | cons a l ih =>
    cases hf : f a with
    | true =>
      simp only [List.filter_cons, hf, if_true, Bool.not_true, Bool.false_eq_true, if_false,
        List.map_cons, List.sum_cons]
      omega
    | false =>
      simp only [List.filter_cons, hf, if_true, Bool.not_false, Bool.false_eq_true, if_false,
        List.map_cons, List.sum_cons]
      omega

theorem priority_load_sublist {l1 l2 : List Priority.AProcess} (h : l1.Sublist l2) :
    Priority.load l1 ≤ Priority.load l2 := by
  unfold Priority.load
  exact List.Sublist.sum_le_sum (h.map _) (fun _ _ => Nat.zero_le _)

theorem priority_load_two (l l1 l2 : List Priority.AProcess) (f : Priority.AProcess → Bool)
    (h1 : l1.Sublist l) (hf1 : ∀ a ∈ l1, f a = true)
    (h2 : l2.Sublist l) (hf2 : ∀ a ∈ l2, f a = false) :
    Priority.load l1 + Priority.load l2 ≤ Priority.load l := by
  have e1 : l1.filter f = l1 := List.filter_eq_self.mpr hf1
  have e2 : l2.filter (fun a => !f a) = l2 :=
    List.filter_eq_self.mpr (fun a ha => by simp [hf2 a ha])
  have s1 := priority_load_sublist (h1.filter f)
  have s2 := priority_load_sublist (h2.filter (fun a => !f a))
  rw [e1] at s1
  rw [e2] at s2
  have := priority_load_split l f
  omega

theorem priority_load_updated (l : List Priority.AProcess) (h : Priority.AProcess)
    (hpos : ∀ a ∈ l, 0 < a.remainingTime) :
    Priority.load (l.map (fun p =>
        if p.id = h.id then { p with remainingTime := p.remainingTime - 1 } else p))
      ≤ Priority.load l ∧
    (h ∈ l → Priority.load (l.map (fun p =>
        if p.id = h.id then { p with remainingTime := p.remainingTime - 1 } else p)) + 1
      ≤ Priority.load l) := by
  unfold Priority.load
  induction l with
  | nil => exact ⟨le_refl _, fun hm => by simp at hm⟩
  | cons a l ih =>
    have ih' := ih (fun x hx => hpos x (List.mem_cons_of_mem _ hx))
    have ha := hpos a (List.mem_cons_self _ _)
    simp only [List.map_cons, List.sum_cons]
    by_cases hid : a.id = h.id
    · rw [if_pos hid]
      simp only
      have e : (a.remainingTime - 1).toNat + 1 = a.remainingTime.toNat := by omega
      exact ⟨by omega, fun _ => by omega⟩
    · rw [if_neg hid]
      refine ⟨by omega, ?_⟩
      intro hm
      rcases List.mem_cons.mp hm with heq | hin
      · exact absurd (heq ▸ rfl) hid
      · have := ih'.2 hin
        omega

theorem priority_load_admission (s : Priority.State) :
    Priority.load (Priority.afterAdmission s).pendingProcesses
      + Priority.load (Priority.afterAdmission s).activeProcesses
      ≤ Priority.load s.pendingProcesses + Priority.load s.activeProcesses := by
  have h2 := priority_load_two s.pendingProcesses
    (s.pendingProcesses.filter (fun p => p.arrivalTime > s.currentTime))
    ((s.pendingProcesses.filter (fun p => p.arrivalTime ≤ s.currentTime)).filter
        (fun p => !(s.activeProcesses.map (fun p => p.id)).contains p.id))
    (fun p => decide (p.arrivalTime > s.currentTime))
    (List.filter_sublist _) (fun a ha => (List.mem_filter.mp ha).2)
    ((List.filter_sublist _).trans (List.filter_sublist _))
    (fun a ha => by
      have := (List.mem_filter.mp (List.mem_filter.mp ha).1).2
      simp only [decide_eq_true_eq] at this
      simp only [gt_iff_lt, decide_eq_false_iff_not, not_lt]
      exact this)
  have happ : Priority.load (Priority.afterAdmission s).activeProcesses
      = Priority.load s.activeProcesses
        + Priority.load ((s.pendingProcesses.filter (fun p => p.arrivalTime ≤ s.currentTime)).filter
          (fun p => !(s.activeProcesses.map (fun p => p.id)).contains p.id)) := by
    simp only [Priority.afterAdmission, Priority.load, List.map_append, List.sum_append]
  have hpe : (Priority.afterAdmission s).pendingProcesses
      = s.pendingProcesses.filter (fun p => p.arrivalTime > s.currentTime) := rfl
  rw [happ, hpe]
  omega

theorem priority_measure_le (s : Priority.State) (a b : Nat)
    (ha : Priority.load s.pendingProcesses + Priority.load s.activeProcesses ≤ a)
    (hb : s.pendingProcesses.length ≤ b) : Priority.measure s ≤ 2 * a + 2 * b + 1 := by
  unfold Priority.measure
  split <;> omega
theorem priority_measure_step {processes : List Process} (s : Priority.State)
    (h : Priority.Inv processes s) (hnf : Priority.finished s = false) :
    Priority.measure (Priority.simulationStep s) < Priority.measure s := by
  have hlow : 2 * (Priority.load s.pendingProcesses + Priority.load s.activeProcesses)
      + 2 * s.pendingProcesses.length ≤ Priority.measure s := by
    unfold Priority.measure
    omega
  have hadm := priority_load_admission s
  have hlenadm : (Priority.afterAdmission s).pendingProcesses.length
      ≤ s.pendingProcesses.length := List.length_filter_le _ _
  have hposA : ∀ a ∈ s.activeProcesses, 0 < a.remainingTime :=
    fun a ha => h.positive a (List.mem_append.mpr (Or.inr ha))
  refine priority_step_cases s (priority_ids_nodup h)
    (fun s' => Priority.measure s' < Priority.measure s) ?_ ?_ ?_ ?_
  · intro hp ha
    simp [Priority.finished, hp, ha] at hnf
  · intro a hact hex hmin
    show Priority.measure _ < Priority.measure s
    obtain ⟨x, hx, hxa⟩ := hex
    cases hfil : s.pendingProcesses.filter (fun p => p.arrivalTime ≤ s.currentTime) with
    | nil =>
      have hxt : s.currentTime < x.arrivalTime := by
        have := List.filter_eq_nil_iff.mp hfil x hx
        simpa using this
      have hM : Priority.measure s
          = 2 * (Priority.load s.pendingProcesses + Priority.load s.activeProcesses)
            + 2 * s.pendingProcesses.length + 1 := by
        unfold Priority.measure
        rw [hfil]
        rfl
      have hxadm : x ∈ (Priority.afterAdmission s).pendingProcesses := by
        simp only [Priority.afterAdmission]
        exact List.mem_filter.mpr ⟨hx, by simpa using hxt⟩
      have hbit : ((Priority.afterAdmission s).pendingProcesses.filter
          (fun p => p.arrivalTime ≤ max s.currentTime a)).isEmpty = false := by
        rw [List.isEmpty_eq_false_iff_exists_mem]
        exact ⟨x, List.mem_filter.mpr ⟨hxadm, by simp only [decide_eq_true_eq]; omega⟩⟩
      rw [hM]
      unfold Priority.measure
      simp only [hbit, Bool.false_eq_true, if_false]
      omega
    | cons y ys =>
      have hy : y ∈ s.pendingProcesses.filter (fun p => p.arrivalTime ≤ s.currentTime) := by
        rw [hfil]; simp
      have hlt : (Priority.afterAdmission s).pendingProcesses.length
          < s.pendingProcesses.length := by
        simp only [Priority.afterAdmission]
        apply List.length_filter_lt_length_iff_exists.mpr
        refine ⟨y, (List.mem_filter.mp hy).1, ?_⟩
        have := (List.mem_filter.mp hy).2
        simp only [decide_eq_true_eq] at this
        simp only [gt_iff_lt, decide_eq_true_eq, not_lt]
        exact this
      refine lt_of_le_of_lt (priority_measure_le _
        (Priority.load s.pendingProcesses + Priority.load s.activeProcesses)
        (s.pendingProcesses.length - 1) hadm (by simp only; omega)) ?_
      omega
  · intro hp hmem _ _
    show Priority.measure _ < Priority.measure s
    have hU := (priority_load_updated s.activeProcesses hp hposA).2 hmem
    have hsub : Priority.load ((Priority.updatedActive s hp).filter (fun p => p.id != hp.id))
        ≤ Priority.load (Priority.updatedActive s hp) :=
      priority_load_sublist (List.filter_sublist _)
    have hpl : Priority.load (Priority.afterAdmission s).pendingProcesses
        ≤ Priority.load s.pendingProcesses := priority_load_sublist (List.filter_sublist _)
    refine lt_of_le_of_lt (priority_measure_le _
      (Priority.load s.pendingProcesses + Priority.load s.activeProcesses - 1)
      s.pendingProcesses.length ?_ hlenadm) ?_
    · simp only [Priority.updatedActive] at hsub ⊢
      omega
    · omega
  · intro hp hmem _ _ g6 _
    show Priority.measure _ < Priority.measure s
    have hU := (priority_load_updated s.activeProcesses hp hposA).2 hmem
    have h2 := priority_load_two s.pendingProcesses
      ((Priority.afterAdmission s).pendingProcesses.filter
        (fun p => p.arrivalTime > s.currentTime + 1))
      (Priority.arrivingAt s (s.currentTime + 1))
      (fun p => decide (p.arrivalTime > s.currentTime + 1))
      ((List.filter_sublist _).trans (List.filter_sublist _))
      (fun a ha => (List.mem_filter.mp ha).2)
      (priority_arriving_sublist s _)
      (fun a ha => by
        have := (priority_arriving_mem s _ a ha).2
        simp only [gt_iff_lt, decide_eq_false_iff_not, not_lt]
        omega)
    have happ : Priority.load (Priority.updatedActive s hp
        ++ Priority.arrivingAt s (s.currentTime + 1))
        = Priority.load (Priority.updatedActive s hp)
          + Priority.load (Priority.arrivingAt s (s.currentTime + 1)) := by
      simp only [Priority.load, List.map_append, List.sum_append]
    refine lt_of_le_of_lt (priority_measure_le _
      (Priority.load s.pendingProcesses + Priority.load s.activeProcesses - 1)
      s.pendingProcesses.length ?_ ?_) ?_
    · simp only
      rw [happ]
      simp only [Priority.updatedActive] at hU ⊢
      omega
    · simp only
      exact le_trans (List.length_filter_le _ _) hlenadm
    · omega

theorem priority_finished_step (s : Priority.State) (h : Priority.finished s = true) :
    Priority.simulationStep s = s := by
  simp only [Priority.finished, Bool.and_eq_true, List.isEmpty_iff] at h
  unfold Priority.simulationStep
  simp [h.1, h.2]

theorem priority_finished_steps (n : Nat) (s : Priority.State)
    (h : Priority.finished s = true) : Priority.steps n s = s := by
  induction n with
  | zero => rfl
  | succ n ih => rw [Priority.steps, priority_finished_step s h, ih]

theorem priority_terminates {processes : List Process} (n : Nat) (s : Priority.State)
    (h : Priority.Inv processes s) (hn : Priority.measure s ≤ n) :
    Priority.finished (Priority.steps n s) = true := by
  induction n generalizing s with
  | zero =>
    cases hf : Priority.finished s with
    | true => exact hf
    | false =>
      have := priority_measure_step s h hf
      omega
  | succ n ih =>
    cases hf : Priority.finished s with
    | true =>
      rw [priority_finished_steps _ s hf]
      exact hf
    | false =>
      have := priority_measure_step s h hf
      exact ih _ (priority_inv_step s h) (by omega)

theorem priority_indexed_load (i : Nat) (processes : List Process) :
    Priority.load (Priority.indexed i processes) = (processes.map (fun p => p.burstTime)).sum ∧
    (Priority.indexed i processes).length = processes.length := by
  induction processes generalizing i with
  | nil => exact ⟨rfl, rfl⟩
  | cons p ps ih =>
    have := ih (i + 1)
    unfold Priority.load at this ⊢
    simp only [Priority.indexed, List.map_cons, List.sum_cons, List.length_cons, this.1, this.2,
      Priority.withRemaining, Int.toNat_ofNat, and_self]

theorem priority_measure_init (processes : List Process) :
    Priority.measure (Priority.startSimulation processes)
      ≤ 2 * (processes.map (fun p => p.burstTime)).sum + 2 * processes.length + 1 := by
  apply priority_measure_le
  · simp only [Priority.startSimulation, (priority_indexed_load 0 processes).1]
    exact le_of_eq rfl
  · simp only [Priority.startSimulation, (priority_indexed_load 0 processes).2]
    exact le_refl _

/-! ## One step after another: bounds on the metrics -/

theorem priority_metrics_bounds {processes : List Process}
    (hnd : (processes.map (fun p => p.name)).Nodup) (s : Priority.State)
    (h : Priority.Inv processes s) (c : Priority.AProcess) (hc : c ∈ s.completedProcesses)
    (p : Process) (hp : p ∈ processes) (hpc : p.name = c.name) :
    ∃ m, List.lookup p.name (Priority.calculateMetrics processes s.ganttChart) = some m ∧
      0 ≤ m.waitingTime ∧ (p.burstTime : Int) ≤ m.turnaroundTime ∧ 0 ≤ m.responseTime ∧
      (∀ b, (∀ e ∈ s.ganttChart, ∀ x, e.endTime = some x → x ≤ b) →
        m.waitingTime ≤ (b : Int) - p.arrivalTime - p.burstTime) := by
  obtain ⟨e, he, hen, _, x, hx, hle⟩ := h.done c hc
  obtain ⟨p', hp', hn', ha', hb'⟩ := h.known c (List.mem_append.mpr (Or.inr hc))
  have hpp : p' = p :=
    name_injective (fun p : Process => p.name) hnd hp' hp (hn'.trans hpc.symm)
  subst hpp
  have hef : e ∈ s.ganttChart.filter (fun item => item.name == p'.name) :=
    List.mem_filter.mpr ⟨he, by simp [hen, hpc]⟩
  cases hseg : s.ganttChart.filter (fun item => item.name == p'.name) with
  | nil => rw [hseg] at hef; simp at hef
  | cons first rest =>
    have hlook := priority_metrics_lookup s.ganttChart processes hnd [] p' hp first rest hseg
    refine ⟨_, hlook, ?_⟩
    have hxin : x ∈ (first :: rest).map (fun s => s.endTime.getD 0) := by
      rw [← hseg]
      exact List.mem_map.mpr ⟨e, hef, by rw [hx]; rfl⟩
    have hmax := le_maxOf _ x hxin
    have hfirst : first ∈ s.ganttChart.filter (fun item => item.name == p'.name) := by
      rw [hseg]; simp
    have hfm := List.mem_filter.mp hfirst
    obtain ⟨_, _, p2, hp2, hn2, ha2⟩ := h.rows first hfm.1
    have hp2p : p2 = p' := by
      apply name_injective (fun p : Process => p.name) hnd hp2 hp
      have := hfm.2
      simp only [beq_iff_eq] at this
      exact hn2.trans this
    subst hp2p
    simp only
    refine ⟨by omega, by omega, by omega, ?_⟩
    intro b hb
    have hmaxle : maxOf ((first :: rest).map (fun s => s.endTime.getD 0)) ≤ b := by
      apply maxOf_le
      intro y hy
      obtain ⟨r, hr, hry⟩ := List.mem_map.mp hy
      have hrg : r ∈ s.ganttChart := by
        have : r ∈ s.ganttChart.filter (fun item => item.name == p2.name) := by
          rw [hseg]; exact hr
        exact (List.mem_filter.mp this).1
      cases hre : r.endTime with
      | none => rw [hre] at hry; simp at hry; omega
      | some z =>
        rw [hre] at hry
        simp only [Option.getD_some] at hry
        have := hb r hrg z hre
        omega
    omega

theorem rr_metrics_bounds {q : Nat} {processes : List Process}
    (hnd : (processes.map (fun p => p.name)).Nodup) (s : RR.State)
    (h2 : RR.Inv2 q processes s) :
    ∃ stats, RR.calculateProcessStats processes s.ganttChart = some stats ∧
      ∀ p ∈ processes,
        (∃ e ∈ s.ganttChart, e.isIdle = false ∧ e.name = p.name ∧
          p.arrivalTime + p.burstTime ≤ e.endTime) →
        ∃ m, List.lookup p.name stats = some m ∧
          0 ≤ m.waitingTime ∧ (p.burstTime : Int) ≤ m.turnaroundTime ∧
          (∃ r, m.responseTime = some r ∧ 0 ≤ r) ∧
          m.waitingTime ≤ (s.currentTime : Int) - p.arrivalTime - p.burstTime := by
  obtain ⟨stats, hstats, hl⟩ := rr_stats_lookup processes hnd s.ganttChart
    (fun e he hi => by
      obtain ⟨p, hp, hn, _⟩ := h2.rows e he hi
      exact ⟨p, hp, hn⟩)
  refine ⟨stats, hstats, ?_⟩
  intro p hp hrow
  obtain ⟨e, he, hidle, hen, hle⟩ := hrow
  have hef : e ∈ s.ganttChart.filter (fun e => !e.isIdle && e.name == p.name) :=
    List.mem_filter.mpr ⟨he, by simp [hidle, hen]⟩
  cases hseg : s.ganttChart.filter (fun e => !e.isIdle && e.name == p.name) with
  | nil => rw [hseg] at hef; simp at hef
  | cons first rest =>
    refine ⟨_, hl p hp first rest hseg, ?_⟩
    have hxin : e.endTime ∈ (first :: rest).map (fun e => e.endTime) := by
      rw [← hseg]
      exact List.mem_map_of_mem _ hef
    have hmax := le_maxOf _ _ hxin
    have hfirst : first ∈ s.ganttChart.filter (fun e => !e.isIdle && e.name == p.name) := by
      rw [hseg]; simp
    have hfm := List.mem_filter.mp hfirst
    have hf2 := hfm.2
    simp only [Bool.and_eq_true, Bool.not_eq_true', beq_iff_eq] at hf2
    obtain ⟨p2, hp2, hn2, ha2⟩ := h2.rows first hfm.1 hf2.1
    have hp2p : p2 = p :=
      name_injective (fun p : Process => p.name) hnd hp2 hp (hn2.trans hf2.2)
    subst hp2p
    have hmaxle : maxOf ((first :: rest).map (fun e => e.endTime)) ≤ s.currentTime := by
      apply maxOf_le
      intro y hy
      obtain ⟨r, hr, hry⟩ := List.mem_map.mp hy
      have hrg : r ∈ s.ganttChart := by
        have : r ∈ s.ganttChart.filter (fun e => !e.isIdle && e.name == p2.name) := by
          rw [hseg]; exact hr
        exact (List.mem_filter.mp this).1
      have := h2.ends r hrg
      omega
    simp only
    refine ⟨by omega, by omega, ⟨_, rfl, by omega⟩, by omega⟩
/-! ## A single process -/

theorem rr_step_cases_min (q : Nat) (s : RR.State) (hcur : s.currentProcess = none)
    (P : RR.State → Prop)
    (hadm : s.readyQueue = [] → P (RR.afterAdmission s))
    (hidle : ∀ a, s.readyQueue = [] → s.currentTime < a →
      (∀ x ∈ s.pendingProcesses, a ≤ x.arrivalTime) →
      (∃ x ∈ s.pendingProcesses, x.arrivalTime = a) →
      P { RR.afterAdmission s with
          currentTime := a,
          ganttChart := s.ganttChart ++ [RR.idleEntry s.currentTime a] })
    (hrun : ∀ next rest e, s.readyQueue = next :: rest →
      e = min q (s.remainingTime next.name) → ∀ tail,
      ((s.remainingTime next.name - e = 0 ∧ tail = []) ∨
        (0 < s.remainingTime next.name - e ∧
          tail = [{ next with remainingTime := s.remainingTime next.name - e }])) →
      ∀ done : List (RR.QProcess × Nat),
      P { RR.afterAdmission s with
          readyQueue := (RR.afterAdmission s).readyQueue.drop 1 ++ tail,
          currentTime := s.currentTime + e,
          ganttChart := s.ganttChart ++ [RR.ganttEntry next s.currentTime e],
          remainingTime := RR.setKey s.remainingTime next.name (s.remainingTime next.name - e),
          completedProcesses := done,
          currentProcess := none }) :
    P (RR.simulationStep q s) := by
  rw [rr_step_eq]
  simp only [hcur, Option.isNone_none, Bool.true_and]
  cases hq : s.readyQueue with
  | nil =>
    simp only [List.length_nil, gt_iff_lt, lt_self_iff_false, decide_False, Bool.false_eq_true,
      if_false, beq_self_eq_true, Bool.true_and]
    split
    · cases hp : s.pendingProcesses with
      | nil => exact hadm hq
      | cons p ps =>
        simp only
        split
        · rename_i hgt
          apply hidle _ hq hgt
          · intro x hx
            apply minList_le
            rw [hp] at hx
            have : x.arrivalTime ∈ (p :: ps).map (fun x => x.arrivalTime) :=
              List.mem_map_of_mem _ hx
            simpa using this
          · have hm := minList_mem p.arrivalTime (ps.map (fun x => x.arrivalTime))
            have hm' : minList p.arrivalTime (ps.map (fun x => x.arrivalTime))
                ∈ (p :: ps).map (fun x => x.arrivalTime) := by simpa using hm
            obtain ⟨x, hx, hxe⟩ := List.mem_map.mp hm'
            exact ⟨x, by rw [hp]; exact hx, hxe⟩
        · exact hadm hq
    · exact hadm hq
  | cons next rest =>
    simp only [List.length_cons, gt_iff_lt, Nat.zero_lt_succ, decide_True, if_true]
    split
    · rename_i hd
      have h := hrun next rest _ hq rfl [] (Or.inl ⟨by omega, rfl⟩)
        (s.completedProcesses ++
          [(next, s.currentTime + min q (s.remainingTime next.name))])
      simp only [List.append_nil] at h
      exact h
    · rename_i hd
      exact hrun next rest _ hq rfl _ (Or.inr ⟨by omega, rfl⟩) _
theorem fcfs_single_chart (p : Process) (n : Nat) :
    FCFS.chart (n + 1) [p]
      = [withTiming p p.arrivalTime (p.arrivalTime + p.burstTime)] := by
  have h1 : FCFS.simulationStep (FCFS.startSimulation [p])
      = { pendingProcesses := [], completedProcesses := [p],
          ganttChart := [withTiming p p.arrivalTime (p.arrivalTime + p.burstTime)],
          currentTime := p.arrivalTime + p.burstTime } := by
    simp [FCFS.simulationStep, FCFS.startSimulation, FCFS.findMin]
  have hfix : ∀ (k : Nat) (s : FCFS.State), s.pendingProcesses = [] → FCFS.steps k s = s := by
    intro k
    induction k with
    | zero => intro s _; rfl
    | succ k ih =>
      intro s hs
      have : FCFS.simulationStep s = s := by simp [FCFS.simulationStep, hs]
      rw [FCFS.steps, this, ih s hs]
  unfold FCFS.chart
  rw [FCFS.steps, h1, hfix n _ rfl]

theorem sjf_single_chart (p : Process) (hb : 0 < p.burstTime) (n : Nat) :
    SJF.chart (n + 2) [p]
      = [withTiming p p.arrivalTime (p.arrivalTime + p.burstTime)] := by
  have hfix : ∀ (k : Nat) (s : SJF.State), s.pendingProcesses = [] → s.arrivedQueue = [] →
      SJF.steps k s = s := by
    intro k
    induction k with
    | zero => intro s _ _; rfl
    | succ k ih =>
      intro s hs hq
      have : SJF.tick s = s := by
        simp [SJF.tick, SJF.arrivalEffect, SJF.simulationStep, hs, hq]
      rw [SJF.steps, this, ih s hs hq]
  have hsort : SJF.sortedByArrival [p] = [p] := rfl
  unfold SJF.chart
  rcases Nat.eq_zero_or_pos p.arrivalTime with h0 | hpos
  · have h1 : SJF.tick (SJF.startSimulation [p])
        = { pendingProcesses := [], arrivedQueue := [], completedProcesses := [p],
            currentProcess := none,
            ganttChart := [withTiming p p.arrivalTime (p.arrivalTime + p.burstTime)],
            currentTime := p.burstTime, animatingTimeJump := false } := by
      simp [SJF.tick, SJF.arrivalEffect, SJF.simulationStep, SJF.startSimulation, hsort,
        SJF.findShortestJob, SJF.timeJump, h0, Nat.ne_of_gt hb]
    rw [SJF.steps, h1, hfix _ _ rfl rfl]
  · have h1 : SJF.tick (SJF.startSimulation [p])
        = { pendingProcesses := [p], arrivedQueue := [], completedProcesses := [],
            currentProcess := none, ganttChart := [],
            currentTime := p.arrivalTime, animatingTimeJump := false } := by
      simp [SJF.tick, SJF.arrivalEffect, SJF.simulationStep, SJF.startSimulation, hsort,
        SJF.timeJump, minList, Nat.ne_of_gt hpos, hpos]
    have h2 : SJF.tick
        { pendingProcesses := [p], arrivedQueue := [], completedProcesses := [],
          currentProcess := none, ganttChart := [],
          currentTime := p.arrivalTime, animatingTimeJump := false }
        = { pendingProcesses := [], arrivedQueue := [], completedProcesses := [p],
            currentProcess := none,
            ganttChart := [withTiming p p.arrivalTime (p.arrivalTime + p.burstTime)],
            currentTime := p.arrivalTime + p.burstTime, animatingTimeJump := false } := by
      simp [SJF.tick, SJF.arrivalEffect, SJF.simulationStep,
        SJF.findShortestJob, SJF.timeJump, Nat.ne_of_gt hpos, Nat.ne_of_gt hb]
    rw [SJF.steps, h1, SJF.steps, h2, hfix _ _ rfl rfl]
theorem length_le_one_of_const {α : Type} (f : α → String) (l : List α)
    (hnd : (l.map f).Nodup) (c : String) (hc : ∀ x ∈ l, f x = c) : l.length ≤ 1 := by
  match l, hnd, hc with
  | [], _, _ => simp
  | [_], _, _ => simp
  | x :: y :: rest, hnd, hc =>
    exfalso
    have hx := hc x (by simp)
    have hy := hc y (by simp)
    simp only [List.map_cons, List.nodup_cons, List.mem_cons] at hnd
    exact hnd.1 (Or.inl (hx.trans hy.symm))

theorem rr_single_live {q : Nat} {p : Process} {s : RR.State}
    (h : RR.Inv [p] s) (h2 : RR.Inv2 q [p] s) : (RR.live s).length ≤ 1 := by
  apply length_le_one_of_const (fun x : RR.QProcess => x.name) _ h.nodup p.name
  intro x hx
  obtain ⟨p', hp', hn, _⟩ := h2.known x hx
  rw [List.mem_singleton] at hp'
  rw [← hn, hp']

theorem rr_punctual_step {q : Nat} {p : Process} (s : RR.State)
    (h : RR.Inv [p] s) (h2 : RR.Inv2 q [p] s) (hj : RR.Punctual p s) :
    RR.Punctual p (RR.simulationStep q s) := by
  have hfresh : ∀ x ∈ s.pendingProcesses, s.remainingTime x.name = x.burstTime := by
    intro x hx
    have h1 := (h.positive x (List.mem_append.mpr (Or.inl hx))).2
    have h3 := h2.fresh x hx
    omega
  refine rr_step_cases_min q s h.current (RR.Punctual p) ?_ ?_ ?_
  · intro hq
    refine ⟨?_, ?_, ?_⟩
    · intro x hx
      simp only [RR.afterAdmission] at hx ⊢
      exact hj.pending x (List.mem_filter.mp hx).1
    · intro x hx
      simp only [RR.afterAdmission, hq, List.nil_append] at hx ⊢
      have hx' := List.mem_filter.mp hx
      have := hj.pending x hx'.1
      rw [hfresh x hx'.1]
      omega
    · intro hlive
      apply hj.idle
      have := (rr_live_admission_perm s).length_eq
      rw [hlive] at this
      exact List.eq_nil_of_length_eq_zero this.symm
  · intro a hq hlt hmin hex
    refine ⟨?_, ?_, ?_⟩
    · intro x hx
      simp only [RR.afterAdmission] at hx ⊢
      exact hmin x (List.mem_filter.mp hx).1
    · intro x hx
      simp only [RR.afterAdmission, hq, List.nil_append] at hx
      have hx' := List.mem_filter.mp hx
      have h1 := hmin x hx'.1
      have h3 := hx'.2
      simp only [decide_eq_true_eq] at h3
      omega
    · intro hlive
      exfalso
      obtain ⟨x, hx, hxa⟩ := hex
      have hxin : x ∈ RR.live { RR.afterAdmission s with
          currentTime := a,
          ganttChart := s.ganttChart ++ [RR.idleEntry s.currentTime a] } := by
        simp only [RR.live, RR.afterAdmission]
        apply List.mem_append.mpr
        left
        exact List.mem_filter.mpr ⟨hx, by simp only [gt_iff_lt, decide_eq_true_eq]; omega⟩
      rw [hlive] at hxin
      simp at hxin
  · intro next rest e hq he tail htail done
    have hlen := rr_single_live h h2
    have hpend : s.pendingProcesses = [] := by
      apply List.eq_nil_of_length_eq_zero
      simp only [RR.live, hq, List.length_append, List.length_cons] at hlen
      omega
    have hrest : rest = [] := by
      apply List.eq_nil_of_length_eq_zero
      simp only [RR.live, hq, List.length_append, List.length_cons] at hlen
      omega
    have hnext := hj.ready next (by rw [hq]; simp)
    have hele : e ≤ s.remainingTime next.name := by rw [he]; exact Nat.min_le_right _ _
    have hready : (RR.afterAdmission s).readyQueue.drop 1 ++ tail = tail := by
      simp [RR.afterAdmission, hq, hpend, hrest]
    refine ⟨?_, ?_, ?_⟩
    · intro x hx
      simp only [RR.afterAdmission, hpend, List.filter_nil] at hx
      simp at hx
    · intro x hx
      simp only [hready] at hx ⊢
      rcases htail with ⟨_, ht⟩ | ⟨_, ht⟩
      · rw [ht] at hx; simp at hx
      · rw [ht, List.mem_singleton] at hx
        subst hx
        simp only [RR.setKey, if_true]
        omega
    · intro hlive
      simp only [RR.live, hready] at hlive
      have htl : tail = [] := (List.append_eq_nil.mp hlive).2
      rcases htail with ⟨hz, _⟩ | ⟨_, ht⟩
      · obtain ⟨p', hp', _, ha, hb⟩ := h2.known next (by unfold RR.live; rw [hq]; simp)
        rw [List.mem_singleton] at hp'
        subst hp'
        simp only
        omega
      · rw [ht] at htl
        simp at htl

theorem rr_punctual_steps {q : Nat} {p : Process} (hq : 0 < q) (n : Nat) (s : RR.State)
    (h : RR.Inv [p] s) (h2 : RR.Inv2 q [p] s) (hj : RR.Punctual p s) :
    RR.Punctual p (RR.steps q n s) := by
  induction n generalizing s with
  | zero => exact hj
  | succ n ih =>
    exact ih _ (rr_inv_step q s h) (rr_inv2_step hq (by simp) s h h2) (rr_punctual_step s h h2 hj)
theorem rr_initialStats_keys (processes : List Process) (names : List String)
    (st : List (String × RR.Stats)) (h : RR.initialStats processes names = some st) :
    st.map (fun kv => kv.1) = names := by
  induction names generalizing st with
  | nil =>
    simp only [RR.initialStats, Option.some.injEq] at h
    rw [← h]; rfl
  | cons n names ih =>
    unfold RR.initialStats at h
    cases hf : processes.find? (fun p => p.name == n) with
    | none => rw [hf] at h; simp at h
    | some p =>
      rw [hf] at h
      cases hr : RR.initialStats processes names with
      | none => rw [hr] at h; simp at h
      | some rest =>
        rw [hr] at h
        simp only [Option.some.injEq] at h
        rw [← h, List.map_cons, ih rest hr]

theorem rr_record_keys (g : List RR.Entry) (st : List (String × RR.Stats)) :
    (g.foldl RR.recordEntry st).map (fun kv => kv.1) = st.map (fun kv => kv.1) := by
  induction g generalizing st with
  | nil => rfl
  | cons e g ih =>
    rw [List.foldl_cons, ih]
    unfold RR.recordEntry
    rw [List.map_map]
    apply List.map_congr_left
    intro kv _
    simp only [Function.comp]
    split <;> rfl

theorem rr_stats_keys (processes : List Process) (g : List RR.Entry)
    (stats : List (String × RR.Stats)) (h : RR.calculateProcessStats processes g = some stats) :
    stats.map (fun kv => kv.1)
      = uniqueNames ((g.filter (fun entry => !entry.isIdle)).map (fun entry => entry.name)) := by
  unfold RR.calculateProcessStats at h
  simp only at h
  cases hi : RR.initialStats processes
      (uniqueNames ((g.filter (fun entry => !entry.isIdle)).map (fun entry => entry.name))) with
  | none => rw [hi] at h; simp at h
  | some st =>
    rw [hi] at h
    simp only [Option.some.injEq] at h
    rw [← h, List.map_map]
    have : (fun kv : String × RR.Stats => kv.1)
        ∘ (fun kv : String × RR.Stats => (kv.1, RR.finishStats kv.2))
        = fun kv : String × RR.Stats => kv.1 := rfl
    rw [this, rr_record_keys, rr_initialStats_keys processes _ st hi]

theorem uniqueNames_nodup (xs : List String) : (uniqueNames xs).Nodup := by
  induction xs with
  | nil => simp [uniqueNames]
  | cons x xs ih =>
    simp only [uniqueNames, List.nodup_cons]
    refine ⟨?_, List.Nodup.sublist (List.filter_sublist _) ih⟩
    intro hmem
    have := (List.mem_filter.mp hmem).2
    simp at this

theorem lookup_of_mem_nodup {β : Type} (l : List (String × β))
    (hnd : (l.map (fun kv => kv.1)).Nodup) (kv : String × β) (hkv : kv ∈ l) :
    List.lookup kv.1 l = some kv.2 := by
  induction l with
  | nil => simp at hkv
  | cons a l ih =>
    simp only [List.map_cons, List.nodup_cons] at hnd
    rcases List.mem_cons.mp hkv with heq | hin
    · subst heq
      simp [List.lookup]
    · have hne : kv.1 ≠ a.1 := by
        intro heq
        exact hnd.1 (heq ▸ List.mem_map_of_mem (fun kv => kv.1) hin)
      have hb : (kv.1 == a.1) = false := by simpa using hne
      obtain ⟨a1, a2⟩ := a
      simp only [List.lookup, hb]
      exact ih hnd.2 hin
theorem priority_single_name {p : Process} {s : Priority.State} (h : Priority.Inv [p] s)
    (a : Priority.AProcess)
    (ha : a ∈ s.pendingProcesses ++ s.activeProcesses ++ s.completedProcesses) :
    a.name = p.name := by
  obtain ⟨p', hp', hn, _⟩ := h.known a ha
  rw [List.mem_singleton] at hp'
  rw [← hn, hp']

theorem priority_punctual_step {p : Process} (s : Priority.State)
    (h : Priority.Inv [p] s) (hj : Priority.Punctual s) :
    Priority.Punctual (Priority.simulationStep s) := by
  have hnameP : ∀ a ∈ s.pendingProcesses, a.name = p.name := fun a ha =>
    priority_single_name h a (List.mem_append.mpr (Or.inl (List.mem_append.mpr (Or.inl ha))))
  have hnameA : ∀ a ∈ s.activeProcesses, a.name = p.name := fun a ha =>
    priority_single_name h a (List.mem_append.mpr (Or.inl (List.mem_append.mpr (Or.inr ha))))
  have hnameC : ∀ a ∈ s.completedProcesses, a.name = p.name := fun a ha =>
    priority_single_name h a (List.mem_append.mpr (Or.inr ha))
  have hrunning : ∀ hp ∈ s.activeProcesses,
      s.pendingProcesses = [] ∧ s.completedProcesses = [] ∧
      ∀ a ∈ s.activeProcesses, a = hp := by
    intro hp hmem
    refine ⟨?_, ?_, ?_⟩
    · apply List.eq_nil_iff_forall_not_mem.mpr
      intro x hx
      exact h.pendAct x hx hp hmem ((hnameP x hx).trans (hnameA hp hmem).symm)
    · apply List.eq_nil_iff_forall_not_mem.mpr
      intro c hc
      exact h.liveDone hp (List.mem_append.mpr (Or.inr hmem)) c hc
        ((hnameA hp hmem).trans (hnameC c hc).symm)
    · intro a ha
      exact name_injective (fun a : Priority.AProcess => a.name) h.actNames ha hmem
        ((hnameA a ha).trans (hnameA hp hmem).symm)
  refine priority_step_cases s (priority_ids_nodup h) Priority.Punctual ?_ ?_ ?_ ?_
  · intro _ _
    exact hj
  · intro a hact hex hmin
    obtain ⟨x, hx, hxa⟩ := hex
    have hcomp : s.completedProcesses = [] := by
      apply List.eq_nil_iff_forall_not_mem.mpr
      intro c hc
      exact h.liveDone x (List.mem_append.mpr (Or.inl hx)) c hc
        ((hnameP x hx).trans (hnameC c hc).symm)
    refine ⟨?_, ?_, ?_, ?_⟩
    · intro y hy
      have hy' := priority_adm_pending s y hy
      have := hj.pending y hy'.1
      have := hmin y hy'.1
      simp only
      omega
    · intro y hy
      simp only at hy ⊢
      rcases priority_adm_active s y hy with hy | hy
      · rw [hact] at hy; simp at hy
      · have h1 := hj.pending y hy.1
        have h2 := hmin y hy.1
        have h3 := h.fresh y hy.1
        have hmax : max s.currentTime a = s.currentTime := by omega
        rw [hmax, h3]
        have : (s.currentTime : Int) ≤ y.arrivalTime := by exact_mod_cast h1
        omega
    · intro c hc
      simp only [Priority.afterAdmission, hcomp] at hc
      simp at hc
    · by_cases hxt : s.currentTime < x.arrivalTime
      · left
        intro hnil
        have : x ∈ (Priority.afterAdmission s).pendingProcesses := by
          simp only [Priority.afterAdmission]
          exact List.mem_filter.mpr ⟨hx, by simpa using hxt⟩
        simp only at hnil
        rw [hnil] at this
        simp at this
      · right; left
        intro hnil
        have : x ∈ (Priority.afterAdmission s).activeProcesses := by
          simp only [Priority.afterAdmission, hact, List.nil_append, List.map_nil]
          refine List.mem_filter.mpr ⟨List.mem_filter.mpr ⟨hx, ?_⟩, by simp⟩
          simp only [decide_eq_true_eq]
          omega
        simp only at hnil
        rw [hnil] at this
        simp at this
  · intro hp hmem _ hz
    obtain ⟨hpend, hcomp, hone⟩ := hrunning hp hmem
    refine ⟨?_, ?_, ?_, ?_⟩
    · intro y hy
      have := (priority_adm_pending s y hy).1
      rw [hpend] at this
      simp at this
    · intro y hy
      simp only at hy
      exfalso
      have hy' := List.mem_filter.mp hy
      obtain ⟨a0, ha0, _, h2, _, _, _⟩ := priority_updated_mem s hp y hy'.1
      have := hone a0 ha0
      have hne := hy'.2
      simp only [bne_iff_ne, ne_eq] at hne
      rw [h2, this] at hne
      exact hne rfl
    · intro c hc
      simp only [hcomp, List.nil_append, List.mem_singleton] at hc
      subst hc
      have := hj.active hp hmem
      simp only
      omega
    · right; right
      simp
  · intro hp hmem _ hnz g6 _
    obtain ⟨hpend, hcomp, hone⟩ := hrunning hp hmem
    have hAT : Priority.arrivingAt s (s.currentTime + 1) = [] := by
      apply List.eq_nil_iff_forall_not_mem.mpr
      intro y hy
      have := (priority_arriving_mem s _ y hy).1
      rw [hpend] at this
      simp at this
    refine ⟨?_, ?_, ?_, ?_⟩
    · intro y hy
      have := (priority_adm_pending s y (List.mem_filter.mp hy).1).1
      rw [hpend] at this
      simp at this
    · intro y hy
      simp only [hAT, List.append_nil] at hy ⊢
      obtain ⟨a0, ha0, _, _, h3, h4, h5⟩ := priority_updated_mem s hp y hy
      have ha0h := hone a0 ha0
      subst ha0h
      have := hj.active a0 ha0
      rcases h5 with ⟨hid, _⟩ | ⟨_, hrem⟩
      · exact absurd rfl hid
      · rw [hrem, h3, h4]
        push_cast
        omega
    · intro c hc
      simp only [Priority.afterAdmission, hcomp] at hc
      simp at hc
    · right; left
      simp only
      intro hnil
      have hlen : (Priority.updatedActive s hp).length = s.activeProcesses.length := by
        unfold Priority.updatedActive
        exact List.length_map _ _
      rw [(List.append_eq_nil.mp hnil).1] at hlen
      have := List.length_pos_of_mem hmem
      simp at hlen
      omega

theorem priority_punctual_steps {p : Process} (n : Nat) (s : Priority.State)
    (h : Priority.Inv [p] s) (hj : Priority.Punctual s) :
    Priority.Punctual (Priority.steps n s) := by
  induction n generalizing s with
  | zero => exact hj
  | succ n ih => exact ih _ (priority_inv_step s h) (priority_punctual_step s h hj)
theorem priority_metrics_single (p : Process) (g : List Priority.Entry) :
    Priority.calculateMetrics [p] g = [] ∨
    ∃ v, Priority.calculateMetrics [p] g = [(p.name, v)] := by
  unfold Priority.calculateMetrics
  simp only [List.foldl_cons, List.foldl_nil]
  unfold Priority.recordProcess
  simp only
  split
  · exact Or.inl rfl
  · exact Or.inr ⟨_, rfl⟩

/-- C20: a single process never waits.  For every input of one process with a
positive burst time, and a positive time quantum, in the finished run of each
of the four policies the waiting time of the process is 0, and so is the sum
of the waiting times that the table divides by the number of its rows to show
the average. -/
theorem single_process_waits_zero (timeQuantum : Nat) (p : Process)
    (hquantum : 0 < timeQuantum) (hburst : 0 < p.burstTime) (n : Nat)
    (hn : 2 * p.burstTime + 3 ≤ n) :
    ((FCFS.chart n [p]).map (fun e => e.waitingTime) = [0] ∧
      tableWaitingSum (FCFS.chart n [p]) = 0) ∧
    ((SJF.chart n [p]).map (fun e => e.waitingTime) = [0] ∧
      tableWaitingSum (SJF.chart n [p]) = 0) ∧
    (∃ stats, RR.calculateProcessStats [p] (RR.chart timeQuantum n [p]) = some stats ∧
      (∃ m, List.lookup p.name stats = some m ∧ m.waitingTime = 0) ∧
      RR.waitingSum stats = 0) ∧
    ((∃ m, List.lookup p.name (Priority.calculateMetrics [p] (Priority.chart n [p])) = some m ∧
        m.waitingTime = 0) ∧
      Priority.waitingSum (Priority.calculateMetrics [p] (Priority.chart n [p])) = 0) := by
  have hnames : ([p].map (fun p => p.name)).Nodup := by simp
  have hb : ∀ x ∈ [p], 0 < x.burstTime := by
    intro x hx
    rw [List.mem_singleton] at hx
    rw [hx]; exact hburst
  have hbound : 2 * ([p].map (fun p => p.burstTime)).sum + 2 * [p].length + 1 ≤ n := by
    simp only [List.map_cons, List.map_nil, List.sum_cons, List.sum_nil, List.length_singleton]
    omega
  obtain ⟨k, rfl⟩ : ∃ k, n = k + 2 := ⟨n - 2, by omega⟩
  refine ⟨?_, ?_, ?_, ?_⟩
  · rw [show k + 2 = (k + 1) + 1 from rfl, fcfs_single_chart]
    simp [tableWaitingSum, TimedProcess.waitingTime, withTiming]
  · rw [sjf_single_chart p hburst]
    simp [tableWaitingSum, TimedProcess.waitingTime, withTiming]
  · have hinit := rr_inv_init [p] hnames hb
    have h := rr_steps_inv timeQuantum (k + 2) _ hinit
    have h2 := rr_steps_inv2 hquantum hnames (k + 2) _ hinit (rr_inv2_init timeQuantum [p])
    have hj := rr_punctual_steps hquantum (k + 2) _ hinit (rr_inv2_init timeQuantum [p])
      (⟨fun x _ => Nat.zero_le _, fun x hx => by simp [RR.startSimulation] at hx,
        fun _ => Nat.zero_le _⟩ : RR.Punctual p (RR.startSimulation [p]))
    have hfin := rr_terminates timeQuantum hquantum (k + 2) _ hinit
      (le_trans (rr_measure_init [p]) hbound)
    unfold RR.chart
    generalize RR.steps timeQuantum (k + 2) (RR.startSimulation [p]) = s at h h2 hj hfin ⊢
    have hlive : RR.live s = [] := by
      simp only [RR.finished, Bool.and_eq_true, List.isEmpty_iff] at hfin
      simp [RR.live, hfin.1.1, hfin.1.2]
    obtain ⟨stats, hstats, hbnd⟩ := rr_metrics_bounds hnames s h2
    have hrow : ∃ e ∈ s.ganttChart, e.isIdle = false ∧ e.name = p.name ∧
        p.arrivalTime + p.burstTime ≤ e.endTime := by
      rcases h2.finishedRow p (List.mem_singleton.mpr rfl) with hl | hrow
      · rw [hlive] at hl; simp at hl
      · exact hrow
    obtain ⟨m, hm, hlo, _, _, hhi⟩ := hbnd p (List.mem_singleton.mpr rfl) hrow
    have ht := hj.idle hlive
    have hm0 : m.waitingTime = 0 := by omega
    refine ⟨stats, hstats, ⟨m, hm, hm0⟩, ?_⟩
    have hkeys := rr_stats_keys [p] s.ganttChart stats hstats
    have hall : ∀ kv ∈ stats, kv.2.waitingTime = 0 := by
      intro kv hkv
      have hk : kv.1 ∈ stats.map (fun kv => kv.1) := List.mem_map_of_mem _ hkv
      rw [hkeys, mem_uniqueNames] at hk
      obtain ⟨e, he, hen⟩ := List.mem_map.mp hk
      have he' := List.mem_filter.mp he
      obtain ⟨p', hp', hpn, _⟩ := h2.rows e he'.1 (by simpa using he'.2)
      rw [List.mem_singleton] at hp'
      have hkn : kv.1 = p.name := by rw [← hen, ← hpn, hp']
      have hl := lookup_of_mem_nodup stats (by rw [hkeys]; exact uniqueNames_nodup _) kv hkv
      rw [hkn, hm] at hl
      simp only [Option.some.injEq] at hl
      rw [← hl]; exact hm0
    unfold RR.waitingSum
    rw [foldl_add_sum (fun stat : String × RR.Stats => stat.2.waitingTime)]
    rw [List.sum_eq_zero]
    · rfl
    · intro x hx
      obtain ⟨kv, hkv, rfl⟩ := List.mem_map.mp hx
      exact hall kv hkv
  · have hinit := priority_inv_init [p] hnames hb
    have hp := priority_steps_inv (k + 2) _ hinit
    have hj := priority_punctual_steps (k + 2) _ hinit
      (⟨fun x _ => Nat.zero_le _, fun x hx => by simp [Priority.startSimulation] at hx,
        fun c hc => by simp [Priority.startSimulation] at hc,
        Or.inl (by simp [Priority.startSimulation, Priority.indexed])⟩ :
        Priority.Punctual (Priority.startSimulation [p]))
    have hfin := priority_terminates (k + 2) _ hinit
      (le_trans (priority_measure_init [p]) hbound)
    unfold Priority.chart
    generalize Priority.steps (k + 2) (Priority.startSimulation [p]) = s at hp hj hfin ⊢
    simp only [Priority.finished, Bool.and_eq_true, List.isEmpty_iff] at hfin
    have hcne : s.completedProcesses ≠ [] := by
      rcases hj.present with h1 | h1 | h1
      · exact absurd hfin.1 h1
      · exact absurd hfin.2 h1
      · exact h1
    obtain ⟨c, cs, hcs⟩ := List.exists_cons_of_ne_nil hcne
    have hc : c ∈ s.completedProcesses := by rw [hcs]; simp
    obtain ⟨p', hp', hpn, hpa, hpb⟩ := hp.known c (List.mem_append.mpr (Or.inr hc))
    rw [List.mem_singleton] at hp'
    subst hp'
    obtain ⟨m, hm, hlo, _, _, hhi⟩ :=
      priority_metrics_bounds hnames s hp c hc p' (List.mem_singleton.mpr rfl) hpn
    have hup := hhi s.currentTime (fun e he x hx => ((hp.rows e he).2.1 x hx).2)
    have hd := hj.done c hc
    have hm0 : m.waitingTime = 0 := by omega
    refine ⟨⟨m, hm, hm0⟩, ?_⟩
    rcases priority_metrics_single p' s.ganttChart with hnil | ⟨v, hv⟩
    · rw [hnil]; rfl
    · rw [hv] at hm ⊢
      simp only [List.lookup, beq_self_eq_true, Option.some.injEq] at hm
      rw [hm]
      simp [Priority.waitingSum, hm0]

/-- Witness for `single_process_waits_zero`: one process that arrives at 3 and
runs for 2 units, time quantum 2, after 7 steps. -/
theorem single_process_waits_zero_witness :
    0 < 2 ∧ 0 < (2 : Nat) ∧ 2 * 2 + 3 ≤ 7 ∧
    Priority.waitingSum
      (Priority.calculateMetrics [{ name := "P1", arrivalTime := 3, burstTime := 2 }]
        (Priority.chart 7 [{ name := "P1", arrivalTime := 3, burstTime := 2 }])) = 0 :=
  ⟨by decide, by decide, by decide,
    (single_process_waits_zero 2 { name := "P1", arrivalTime := 3, burstTime := 2 }
      (by decide) (by decide) 7 (by decide)).2.2.2.2⟩

/-! ## The timer queue: runs that have ended stay as they are -/

theorem rr_async_callbacks_idle (timerFirst : Bool) (timeQuantum n : Nat) (w : RR.Async.World)
    (h : w.events.length = 0) : RR.Async.callbacks timerFirst timeQuantum n w = w := by
  induction n with
  | zero => rfl
  | succ n ih =>
    have hd : RR.Async.dispatch timerFirst timeQuantum w = w := by
      unfold RR.Async.dispatch
      cases he : w.events with
      | nil => rfl
      | cons e rest => rw [he] at h; simp at h
    rw [RR.Async.callbacks, hd, ih]

theorem rr_async_callbacks_add (timerFirst : Bool) (timeQuantum a b : Nat) (w : RR.Async.World) :
    RR.Async.callbacks timerFirst timeQuantum (a + b) w
      = RR.Async.callbacks timerFirst timeQuantum b
          (RR.Async.callbacks timerFirst timeQuantum a w) := by
  induction a generalizing w with
  | zero => simp [RR.Async.callbacks]
  | succ a ih =>
    rw [Nat.succ_add, RR.Async.callbacks, RR.Async.callbacks, ih]

theorem priority_async_callbacks_idle (timerFirst : Bool) (n : Nat) (w : Priority.Async.World)
    (h : w.events.length = 0) : Priority.Async.callbacks timerFirst n w = w := by
  induction n with
  | zero => rfl
  | succ n ih =>
    have hd : Priority.Async.dispatch timerFirst w = w := by
      unfold Priority.Async.dispatch
      cases he : w.events with
      | nil => rfl
      | cons e rest => rw [he] at h; simp at h
    rw [Priority.Async.callbacks, hd, ih]

theorem priority_async_callbacks_add (timerFirst : Bool) (a b : Nat) (w : Priority.Async.World) :
    Priority.Async.callbacks timerFirst (a + b) w
      = Priority.Async.callbacks timerFirst b (Priority.Async.callbacks timerFirst a w) := by
  induction a generalizing w with
  | zero => simp [Priority.Async.callbacks]
  | succ a ih =>
    rw [Nat.succ_add, Priority.Async.callbacks, Priority.Async.callbacks, ih]

/-- Once no callback is waiting, the Priority component stays as it is. -/
theorem priority_async_run_ended (timerFirst : Bool) (n k : Nat) (processes : List Process)
    (h : (Priority.Async.run timerFirst n processes).events.length = 0) :
    Priority.Async.run timerFirst (n + k) processes = Priority.Async.run timerFirst n processes := by
  unfold Priority.Async.run at *
  rw [priority_async_callbacks_add, priority_async_callbacks_idle _ _ _ h]

/-- Once no callback is waiting, the Round Robin component stays as it is. -/
theorem rr_async_run_ended (timerFirst : Bool) (timeQuantum n k : Nat) (processes : List Process)
    (h : (RR.Async.run timerFirst timeQuantum n processes).events.length = 0) :
    RR.Async.run timerFirst timeQuantum (n + k) processes
      = RR.Async.run timerFirst timeQuantum n processes := by
  unfold RR.Async.run at *
  rw [rr_async_callbacks_add, rr_async_callbacks_idle _ _ _ _ h]

/-! ## Where the steps taken one after another and the timer queue agree -/

set_option maxRecDepth 100000 in
/-- On the inputs of the worked examples that `RR.steps` and `Priority.steps`
are evaluated on, the component with its timers ends with the same chart, for
both values of `timerFirst`: on these inputs no invocation of the step writes
while another is under way. -/
theorem steps_agree_with_timers : ∀ timerFirst : Bool,
    Priority.Async.chart timerFirst 41 priorityExample
      = (Priority.chart 9 priorityExample).map Priority.Entry.span ∧
    (Priority.Async.run timerFirst 41 priorityExample).events.length = 0 ∧
    Priority.Async.chart timerFirst 11 lateArrival
      = (Priority.chart 4 lateArrival).map Priority.Entry.span ∧
    (Priority.Async.run timerFirst 11 lateArrival).events.length = 0 ∧
    Priority.Async.chart timerFirst 17 sameNameTwice
      = (Priority.chart 9 sameNameTwice).map Priority.Entry.span ∧
    (Priority.Async.run timerFirst 17 sameNameTwice).events.length = 0 ∧
    RR.Async.chart timerFirst 2 20 twoQuanta
      = (RR.chart 2 4 twoQuanta).map (fun e => (e.name, e.startTime, (e.endTime : Int))) ∧
    (RR.Async.run timerFirst 2 20 twoQuanta).events.length = 0 := by
  intro timerFirst
  cases timerFirst <;> decide

/-! ## Round Robin with its timers: overlapping steps

The runs below are evaluated for both values of `timerFirst`: the timer of the
effect placed before, and behind, the callbacks already waiting for its
instant. -/

set_option maxRecDepth 100000 in
/-- C1 (failing input): Round Robin with quantum 1 on `P1(0,2), P2(5,1)`.  After
33 callbacks none is waiting and the simulation has stopped; the chart is
`[P1:0-1, Idle:1-5, P1:5-6, P1:5-6, P2:6-7]`.  Two invocations of the step ran
the second slice of `P1` side by side: the rows of `P1` add up to 3 units for
a burst time of 2. -/
theorem rr_overlapping_steps_duplicate_work : ∀ timerFirst : Bool,
    (RR.Async.run timerFirst 1 33 lateSecondShort).events.length = 0 ∧
    (RR.Async.run timerFirst 1 33 lateSecondShort).isSimulating = false ∧
    RR.Async.chart timerFirst 1 33 lateSecondShort
      = [("P1", 0, 1), ("Idle", 1, 5), ("P1", 5, 6), ("P1", 5, 6), ("P2", 6, 7)] ∧
    RR.Async.work "P1" (RR.Async.run timerFirst 1 33 lateSecondShort).ganttChart = 3 ∧
    lateSecondShort.map (fun p => (p.name, p.burstTime)) = [("P1", 2), ("P2", 1)] := by
  intro timerFirst
  cases timerFirst <;> decide

set_option maxRecDepth 100000 in
/-- C4 (failing input): Round Robin with quantum 2 on `P1(0,3), P2(5,1)` ends,
after 36 callbacks, with the chart `[Idle:1-5, P1:0-2, P2:5-6, P1:6-7, P2:7-7]`:
the step armed when the clock reached 1 jumped to 5 and emitted `Idle:1-5`
while the slice `P1:0-2` was under way, so the rows are not in start order and
the unit `[1, 2)` belongs to two of them.  Priority on `arrivalAtCompletion`
ends, after 18 callbacks, with `[A:0-1, C:1-2, B:1-2]`: the unit `[1, 2)`
belongs to the rows of `C` and of `B`. -/
theorem overlapping_steps_overlap_rows : ∀ timerFirst : Bool,
    (RR.Async.run timerFirst 2 36 lateSecond).events.length = 0 ∧
    RR.Async.chart timerFirst 2 36 lateSecond
      = [("Idle", 1, 5), ("P1", 0, 2), ("P2", 5, 6), ("P1", 6, 7), ("P2", 7, 7)] ∧
    ¬ (RR.Async.chart timerFirst 2 36 lateSecond).Pairwise
        (fun a b => a.2.1 ≤ b.2.1 ∧ a.2.2 ≤ (b.2.1 : Int)) ∧
    (Priority.Async.run timerFirst 18 arrivalAtCompletion).events.length = 0 ∧
    Priority.Async.chart timerFirst 18 arrivalAtCompletion
      = [("A", 0, some 1), ("C", 1, some 2), ("B", 1, some 2)] := by
  intro timerFirst
  cases timerFirst <;> decide

set_option maxRecDepth 100000 in
/-- C9 (failing input): Round Robin with quantum 2 on `P1(0,3)` and
`P2, P3, P4` that all arrive at 1, inside the first slice `[0, 2)` of `P1`.
After 14 callbacks the slice is over and `P1` has been put back: the ready
queue holds `P1` alone and the three arrivals are still pending (the step armed
at clock 1 is still in its three waits of 600 ms for them).  They are queued
behind `P1`, which also runs the next slice: 30 callbacks after the start the
chart begins `P1:0-2, P1:2-3`. -/
theorem rr_requeued_before_arrivals : ∀ timerFirst : Bool,
    (RR.Async.run timerFirst 2 14 threeArrivals).readyQueue.map
        (fun o => (o.process.name, o.process.remainingTime)) = [("P1", 1)] ∧
    (RR.Async.run timerFirst 2 14 threeArrivals).pendingProcesses.map
        (fun o => (o.process.name, o.process.arrivalTime)) = [("P2", 1), ("P3", 1), ("P4", 1)] ∧
    (RR.Async.run timerFirst 2 14 threeArrivals).currentProcess = none ∧
    (RR.Async.run timerFirst 2 14 threeArrivals).currentTime = 2 ∧
    RR.Async.chart timerFirst 2 14 threeArrivals = [("P1", 0, 2)] ∧
    (RR.Async.chart timerFirst 2 30 threeArrivals).take 2 = [("P1", 0, 2), ("P1", 2, 3)] := by
  intro timerFirst
  cases timerFirst <;> decide

set_option maxRecDepth 100000 in
/-- C15 (failing input): Round Robin with quantum 1 on `P1(0,2), P2(5,1)` ends
with the chart `[P1:0-1, Idle:1-5, P1:5-6, P1:5-6, P2:6-7]`.  The first three
rows hold the two units of `P1`, so `P1` has nothing left when the fourth row
begins; that row is one unit long, not `min(1, 0) = 0`: two invocations read
the same captured `remainingTime`, and `remainingTime["P1"]` ends at -1. -/
theorem rr_slice_past_remaining_time : ∀ timerFirst : Bool,
    (RR.Async.run timerFirst 1 33 lateSecondShort).events.length = 0 ∧
    (RR.Async.run timerFirst 1 33 lateSecondShort).ganttChart.map
        (fun e => (e.name, e.startTime, e.endTime, e.quantum))
      = [("P1", 0, 1, 1), ("Idle", 1, 5, 0), ("P1", 5, 6, 1), ("P1", 5, 6, 1), ("P2", 6, 7, 1)] ∧
    RR.Async.work "P1" ((RR.Async.run timerFirst 1 33 lateSecondShort).ganttChart.take 3) = 2 ∧
    (RR.Async.run timerFirst 1 33 lateSecondShort).remainingTime "P1" = -1 := by
  intro timerFirst
  cases timerFirst <;> decide

set_option maxRecDepth 100000 in
/-- C16 (failing input): Round Robin with quantum 2 on `P1(0,3), P2(5,1)` ends
with the row `P2:7-7`, and Priority on `tieWithEarlierArrival` with the row
`C:2-2`: rows with `startTime = endTime`.  Priority on `arrivalBesideLongRun`
ends with the row `C:1-null`, which is never closed. -/
theorem overlapping_steps_empty_rows : ∀ timerFirst : Bool,
    (RR.Async.run timerFirst 2 36 lateSecond).events.length = 0 ∧
    ("P2", 7, 7) ∈ RR.Async.chart timerFirst 2 36 lateSecond ∧
    (Priority.Async.run timerFirst 37 tieWithEarlierArrival).events.length = 0 ∧
    Priority.Async.chart timerFirst 37 tieWithEarlierArrival
      = [("A", 0, some 1), ("C", 1, some 2), ("B", 1, some 2), ("C", 2, some 2),
         ("D", 2, some 3), ("C", 3, some 5)] ∧
    (Priority.Async.run timerFirst 22 arrivalBesideLongRun).events.length = 0 ∧
    ("C", 1, none) ∈ Priority.Async.chart timerFirst 22 arrivalBesideLongRun := by
  intro timerFirst
  cases timerFirst <;> decide

set_option maxRecDepth 100000 in
/-- C17 (counterexample): Round Robin with quantum 2 on `fourArrivals`.  The
slice `[0, 2)` of `P1` ends before the step armed at clock 1 has admitted the
four arrivals (four waits of 600 ms).  The callback that runs next after 17
callbacks (after 14 when a timer runs before a callback due at the same
instant) is a call of `simulationStep` whose closure holds an empty ready
queue, no current process, the four pending processes of arrival time 1 and
the clock 2: the state `RR.clockPastArrival`.  From it the step leaves the
clock at 2; it does not set it to the minimum pending arrival time 1. -/
theorem rr_idle_step_keeps_clock :
    RR.Async.upcoming (RR.Async.run false 2 17 fourArrivals)
      = some { point := RR.Async.Point.start, currentTime := 2, readyQueue := [],
               currentProcess := none,
               pendingProcesses := [("P2", 1), ("P3", 1), ("P4", 1), ("P5", 1)] } ∧
    RR.Async.upcoming (RR.Async.run true 2 14 fourArrivals)
      = some { point := RR.Async.Point.start, currentTime := 2, readyQueue := [],
               currentProcess := none,
               pendingProcesses := [("P2", 1), ("P3", 1), ("P4", 1), ("P5", 1)] } ∧
    RR.clockPastArrival.currentTime = 2 ∧
    RR.clockPastArrival.readyQueue = [] ∧
    RR.clockPastArrival.currentProcess = none ∧
    RR.clockPastArrival.pendingProcesses.map (fun p => (p.name, p.arrivalTime))
      = [("P2", 1), ("P3", 1), ("P4", 1), ("P5", 1)] ∧
    (RR.simulationStep 2 RR.clockPastArrival).currentTime = 2 ∧
    (RR.simulationStep 2 RR.clockPastArrival).currentTime ≠ 1 := by
  decide

set_option maxRecDepth 100000 in
/-- C28 (failing input): Round Robin with quantum 2 on `P1(0,3), P2(5,1)` ends
with two rows for `P2`, `P2:5-6` and `P2:7-7`, where `ceil(1 / 2) = 1`: two
invocations of the step admitted `P2`, which was queued twice. -/
theorem rr_extra_slice : ∀ timerFirst : Bool,
    (RR.Async.run timerFirst 2 36 lateSecond).events.length = 0 ∧
    (RR.Async.chart timerFirst 2 36 lateSecond).filter (fun e => e.1 == "P2")
      = [("P2", 5, 6), ("P2", 7, 7)] ∧
    lateSecond.map (fun p => (p.name, (p.burstTime + 2 - 1) / 2)) = [("P1", 2), ("P2", 1)] := by
  intro timerFirst
  cases timerFirst <;> decide

set_option maxRecDepth 100000 in
/-- C29 (failing input): Round Robin with quantum 2 on `P1(0,3), P2(5,1)`.
After 18 callbacks nothing is pending and the ready queue is `[P2, P1, P2]`:
two invocations of the step admitted `P2`, which is queued twice.  After 31
callbacks no process is running, `P2` and `P1` are completed, and `P2` is
still in the ready queue, with `remainingTime["P2"] = 0`.  When the run has
ended, with nothing pending, queued or running, the completed list is
`[P2, P1, P2]`: `P2` is completed twice, the second time by a slice of
length 0. -/
theorem rr_process_queued_twice : ∀ timerFirst : Bool,
    (RR.Async.run timerFirst 2 18 lateSecond).readyQueue.map (fun o => o.process.name)
      = ["P2", "P1", "P2"] ∧
    (RR.Async.run timerFirst 2 18 lateSecond).pendingProcesses.length = 0 ∧
    (RR.Async.run timerFirst 2 31 lateSecond).currentProcess = none ∧
    (RR.Async.run timerFirst 2 31 lateSecond).readyQueue.map (fun o => o.process.name)
      = ["P2"] ∧
    (RR.Async.run timerFirst 2 31 lateSecond).completedProcesses.map (fun c => c.1.name)
      = ["P2", "P1"] ∧
    (RR.Async.run timerFirst 2 31 lateSecond).remainingTime "P2" = 0 ∧
    (RR.Async.run timerFirst 2 36 lateSecond).events.length = 0 ∧
    (RR.Async.run timerFirst 2 36 lateSecond).pendingProcesses.length = 0 ∧
    (RR.Async.run timerFirst 2 36 lateSecond).readyQueue.length = 0 ∧
    (RR.Async.run timerFirst 2 36 lateSecond).currentProcess = none ∧
    (RR.Async.run timerFirst 2 36 lateSecond).completedProcesses.map (fun c => (c.1.name, c.2))
      = [("P2", 6), ("P1", 7), ("P2", 7)] := by
  intro timerFirst
  cases timerFirst <;> decide

set_option maxRecDepth 100000 in
/-- With the callbacks due at the same instant run in the order in which they
were created, Round Robin with quantum 2 on `P1(0,5), P2(1,3)` ends after 43
callbacks with the chart `[P1:0-2, P2:2-4, P1:4-6, P2:6-7, P1:7-8]`. -/
theorem rr_example_creation_order :
    (RR.Async.run false 2 43 rrExample).events.length = 0 ∧
    RR.Async.chart false 2 43 rrExample
      = [("P1", 0, 2), ("P2", 2, 4), ("P1", 4, 6), ("P2", 6, 7), ("P1", 7, 8)] := by
  decide

set_option maxRecDepth 100000 in
/-- With a timer run before a callback due at the same instant, Round Robin
with quantum 2 on `P1(0,5), P2(1,3)` ends after 50 callbacks with the chart
`[P1:0-2, P2:2-4, P2:4-5, P1:5-7, P2:7-7, P1:7-8]`: the step armed when the
clock reached 2 starts at the instant at which the step armed at clock 1 ends
its wait for `P2`, and admits `P2` a second time. -/
theorem rr_example_timer_first :
    (RR.Async.run true 2 50 rrExample).events.length = 0 ∧
    RR.Async.chart true 2 50 rrExample
      = [("P1", 0, 2), ("P2", 2, 4), ("P2", 4, 5), ("P1", 5, 7), ("P2", 7, 7), ("P1", 7, 8)] := by
  decide

/-! ## Priority with its timers: overlapping steps

As for Round Robin, the runs are evaluated for both values of `timerFirst`. -/

set_option maxRecDepth 100000 in
/-- C2 (failing input): Priority on `lostArrival`, where `B` arrives at the
instant 1 at which `A` completes while `C` is active.  After 17 callbacks none
is waiting and the simulation has stopped.  The chart is
`[A:0-1, C:1-2, C:1-2]`: `B` has no row (0 units for a burst time of 1) and the
rows of `C` add up to 2 units for a burst time of 1.  `B` is left in
`activeProcesses`. -/
theorem priority_arrival_at_completion_never_runs : ∀ timerFirst : Bool,
    (Priority.Async.run timerFirst 17 lostArrival).events.length = 0 ∧
    (Priority.Async.run timerFirst 17 lostArrival).isSimulating = false ∧
    Priority.Async.chart timerFirst 17 lostArrival
      = [("A", 0, some 1), ("C", 1, some 2), ("C", 1, some 2)] ∧
    Priority.work "B" (Priority.Async.run timerFirst 17 lostArrival).ganttChart = 0 ∧
    Priority.work "C" (Priority.Async.run timerFirst 17 lostArrival).ganttChart = 2 ∧
    lostArrival.map (fun p => (p.name, p.burstTime)) = [("A", 1), ("C", 1), ("B", 1)] ∧
    (Priority.Async.run timerFirst 17 lostArrival).activeProcesses.map
        (fun a => (a.name, a.remainingTime)) = [("B", 1)] := by
  intro timerFirst
  cases timerFirst <;> decide

set_option maxRecDepth 100000 in
/-- C10 (failing input): Priority on `arrivalAtCompletion`, where `B`
(priority 2) arrives at the instant 1 at which `A` completes while `C`
(priority 3) is active.  After 8 callbacks the clock is 1 and `C` and `B` are
active, each with its whole burst time left.  The run ends after 18 callbacks
with the chart `[A:0-1, C:1-2, B:1-2]`: the unit `[1, 2)` is covered by the row
of `C`, although `B` has the smaller priority number.  The step that admits
`B` selects among the captured active processes, which are `C` alone. -/
theorem priority_runs_lower_priority_at_arrival : ∀ timerFirst : Bool,
    (Priority.Async.run timerFirst 18 arrivalAtCompletion).events.length = 0 ∧
    Priority.Async.chart timerFirst 18 arrivalAtCompletion
      = [("A", 0, some 1), ("C", 1, some 2), ("B", 1, some 2)] ∧
    arrivalAtCompletion.map (fun p => (p.name, p.arrivalTime, p.burstTime, p.priority))
      = [("A", 0, 1, 1), ("C", 0, 1, 3), ("B", 1, 1, 2)] ∧
    (Priority.Async.run timerFirst 8 arrivalAtCompletion).activeProcesses.map
        (fun a => (a.name, a.remainingTime)) = [("C", 1), ("B", 1)] ∧
    (Priority.Async.run timerFirst 8 arrivalAtCompletion).currentTime = 1 := by
  intro timerFirst
  cases timerFirst <;> decide

set_option maxRecDepth 100000 in
/-- C11 (failing input): Priority on `tieAfterCompletion`: `C` and `D` have the
priority 1, `C` arrives at 1, the instant at which `A` completes, and `D` at 3.
After 21 callbacks the clock is 3 and `C` is active with 2 of its 3 units left.
The run ends after 28 callbacks with the chart
`[A:0-1, B:1-null, C:1-3, D:3-4]`: of the two arrived unfinished processes of
priority 1 the unit `[3, 4)` goes to `D`, the later arrival, and `C` never runs
again: its rows add up to 2 units and it is in no list when the run has
ended. -/
theorem priority_tie_runs_later_arrival : ∀ timerFirst : Bool,
    (Priority.Async.run timerFirst 28 tieAfterCompletion).events.length = 0 ∧
    Priority.Async.chart timerFirst 28 tieAfterCompletion
      = [("A", 0, some 1), ("B", 1, none), ("C", 1, some 3), ("D", 3, some 4)] ∧
    tieAfterCompletion.map (fun p => (p.name, p.arrivalTime, p.burstTime, p.priority))
      = [("A", 0, 1, 1), ("B", 0, 2, 2), ("C", 1, 3, 1), ("D", 3, 1, 1)] ∧
    (Priority.Async.run timerFirst 21 tieAfterCompletion).currentTime = 3 ∧
    (Priority.Async.run timerFirst 21 tieAfterCompletion).activeProcesses.map
        (fun a => (a.name, a.remainingTime)) = [("B", 2), ("C", 2)] ∧
    Priority.work "C" (Priority.Async.run timerFirst 28 tieAfterCompletion).ganttChart = 2 ∧
    (Priority.Async.run timerFirst 28 tieAfterCompletion).completedProcesses.map
        (fun c => c.name) = ["A", "B", "D"] ∧
    (Priority.Async.run timerFirst 28 tieAfterCompletion).activeProcesses = [] ∧
    (Priority.Async.run timerFirst 28 tieAfterCompletion).pendingProcesses = [] := by
  intro timerFirst
  cases timerFirst <;> decide

set_option maxRecDepth 100000 in
/-- C19 (failing input): Priority on `arrivalBesideLongRun` ends after 22
callbacks with the chart `[A:0-1, C:1-null, B:1-3]`; the row of `C` is never
closed.  On it `calculateMetrics` gives `C`, of burst time 2, the completion
time 0, the turnaround time 0 and the waiting time -2. -/
theorem priority_open_row_negative_waiting : ∀ timerFirst : Bool,
    (Priority.Async.run timerFirst 22 arrivalBesideLongRun).events.length = 0 ∧
    Priority.Async.chart timerFirst 22 arrivalBesideLongRun
      = [("A", 0, some 1), ("C", 1, none), ("B", 1, some 3)] ∧
    (Priority.calculateMetrics arrivalBesideLongRun
        (Priority.Async.run timerFirst 22 arrivalBesideLongRun).ganttChart).map
        (fun kv => (kv.1, kv.2.burstTime, kv.2.completionTime, kv.2.turnaroundTime,
          kv.2.waitingTime, kv.2.responseTime))
      = [("A", 1, 1, 1, 0, 0), ("C", 2, 0, 0, -2, 1), ("B", 1, 3, 2, 1, 0)] := by
  intro timerFirst
  cases timerFirst <;> decide

set_option maxRecDepth 100000 in
/-- C22 (failing input): Priority on `lostArrival`.  After 15 callbacks nothing
is pending or active and `isSimulating` is cleared, with the completed list
`[A, C]`; an invocation still under way then writes its own lists, and after 17
callbacks, when none is waiting, `B` is active and the completed list is
`[A, C, C]`.  `B` is in the completed list of no state of the run. -/
theorem priority_run_ends_with_active_process : ∀ timerFirst : Bool,
    (Priority.Async.run timerFirst 15 lostArrival).isSimulating = false ∧
    (Priority.Async.run timerFirst 15 lostArrival).completedProcesses.map (fun c => c.name)
      = ["A", "C"] ∧
    (Priority.Async.run timerFirst 17 lostArrival).events.length = 0 ∧
    (Priority.Async.run timerFirst 17 lostArrival).pendingProcesses = [] ∧
    (Priority.Async.run timerFirst 17 lostArrival).activeProcesses.map (fun a => a.name)
      = ["B"] ∧
    (Priority.Async.run timerFirst 17 lostArrival).completedProcesses.map (fun c => c.name)
      = ["A", "C", "C"] ∧
    ∀ n, "B" ∉ (Priority.Async.run timerFirst n lostArrival).completedProcesses.map
      (fun c => c.name) := by
  intro timerFirst
  have hend : (Priority.Async.run timerFirst 17 lostArrival).events.length = 0 := by
    cases timerFirst <;> decide
  have hlow : ∀ n < 18, "B" ∉ (Priority.Async.run timerFirst n lostArrival).completedProcesses.map
      (fun c => c.name) := by
    cases timerFirst <;> decide
  refine ⟨?_, ?_, hend, ?_, ?_, ?_, ?_⟩
  · cases timerFirst <;> decide
  · cases timerFirst <;> decide
  · cases timerFirst <;> decide
  · cases timerFirst <;> decide
  · cases timerFirst <;> decide
  · intro n
    by_cases hn : n < 18
    · exact hlow n hn
    · obtain ⟨k, rfl⟩ : ∃ k, n = 17 + k := ⟨n - 17, by omega⟩
      rw [priority_async_run_ended timerFirst 17 k lostArrival hend]
      exact hlow 17 (by omega)

/-! ## FCFS and SJF: rows in order, none repeated -/

/-- C3 (amended): for every input with unique names and positive burst times
and every number of steps, the rows of the FCFS chart and of the SJF chart are
rows of input processes (no Idle row), each starts no earlier than its process
arrives, and each starts no earlier than every row before it starts and ends:
the charts do not overlap, and a period in which no process runs is a gap
between two rows. -/
theorem fcfs_sjf_rows_ordered (processes : List Process)
    (hnames : (processes.map (fun p => p.name)).Nodup)
    (hburst : ∀ p ∈ processes, 0 < p.burstTime) (n : Nat) :
    (∀ e ∈ FCFS.chart n processes, e.toProcess ∈ processes ∧ e.arrivalTime ≤ e.startTime) ∧
    Ordered ((FCFS.chart n processes).map TimedProcess.interval) ∧
    (∀ e ∈ SJF.chart n processes, e.toProcess ∈ processes ∧ e.arrivalTime ≤ e.startTime) ∧
    Ordered ((SJF.chart n processes).map TimedProcess.interval) := by
  have h0 : OrderedUpTo [] 0 := ⟨List.Pairwise.nil, fun x hx => by simp at hx⟩
  have hf := fcfs_steps_inv hnames n _ (fcfs_inv_init processes)
  have hs := sjf_steps_inv hnames hburst n _ (sjf_inv_init processes)
  refine ⟨?_, ?_, ?_, ?_⟩
  · intro e he
    refine ⟨hf.members _ ?_, (hf.rows e he).2⟩
    rw [← hf.chart]
    exact List.mem_map_of_mem _ he
  · exact (fcfs_steps_ordered n (FCFS.startSimulation processes) h0).1
  · intro e he
    refine ⟨hs.members _ ?_, (hs.rows e he).2⟩
    rw [← hs.chart]
    exact List.mem_map_of_mem _ he
  · exact (sjf_steps_ordered n (SJF.startSimulation processes) h0).1

/-- Witness for `fcfs_sjf_rows_ordered`: the FCFS example after 3 steps. -/
theorem fcfs_sjf_rows_ordered_witness :
    (fcfsExample.map (fun p => p.name)).Nodup ∧
    (∀ p ∈ fcfsExample, 0 < p.burstTime) ∧
    Ordered ((FCFS.chart 3 fcfsExample).map TimedProcess.interval) :=
  ⟨by decide, by decide, (fcfs_sjf_rows_ordered fcfsExample (by decide) (by decide) 3).2.1⟩

/-- C21 (amended): for every input with unique names and positive burst times
the FCFS chart and the SJF chart never hold two rows with the same name one
after the other, at any step of the run and so in the finished chart: each
process gets one row. -/
theorem fcfs_sjf_rows_differ (processes : List Process)
    (hnames : (processes.map (fun p => p.name)).Nodup)
    (hburst : ∀ p ∈ processes, 0 < p.burstTime) (n : Nat) :
    NoRepeat ((FCFS.chart n processes).map (fun e => e.name)) ∧
    NoRepeat ((SJF.chart n processes).map (fun e => e.name)) := by
  refine ⟨?_, ?_⟩
  · have hinv := fcfs_steps_inv hnames n _ (fcfs_inv_init processes)
    apply noRepeat_of_nodup
    unfold FCFS.chart
    rw [chart_names_eq, hinv.chart]
    exact hinv.nodup
  · have hinv := sjf_steps_inv hnames hburst n _ (sjf_inv_init processes)
    apply noRepeat_of_nodup
    unfold SJF.chart
    rw [chart_names_eq, hinv.chart]
    exact hinv.nodup

/-- Witness for `fcfs_sjf_rows_differ`: the SJF example after 2 ticks. -/
theorem fcfs_sjf_rows_differ_witness :
    (sjfExample.map (fun p => p.name)).Nodup ∧
    (∀ p ∈ sjfExample, 0 < p.burstTime) ∧
    NoRepeat ((SJF.chart 2 sjfExample).map (fun e => e.name)) :=
  ⟨by decide, by decide, (fcfs_sjf_rows_differ sjfExample (by decide) (by decide) 2).2⟩

end Sched
